import Mathlib

/-!
# Kompimi C Data Structure Library: the unrolled linked list (`list.c`),
the dynamic array (`dynamic_array.c`) and the baseline list (`tests/dllist.c`)

A shallow embedding of `src/list.c`, `src/dynamic_array.c` and the boundary
operations of `src/tests/dllist.c`.  List nodes live in a heap addressed by natural
numbers; `NULL` is `none`; C `int` fields are `Int`.  A function returns `none`
exactly when the C code would dereference an invalid pointer, access a slot
outside a node's `data` array, pass a negative length to `memmove`/`memcpy`, or
(for the loops of `fixup_iter_node`) when the supplied fuel is exhausted.

The calls of `check_list_invariants` and `check_iter_invariants` inside the list
operations are empty when the library is compiled with `NDEBUG`, and the list
operations are embedded without them.  The two checkers are embedded as functions
of their own: the precondition of `step` uses `check_iter_invariants`, and
`step_checked`, `list_remove_end_checked` and `list_remove_beginning_checked` are
the operations of the build with assertions, where a failed assertion aborts the
program (`none`).

`list.h` (the struct declarations and `ELEMENTS_PER_LIST_NODE` users) is not part
of the sources, so two things are parameters of the embedding:
* `CAP`, the value of `ELEMENTS_PER_LIST_NODE` (`72 / sizeof(void*)` in `config.h`);
* `hdr`, the pointer-sized words of a node that precede its `data` member in
  memory (empty when `data` is the first member of the struct).
-/

namespace CDSL

/-- A stored element: an opaque pointer-sized word (`void*`). -/
abbrev Val := Nat

/-- The C struct `list_node`: `count`, the slot array `data`, and the two links. -/
structure list_node where
  count : Int
  data : List Val
  prev : Option Nat
  next : Option Nat
deriving DecidableEq

/-- The C struct `list`. -/
structure list where
  size : Int
  first_node : Option Nat
  last_node : Option Nat
deriving DecidableEq

/-- The C struct `list_iter` (its `lst` pointer is the list passed alongside). -/
structure list_iter where
  node : Option Nat
  offset : Int
deriving DecidableEq

/-- The allocated nodes: `none` at an address that is not allocated. -/
abbrev Heap := Nat → Option list_node

/-- The heap with no node allocated. -/
def emptyHeap : Heap := fun _ => none

/-- Overwrite the node stored at address `a`. -/
@[noinline]
def write (h : Heap) (a : Nat) (n : list_node) : Heap :=
  fun b => if b = a then some n else h b

/-- The effect of `free(a)`. -/
@[noinline]
def free (h : Heap) (a : Nat) : Heap :=
  fun b => if b = a then none else h b

/-- A field assignment through the pointer `a`; `none` if `a` is not allocated. -/
@[noinline]
def store (h : Heap) (a : Nat) (f : list_node → list_node) : Option Heap :=
  match h a with
  | none => none
  | some n => some (write h a (f n))

/-- The effect of `memmove`/`memcpy (dst + d, src + s, n * sizeof(void*))` on the
destination array; `none` when the length is negative or a range leaves
its array. -/
@[noinline]
def memmove (dst : List Val) (d : Int) (src : List Val) (s : Int) (n : Int) :
    Option (List Val) :=
  if 0 ≤ n ∧ 0 ≤ d ∧ 0 ≤ s ∧ d + n ≤ dst.length ∧ s + n ≤ src.length then
    some (dst.take d.toNat ++ ((src.drop s.toNat).take n.toNat ++ dst.drop (d + n).toNat))
  else none

/-- The effect of `data[i] = v`; `none` when `i` is outside the array. -/
@[noinline]
def setSlot (dst : List Val) (i : Int) (v : Val) : Option (List Val) :=
  if 0 ≤ i ∧ i < dst.length then some (dst.set i.toNat v) else none

section
variable (CAP : Int) (hdr : list_node → List Val)

/-- The slot array of a node fresh from `malloc` (contents unspecified by C; the
embedding fills it with zeros). -/
def fresh_data : List Val := List.replicate CAP.toNat 0

/-- Source `list_create`. -/
def list_create : list := ⟨0, none, none⟩

/-- Source `insert_empty_sole_node`: the result is the returned `int`, the heap and
the list. -/
def insert_empty_sole_node (malloc : Heap → Option Nat) (h : Heap) (lst : list) :
    Option (Int × Heap × list) :=
  match malloc h with
  | none => some (0, h, lst)
  | some new_node =>
    some (1, write h new_node ⟨0, fresh_data CAP, none, none⟩,
      { lst with first_node := some new_node, last_node := some new_node })

/-- Source `insert_empty_node_after`. -/
def insert_empty_node_after (malloc : Heap → Option Nat) (h : Heap) (lst : list)
    (node : Nat) : Option (Int × Heap × list) :=
  match malloc h with
  | none => some (0, h, lst)
  | some new_node =>
  match h node with
  | none => none
  | some n =>
  let h1 := write h new_node ⟨0, fresh_data CAP, some node, n.next⟩
  match store h1 node (fun m => { m with next := some new_node }) with
  | none => none
  | some h2 =>
  match h2 new_node with
  | none => none
  | some nn =>
  match nn.next with
  | some nx =>
    match store h2 nx (fun m => { m with prev := some new_node }) with
    | none => none
    | some h3 => some (1, h3, lst)
  | none => some (1, h2, { lst with last_node := some new_node })

/-- Source `insert_empty_node_before`. -/
def insert_empty_node_before (malloc : Heap → Option Nat) (h : Heap) (lst : list)
    (node : Nat) : Option (Int × Heap × list) :=
  match malloc h with
  | none => some (0, h, lst)
  | some new_node =>
  match h node with
  | none => none
  | some n =>
  let h1 := write h new_node ⟨0, fresh_data CAP, n.prev, some node⟩
  match store h1 node (fun m => { m with prev := some new_node }) with
  | none => none
  | some h2 =>
  match h2 new_node with
  | none => none
  | some nn =>
  match nn.prev with
  | some np =>
    match store h2 np (fun m => { m with next := some new_node }) with
    | none => none
    | some h3 => some (1, h3, lst)
  | none => some (1, h2, { lst with first_node := some new_node })

/-- First half of source `remove_node`: detach the node from its predecessor. -/
def unlink_prev (h : Heap) (lst : list) (node : Nat) : Option (Heap × list) :=
  match h node with
  | none => none
  | some n =>
  match n.prev with
  | some p =>
    match store h p (fun m => { m with next := n.next }) with
    | none => none
    | some h1 => some (h1, lst)
  | none => some (h, { lst with first_node := n.next })

/-- Second half of source `remove_node`: detach the node from its successor. -/
def unlink_next (h : Heap) (lst : list) (node : Nat) : Option (Heap × list) :=
  match h node with
  | none => none
  | some n =>
  match n.next with
  | some x =>
    match store h x (fun m => { m with prev := n.prev }) with
    | none => none
    | some h1 => some (h1, lst)
  | none => some (h, { lst with last_node := n.prev })

/-- Source `remove_node`. -/
def remove_node (h : Heap) (lst : list) (node : Nat) : Option (Heap × list) :=
  match unlink_prev h lst node with
  | none => none
  | some (h1, lst1) =>
  match unlink_next h1 lst1 node with
  | none => none
  | some (h2, lst2) =>
  match h2 node with
  | none => none
  | some _ => some (free h2 node, lst2)

/-- First loop of source `fixup_iter_node`: advance while the offset is at or
past the node's count. -/
def fixup_forward (h : Heap) : Nat → list_iter → Option list_iter
  | 0, _ => none
  | fuel + 1, iter =>
    match iter.node with
    | none => some iter
    | some a =>
      match h a with
      | none => none
      | some n =>
        if iter.offset ≥ n.count then
          fixup_forward h fuel ⟨n.next, iter.offset - n.count⟩
        else some iter

/-- Second loop of source `fixup_iter_node`: step back while the offset is
negative and the node is not the first node. -/
def fixup_backward (h : Heap) (lst : list) : Nat → list_iter → Option list_iter
  | 0, _ => none
  | fuel + 1, iter =>
    if iter.node ≠ lst.first_node ∧ iter.offset < 0 then
      match iter.node with
      | none => none
      | some a =>
        match h a with
        | none => none
        | some n =>
          match n.prev with
          | none => none
          | some p =>
            match h p with
            | none => none
            | some pn => fixup_backward h lst fuel ⟨some p, iter.offset + pn.count⟩
    else some iter

/-- Source `fixup_iter_node`. -/
def fixup_iter_node (fuel : Nat) (h : Heap) (lst : list) (iter : list_iter) :
    Option list_iter :=
  match fixup_forward h fuel iter with
  | none => none
  | some iter1 => fixup_backward h lst fuel iter1

/-- Source `split_node`: the result is the returned `int`, the heap, the list and
the iterator. -/
def split_node (malloc : Heap → Option Nat) (h : Heap) (lst : list) (iter : list_iter) :
    Option (Int × Heap × list × list_iter) :=
  match iter.node with
  | none => none
  | some node =>
  match insert_empty_node_after CAP malloc h lst node with
  | none => none
  | some (r, h1, lst1) =>
  if r = 0 then some (0, h1, lst1, iter) else
  match h1 node with
  | none => none
  | some n =>
  match n.next with
  | none => none
  | some nx =>
  match store h1 nx (fun m => { m with count := n.count - n.count / 2 }) with
  | none => none
  | some h2 =>
  match store h2 node (fun m => { m with count := m.count / 2 }) with
  | none => none
  | some h3 =>
  match h3 node with
  | none => none
  | some n3 =>
  match n3.next with
  | none => none
  | some nx3 =>
  match h3 nx3 with
  | none => none
  | some x3 =>
  match memmove x3.data 0 n3.data n3.count x3.count with
  | none => none
  | some d =>
  match store h3 nx3 (fun m => { m with data := d }) with
  | none => none
  | some h4 =>
  match h4 node with
  | none => none
  | some n4 =>
  if iter.offset ≥ n4.count then
    some (1, h4, lst1, ⟨n4.next, iter.offset - n4.count⟩)
  else some (1, h4, lst1, iter)

/-- The common tail of `list_insert_after`: shift the slots above `offset + 1`
up by one and store the value at `offset + 1`. -/
def insert_after_slot (h : Heap) (lst : list) (iter : list_iter) (value : Val) :
    Option (Int × Heap × list × list_iter) :=
  match iter.node with
  | none => none
  | some node =>
  match h node with
  | none => none
  | some m =>
  match memmove m.data (iter.offset + 2) m.data (iter.offset + 1)
      (m.count - (iter.offset + 1)) with
  | none => none
  | some d =>
  match setSlot d (iter.offset + 1) value with
  | none => none
  | some d1 =>
    some (1, write h node { m with data := d1, count := m.count + 1 },
      { lst with size := lst.size + 1 }, iter)

/-- The common first statement of `list_insert_after` and `list_insert_before`
(for a non-end iterator): `if (iter->node->count == ELEMENTS_PER_LIST_NODE)` the
node is split, and the result of `split_node` is passed on; otherwise the
result is 1 and nothing changes. -/
def split_if_full (malloc : Heap → Option Nat) (h : Heap) (lst : list) (iter : list_iter) :
    Option (Int × Heap × list × list_iter) :=
  match iter.node with
  | none => none
  | some a =>
  match h a with
  | none => none
  | some n =>
  if n.count = CAP then split_node CAP malloc h lst iter else some (1, h, lst, iter)

/-- Source `list_insert_after`. -/
def list_insert_after (malloc : Heap → Option Nat) (h : Heap) (lst : list)
    (iter : list_iter) (value : Val) : Option (Int × Heap × list × list_iter) :=
  match split_if_full CAP malloc h lst iter with
  | none => none
  | some (r, h1, lst1, iter1) =>
    if r = 0 then some (0, h1, lst1, iter1) else insert_after_slot h1 lst1 iter1 value

/-- The common tail of `list_insert_end`: store the value in the first free slot
of the last node. -/
def insert_end_slot (h : Heap) (lst : list) (value : Val) : Option (Int × Heap × list) :=
  match lst.last_node with
  | none => none
  | some node =>
  match h node with
  | none => none
  | some m =>
  match setSlot m.data m.count value with
  | none => none
  | some d =>
    some (1, write h node { m with data := d, count := m.count + 1 },
      { lst with size := lst.size + 1 })

/-- The second test of `list_insert_end`: a full last node gets an empty
successor first. -/
def insert_end_room (malloc : Heap → Option Nat) (h : Heap) (lst : list) (value : Val) :
    Option (Int × Heap × list) :=
  match lst.last_node with
  | none => none
  | some last =>
  match h last with
  | none => none
  | some ln =>
  if ln.count = CAP then
    match insert_empty_node_after CAP malloc h lst last with
    | none => none
    | some (r, h1, lst1) =>
      if r = 0 then some (0, h1, lst1) else insert_end_slot h1 lst1 value
  else insert_end_slot h lst value

/-- Source `list_insert_end`. -/
def list_insert_end (malloc : Heap → Option Nat) (h : Heap) (lst : list) (value : Val) :
    Option (Int × Heap × list) :=
  if lst.last_node = none then
    match insert_empty_sole_node CAP malloc h lst with
    | none => none
    | some (r, h1, lst1) =>
      if r = 0 then some (0, h1, lst1) else insert_end_room CAP malloc h1 lst1 value
  else insert_end_room CAP malloc h lst value

/-- The common tail of `list_insert_before`: shift the slots from `offset` up by
one, store the value at `offset` and advance the iterator's offset. -/
def insert_before_slot (h : Heap) (lst : list) (iter : list_iter) (value : Val) :
    Option (Int × Heap × list × list_iter) :=
  match iter.node with
  | none => none
  | some node =>
  match h node with
  | none => none
  | some m =>
  match memmove m.data (iter.offset + 1) m.data iter.offset (m.count - iter.offset) with
  | none => none
  | some d =>
  match setSlot d iter.offset value with
  | none => none
  | some d1 =>
    some (1, write h node { m with data := d1, count := m.count + 1 },
      { lst with size := lst.size + 1 }, { iter with offset := iter.offset + 1 })

/-- Source `list_insert_before`. -/
def list_insert_before (malloc : Heap → Option Nat) (h : Heap) (lst : list)
    (iter : list_iter) (value : Val) : Option (Int × Heap × list × list_iter) :=
  match iter.node with
  | none =>
    match list_insert_end CAP malloc h lst value with
    | none => none
    | some (r, h1, lst1) => some (r, h1, lst1, iter)
  | some _ =>
    match split_if_full CAP malloc h lst iter with
    | none => none
    | some (r, h1, lst1, iter1) =>
      if r = 0 then some (0, h1, lst1, iter1) else insert_before_slot h1 lst1 iter1 value

/-- The common tail of `list_insert_beginning`: shift the first node's slots up
by one and store the value in slot 0. -/
def insert_beginning_slot (h : Heap) (lst : list) (value : Val) :
    Option (Int × Heap × list) :=
  match lst.first_node with
  | none => none
  | some node =>
  match h node with
  | none => none
  | some m =>
  match memmove m.data 1 m.data 0 m.count with
  | none => none
  | some d =>
  match setSlot d 0 value with
  | none => none
  | some d1 =>
    some (1, write h node { m with data := d1, count := m.count + 1 },
      { lst with size := lst.size + 1 })

/-- The second test of `list_insert_beginning`: a full first node gets an empty
predecessor first. -/
def insert_beginning_room (malloc : Heap → Option Nat) (h : Heap) (lst : list)
    (value : Val) : Option (Int × Heap × list) :=
  match lst.first_node with
  | none => none
  | some first =>
  match h first with
  | none => none
  | some fn =>
  if fn.count = CAP then
    match insert_empty_node_before CAP malloc h lst first with
    | none => none
    | some (r, h1, lst1) =>
      if r = 0 then some (0, h1, lst1) else insert_beginning_slot h1 lst1 value
  else insert_beginning_slot h lst value

/-- Source `list_insert_beginning`. -/
def list_insert_beginning (malloc : Heap → Option Nat) (h : Heap) (lst : list)
    (value : Val) : Option (Int × Heap × list) :=
  if lst.first_node = none then
    match insert_empty_sole_node CAP malloc h lst with
    | none => none
    | some (r, h1, lst1) =>
      if r = 0 then some (0, h1, lst1) else insert_beginning_room CAP malloc h1 lst1 value
  else insert_beginning_room CAP malloc h lst value

/-- Source `rebalance_nodes`, first branch of the sum test: the three nodes fit
in one, so the centre node receives all elements and both neighbours are
removed.  (The three nodes are read once: they are distinct in a chain.) -/
def rebalance_merge (h : Heap) (lst : list) (iter : list_iter) (node : Nat) :
    Option (Heap × list × list_iter) :=
  match h node with
  | none => none
  | some n =>
  match n.prev with
  | none => none
  | some p =>
  match n.next with
  | none => none
  | some x =>
  match h p with
  | none => none
  | some pn =>
  match h x with
  | none => none
  | some xn =>
  match memmove n.data pn.count n.data 0 n.count with
  | none => none
  | some d1 =>
  match memmove d1 0 pn.data 0 pn.count with
  | none => none
  | some d2 =>
  match memmove d2 (pn.count + n.count) xn.data 0 xn.count with
  | none => none
  | some d3 =>
  let h1 := write h node { n with data := d3, count := xn.count + n.count + pn.count }
  match remove_node h1 lst p with
  | none => none
  | some (h2, lst2) =>
  match h2 node with
  | none => none
  | some n2 =>
  match n2.next with
  | none => none
  | some x2 =>
  match remove_node h2 lst2 x2 with
  | none => none
  | some (h3, lst3) => some (h3, lst3, { iter with offset := iter.offset + pn.count })

/-- Source `rebalance_nodes`, second branch of the sum test ("merge into two
nodes"): the predecessor and the centre node share the elements and the
successor is removed.  The `memmove` of the `else` part reads from `node`, the
start of the struct, not from `node->data`: its source is `hdr n ++ n.data`. -/
def rebalance_two (h : Heap) (lst : list) (iter : list_iter) (node : Nat) :
    Option (Heap × list × list_iter) :=
  match h node with
  | none => none
  | some n =>
  match n.prev with
  | none => none
  | some p =>
  match n.next with
  | none => none
  | some x =>
  match h p with
  | none => none
  | some pn =>
  match h x with
  | none => none
  | some xn =>
  let elements_sum := xn.count + n.count + pn.count
  let node1_count := (elements_sum + 0) / 2
  let node2_count := (elements_sum + 1) / 2
  if pn.count < node1_count then
    let move_1 := node1_count - pn.count
    let move_2 := n.count - move_1
    match memmove pn.data pn.count n.data 0 move_1 with
    | none => none
    | some pd =>
    match memmove n.data 0 n.data move_1 move_2 with
    | none => none
    | some d1 =>
    match memmove d1 move_2 xn.data 0 xn.count with
    | none => none
    | some d2 =>
    let h1 := write h p { pn with data := pd, count := node1_count }
    let h2 := write h1 node { n with data := d2, count := node2_count }
    match remove_node h2 lst x with
    | none => none
    | some (h3, lst3) => some (h3, lst3, { iter with offset := iter.offset - move_1 })
  else
    let move_1 := pn.count - node1_count
    match memmove n.data move_1 (hdr n ++ n.data) 0 n.count with
    | none => none
    | some d1 =>
    match memmove d1 0 pn.data node1_count move_1 with
    | none => none
    | some d2 =>
    match memmove d2 (n.count + move_1) xn.data 0 xn.count with
    | none => none
    | some d3 =>
    let h1 := write h p { pn with count := node1_count }
    let h2 := write h1 node { n with data := d3, count := node2_count }
    match remove_node h2 lst x with
    | none => none
    | some (h3, lst3) => some (h3, lst3, { iter with offset := iter.offset + move_1 })

/-- Source `rebalance_nodes`. -/
def rebalance_nodes (fuel : Nat) (h : Heap) (lst : list) (iter : list_iter) :
    Option (Heap × list × list_iter) :=
  match iter.node with
  | none => none
  | some node =>
  match h node with
  | none => none
  | some n =>
  if n.next = none ∨ n.prev = none then
    if n.count = 0 then
      match fixup_iter_node fuel h lst iter with
      | none => none
      | some iter1 =>
        match remove_node h lst node with
        | none => none
        | some (h1, lst1) => some (h1, lst1, iter1)
    else some (h, lst, iter)
  else
  match n.next with
  | none => none
  | some x =>
  match n.prev with
  | none => none
  | some p =>
  match h x with
  | none => none
  | some xn =>
  match h p with
  | none => none
  | some pn =>
  let elements_sum := xn.count + n.count + pn.count
  if elements_sum ≤ CAP then rebalance_merge h lst iter node
  else if (elements_sum + 1) / 2 ≤ CAP then rebalance_two hdr h lst iter node
  else some (h, lst, iter)

/-- Source `list_remove`. -/
def list_remove (fuel : Nat) (h : Heap) (lst : list) (iter : list_iter) :
    Option (Heap × list × list_iter) :=
  match iter.node with
  | none => none
  | some node =>
  match h node with
  | none => none
  | some n =>
  match memmove n.data iter.offset n.data (iter.offset + 1) (n.count - (iter.offset + 1)) with
  | none => none
  | some d =>
  let h1 := write h node { n with data := d, count := n.count - 1 }
  let lst1 := { lst with size := lst.size - 1 }
  match rebalance_nodes CAP hdr fuel h1 lst1 iter with
  | none => none
  | some (h2, lst2, iter2) =>
  match fixup_iter_node fuel h2 lst2 iter2 with
  | none => none
  | some iter3 => some (h2, lst2, iter3)

/-- Source `list_remove_beginning`, without its closing
`check_list_invariants (lst)` (empty under `NDEBUG`);
`list_remove_beginning_checked` is the call with it. -/
def list_remove_beginning (h : Heap) (lst : list) : Option (Heap × list) :=
  match lst.first_node with
  | none => none
  | some node =>
  match h node with
  | none => none
  | some n =>
  match memmove n.data 0 n.data 1 (n.count - 1) with
  | none => none
  | some d =>
  let h1 := write h node { n with data := d, count := n.count - 1 }
  let lst1 := { lst with size := lst.size - 1 }
  if n.count - 1 = 0 then remove_node h1 lst1 node else some (h1, lst1)

/-- Source `list_remove_end`, without its closing `check_list_invariants (lst)`
(empty under `NDEBUG`); `list_remove_end_checked` is the call with it. -/
def list_remove_end (h : Heap) (lst : list) : Option (Heap × list) :=
  match lst.last_node with
  | none => none
  | some node =>
  match h node with
  | none => none
  | some n =>
  let h1 := write h node { n with count := n.count - 1 }
  let lst1 := { lst with size := lst.size - 1 }
  if n.count - 1 = 0 then remove_node h1 lst1 node else some (h1, lst1)

/-- Source `list_first`. -/
def list_first (lst : list) : list_iter := ⟨lst.first_node, 0⟩

/-- Source `list_last`. -/
def list_last (h : Heap) (lst : list) : Option list_iter :=
  match lst.last_node with
  | none => some ⟨none, 0⟩
  | some a =>
    match h a with
    | none => none
    | some n => some ⟨some a, n.count - 1⟩

/-- Source `list_swap`: memberwise exchange of the two structs. -/
def list_swap (lst1 lst2 : list) : list × list := (lst2, lst1)

/-- Source `list_contains_node`: the loop over the chain, with fuel. -/
def list_contains_node (h : Heap) (node_to_find : Nat) : Nat → Option Nat → Option Bool
  | 0, _ => none
  | _ + 1, none => some false
  | fuel + 1, some a =>
    if a = node_to_find then some true else
    match h a with
    | none => none
    | some n => list_contains_node h node_to_find fuel n.next

/-- Source `check_iter_invariants`: `some true` when every assertion holds. -/
def check_iter_invariants (fuel : Nat) (h : Heap) (lst : list) (iter : list_iter) :
    Option Bool :=
  match iter.node with
  | none => some true
  | some a =>
    match h a with
    | none => none
    | some n =>
      if 0 ≤ iter.offset ∧ iter.offset < n.count then
        list_contains_node h a fuel lst.first_node
      else some false

/-- The loop of source `check_list_invariants`: the result is whether every
assertion in the loop held, `count_sum` and `num_nodes`. -/
def check_nodes (h : Heap) (lst : list) : Nat → Option Nat → Int → Int →
    Option (Bool × Int × Int)
  | 0, _, _, _ => none
  | _ + 1, none, count_sum, num_nodes => some (true, count_sum, num_nodes)
  | fuel + 1, some a, count_sum, num_nodes =>
    match h a with
    | none => none
    | some n =>
      if (some a = lst.first_node ∨ n.prev ≠ none) ∧ (some a = lst.last_node ∨ n.next ≠ none)
          ∧ 1 ≤ n.count ∧ n.count ≤ CAP then
        check_nodes h lst fuel n.next (count_sum + n.count) (num_nodes + 1)
      else some (false, count_sum, num_nodes)

/-- Source `check_list_invariants`: `some true` when every assertion holds (C's
`/` on `int` truncates, hence `Int.tdiv`). -/
def check_list_invariants (fuel : Nat) (h : Heap) (lst : list) : Option Bool :=
  if ¬ (0 ≤ lst.size) then some false
  else if ¬ ((0 < lst.size ∧ lst.first_node ≠ none ∧ lst.last_node ≠ none) ∨
      (lst.size = 0 ∧ lst.first_node = none ∧ lst.last_node = none)) then some false
  else
    match check_nodes CAP h lst fuel lst.first_node 0 0 with
    | none => none
    | some (ok, count_sum, num_nodes) =>
      some (ok && decide (lst.size = count_sum) &&
        decide (count_sum ≥ Int.tdiv ((num_nodes - 2) * CAP) 2))

/-- A program state: the heap and two list structs living in it (the second one
is what `list_swap` exchanges the first with). -/
structure State where
  heap : Heap
  lst : list
  other : list

/-- One call of a public mutation operation on the first list of the state.
`malloc` is what the allocator answers during the call (`none`: failure), `iter`
the iterator passed, `fuel` the bound on loop iterations. -/
inductive Op where
  | insert_beginning (value : Val) (malloc : Option Nat)
  | insert_end (value : Val) (malloc : Option Nat)
  | insert_after (iter : list_iter) (value : Val) (malloc : Option Nat) (fuel : Nat)
  | insert_before (iter : list_iter) (value : Val) (malloc : Option Nat) (fuel : Nat)
  | remove (iter : list_iter) (fuel : Nat)
  | remove_beginning
  | remove_end
  | swap

/-- The allocator hands out only addresses that are not allocated. -/
def fresh_at (h : Heap) (malloc : Option Nat) : Bool :=
  match malloc with
  | none => true
  | some a => (h a).isNone

/-- One step: the operation is run when its precondition holds (a fresh address
from the allocator; for the iterator operations the assertions of
`check_iter_invariants`; a non-end iterator for `list_insert_after` and
`list_remove`; a non-empty list for the two boundary removals). -/
def step (op : Op) (s : State) : Option State :=
  match op with
  | Op.insert_beginning v m =>
    if fresh_at s.heap m then
      match list_insert_beginning CAP (fun _ => m) s.heap s.lst v with
      | none => none
      | some (_, h1, lst1) => some ⟨h1, lst1, s.other⟩
    else none
  | Op.insert_end v m =>
    if fresh_at s.heap m then
      match list_insert_end CAP (fun _ => m) s.heap s.lst v with
      | none => none
      | some (_, h1, lst1) => some ⟨h1, lst1, s.other⟩
    else none
  | Op.insert_after iter v m fuel =>
    if fresh_at s.heap m ∧ iter.node ≠ none ∧
        check_iter_invariants fuel s.heap s.lst iter = some true then
      match list_insert_after CAP (fun _ => m) s.heap s.lst iter v with
      | none => none
      | some (_, h1, lst1, _) => some ⟨h1, lst1, s.other⟩
    else none
  | Op.insert_before iter v m fuel =>
    if fresh_at s.heap m ∧ check_iter_invariants fuel s.heap s.lst iter = some true then
      match list_insert_before CAP (fun _ => m) s.heap s.lst iter v with
      | none => none
      | some (_, h1, lst1, _) => some ⟨h1, lst1, s.other⟩
    else none
  | Op.remove iter fuel =>
    if iter.node ≠ none ∧ check_iter_invariants fuel s.heap s.lst iter = some true then
      match list_remove CAP hdr fuel s.heap s.lst iter with
      | none => none
      | some (h1, lst1, _) => some ⟨h1, lst1, s.other⟩
    else none
  | Op.remove_beginning =>
    if 0 < s.lst.size then
      match list_remove_beginning s.heap s.lst with
      | none => none
      | some (h1, lst1) => some ⟨h1, lst1, s.other⟩
    else none
  | Op.remove_end =>
    if 0 < s.lst.size then
      match list_remove_end s.heap s.lst with
      | none => none
      | some (h1, lst1) => some ⟨h1, lst1, s.other⟩
    else none
  | Op.swap => some ⟨s.heap, (list_swap s.lst s.other).1, (list_swap s.lst s.other).2⟩

/-- Run a sequence of operations; `none` as soon as one step has no result. -/
def run : List Op → State → Option State
  | [], s => some s
  | op :: ops, s =>
    match step CAP hdr op s with
    | none => none
    | some s1 => run ops s1

/-- The state after `list_create` for both lists, nothing allocated. -/
def init : State := ⟨emptyHeap, list_create, list_create⟩

/-- The states reachable from `list_create` by the public mutation operations,
each called within its precondition. -/
def Reachable (s : State) : Prop := ∃ ops, run CAP hdr ops init = some s

end

/-! ## The chain a list represents -/

/-- An abstract node: the address of a node of the chain, its `count` and its
slot array; the links are determined by the position in the chain. -/
structure ANode where
  addr : Nat
  count : Int
  data : List Val
deriving DecidableEq

/-- The address of the first node of `ns`, or `q` when there is none. -/
def headAddr (ns : List ANode) (q : Option Nat) : Option Nat :=
  match ns with
  | [] => q
  | n :: _ => some n.addr

/-- The address of the last node of `ns`, or `p` when there is none. -/
def lastAddr (p : Option Nat) : List ANode → Option Nat
  | [] => p
  | n :: rest => lastAddr (some n.addr) rest

/-- The nodes `ns` are allocated in `h` and doubly linked in this order, the
first one having `prev = p` and the last one `next = q`. -/
def Chain (h : Heap) : Option Nat → List ANode → Option Nat → Prop
  | _, [], _ => True
  | p, n :: rest, q =>
    h n.addr = some ⟨n.count, n.data, p, headAddr rest q⟩ ∧ Chain h (some n.addr) rest q

/-- The list struct `lst` in heap `h` represents exactly the chain `ns`: a
valid doubly linked sequence from `first_node` to `last_node` whose nodes are
pairwise distinct. -/
def Rep (h : Heap) (lst : list) (ns : List ANode) : Prop :=
  (ns.map ANode.addr).Nodup ∧ Chain h none ns none ∧
    lst.first_node = headAddr ns none ∧ lst.last_node = lastAddr none ns

/-- Sum of the counts of the nodes of the chain. -/
def count_sum (ns : List ANode) : Int := (ns.map ANode.count).sum

/-- A node of a well-formed list: count in `1..CAP`, and `CAP` slots. -/
def Good (CAP : Int) (n : ANode) : Prop :=
  1 ≤ n.count ∧ n.count ≤ CAP ∧ (n.data.length : Int) = CAP

/-- What an operation left alone: outside the old chain `ns` and the address
`m` handed out by the allocator the heap `h1` is the heap `h`, and the new chain
`ns1` uses no other addresses. -/
def Frames (h h1 : Heap) (ns ns1 : List ANode) (m : Option Nat) : Prop :=
  (∀ b, b ∉ ns.map ANode.addr → m ≠ some b → h1 b = h b) ∧
    (∀ b ∈ ns1.map ANode.addr, b ∈ ns.map ANode.addr ∨ m = some b)

/-- Well-formed list: a valid chain, every node's count in `1..CAP` (and its slot
array of `CAP` slots), and `size` the sum of the counts. -/
def WF (CAP : Int) (h : Heap) (lst : list) (ns : List ANode) : Prop :=
  Rep h lst ns ∧ (∀ n ∈ ns, Good CAP n) ∧ lst.size = count_sum ns

/-- The element sequence: from the first node to the last, each node's first
`count` slots. -/
def elems : List ANode → List Val
  | [] => []
  | n :: rest => n.data.take n.count.toNat ++ elems rest

/-! ## Specification vocabulary, test scenarios and sample states -/

/-- The slot array of the new node after `split_node` moved the upper half of
`D` into it (`k` slots stay behind, `C - k` are moved). -/
def split_data (CAP : Int) (D : List Val) (k C : Nat) : List Val :=
  (fresh_data CAP).take 0 ++ ((D.drop k).take (C - k) ++ (fresh_data CAP).drop (0 + (C - k)))

/-- The logical index (position in the element sequence) of the slot a non-end
iterator denotes; `none` when the iterator's node is not in the chain or its
offset is not a live slot of the node. -/
def iter_index : List ANode → list_iter → Option Nat
  | [], _ => none
  | n :: rest, iter =>
    if iter.node = some n.addr then
      (if 0 ≤ iter.offset ∧ iter.offset < n.count then some iter.offset.toNat else none)
    else (iter_index rest iter).map (fun k => (n.data.take n.count.toNat).length + k)

/-- The slot array after the slots `j .. c-1` were moved up by one and `v` was
stored in slot `j`. -/
def shifted (d : List Val) (c j : Nat) (v : Val) : List Val :=
  (d.take (j + 1) ++ ((d.drop j).take (c - j) ++ d.drop (j + 1 + (c - j)))).set j v

/-- Both lists of the state are well formed and their chains share no node. -/
def Inv (CAP : Int) (s : State) : Prop :=
  ∃ ns ms, WF CAP s.heap s.lst ns ∧ WF CAP s.heap s.other ms ∧
    (∀ b ∈ ns.map ANode.addr, b ∉ ms.map ANode.addr)

/-- The loop of test `test_insert_end_iterate`: `list_insert_end(&lst, i)` for
`i = 0 .. list_size - 1` on a fresh list, the allocator answering the call for
element `i` with the unused address `i`. -/
def test_insert_end_iterate (CAP : Int) : Nat → Option (Heap × list)
  | 0 => some (emptyHeap, list_create)
  | n + 1 =>
    match test_insert_end_iterate CAP n with
    | none => none
    | some (h, lst) =>
      match list_insert_end CAP (fun _ => some n) h lst n with
      | none => none
      | some (_, h1, lst1) => some (h1, lst1)

/-- The counts of the nodes met by following `next` from `node` (at most `fuel`
nodes; `none` on a dangling pointer). -/
def chain_counts (h : Heap) : Nat → Option Nat → Option (List Int)
  | 0, _ => some []
  | _ + 1, none => some []
  | fuel + 1, some a =>
    match h a with
    | none => none
    | some n =>
      match chain_counts h fuel n.next with
      | none => none
      | some cs => some (n.count :: cs)

/-- Whether every count except the first and the last is at least `CAP / 2`. -/
def interior_half_full (CAP : Int) (counts : List Int) : Bool :=
  (counts.tail.dropLast).all (fun c => decide (CAP / 2 ≤ c))

/-- `list_insert_end` of the values `0 .. n-1`, the allocator answering with the
address equal to the value. -/
def fill_ops (n : Nat) : List Op := (List.range n).map (fun i => Op.insert_end i (some i))

/-- A one-node list with `CAP = 2` whose node (at address 0) is full. -/
def demo_heap : Heap := write emptyHeap 0 ⟨2, [7, 8], none, none⟩

/-- The list struct of `demo_heap`. -/
def demo_list : list := ⟨2, some 0, some 0⟩

/-- The chain of `demo_heap`. -/
def demo_nodes : List ANode := [⟨0, 2, [7, 8]⟩]

/-- Eighteen elements appended (two full nodes when `CAP = 9`), one element
inserted after the first one (the first node splits into 4 + 5 and grows to 5),
then four removals at the beginning: the chain has counts 1, 5, 9 and the node
at address 50 is the middle one. -/
def ops_1_5_9 : List Op :=
  fill_ops 18 ++ [Op.insert_after ⟨some 0, 0⟩ 100 (some 50) 5] ++
    List.replicate 4 Op.remove_beginning

/-- The same scenario with `CAP = 4`: eight elements appended, one inserted
after the first, two removed at the beginning: counts 1, 2, 4, the middle node
at address 50. -/
def ops_1_2_4 : List Op :=
  fill_ops 8 ++ [Op.insert_after ⟨some 0, 0⟩ 100 (some 50) 5] ++
    List.replicate 2 Op.remove_beginning

/-- Twenty-seven elements appended (three full nodes when `CAP = 9`), then `k`
calls of `list_remove` on an iterator at the first slot of the middle node
(address 9). -/
def ops_thin_middle (k : Nat) : List Op :=
  fill_ops 27 ++ List.replicate k (Op.remove ⟨some 9, 0⟩ 5)

/-- The middle node thinned to one element, then eight removals at either end:
three nodes of one element each. -/
def ops_1_1_1 : List Op :=
  ops_thin_middle 8 ++ List.replicate 8 Op.remove_beginning ++ List.replicate 8 Op.remove_end

/-- The state after appending 0, 1, 2 with `CAP = 2`. -/
def sample_state : State := (run 2 (fun _ => []) (fill_ops 3) init).getD init

/-- The addresses met by following `next` from `node` until `NULL`; `none` on a
dangling pointer or when `NULL` is not reached within `fuel` steps. -/
def chain_addrs (h : Heap) : Nat → Option Nat → Option (List Nat)
  | 0, _ => none
  | _ + 1, none => some []
  | fuel + 1, some a =>
    match h a with
    | none => none
    | some n =>
      match chain_addrs h fuel n.next with
      | none => none
      | some as => some (a :: as)

/-- A forward traversal (the loop of `LIST_ITERATE` in the tests): the first
`count` slots of every node met by following `next` from `node` until `NULL`;
`none` on a dangling pointer or when `NULL` is not reached within `fuel`
steps. -/
def chain_elems (h : Heap) : Nat → Option Nat → Option (List Val)
  | 0, _ => none
  | _ + 1, none => some []
  | fuel + 1, some a =>
    match h a with
    | none => none
    | some n =>
      match chain_elems h fuel n.next with
      | none => none
      | some vs => some (n.data.take n.count.toNat ++ vs)

/-- Successive `list_insert_end` calls that all succeed: each call is given its
value and the allocator's answer (`NULL` or an unused address); `none` when a
call returns 0 or the allocator hands out an address in use. -/
def insert_end_all (CAP : Int) : List (Val × Option Nat) → Heap → list → Option (Heap × list)
  | [], h, lst => some (h, lst)
  | (v, m) :: rest, h, lst =>
    if fresh_at h m then
      match list_insert_end CAP (fun _ => m) h lst v with
      | none => none
      | some (r, h1, lst1) => if r = 0 then none else insert_end_all CAP rest h1 lst1
    else none

/-- The second loop of test `test_insert_remove_end`: `n` calls of
`list_remove_end`. -/
def remove_end_times : Nat → Heap → list → Option (Heap × list)
  | 0, h, lst => some (h, lst)
  | n + 1, h, lst =>
    match list_remove_end h lst with
    | none => none
    | some (h1, lst1) => remove_end_times n h1 lst1

/-- What the spec says of `insert_before` on the end iterator ("degrades to
`insert_end`"): the result and the list state are those of `list_insert_end`,
and the iterator is left as it is. -/
def insert_before_end_spec (CAP : Int) (malloc : Heap → Option Nat) (h : Heap) (lst : list)
    (iter : list_iter) (value : Val) : Option (Int × Heap × list × list_iter) :=
  (list_insert_end CAP malloc h lst value).map (fun r => (r.1, r.2.1, r.2.2, iter))

/-- The scenario of test `test_swap` with sizes 3 and 7: the values 0, 1, 2 are
appended to the first list and 3 .. 9 to the second (the state machine appends
to its first list, so the second batch sits between two exchanges). -/
def ops_swap_3_7 : List Op :=
  fill_ops 3 ++ [Op.swap] ++
    (List.range 7).map (fun i => Op.insert_end (i + 3) (some (i + 3))) ++ [Op.swap]

/-- Eighteen elements appended (two full nodes when `CAP = 9`), one element
inserted after the first one (the first node splits into 4 + 5 and grows to 5),
then three removals at the beginning: the chain has counts 2, 5, 9 and the node
at address 50 is the middle one. -/
def ops_2_5_9 : List Op :=
  fill_ops 18 ++ [Op.insert_after ⟨some 0, 0⟩ 100 (some 50) 5] ++
    List.replicate 3 Op.remove_beginning

/-- Twelve elements appended (three full nodes when `CAP = 4`), three calls of
`list_remove` at the first slot of the middle node (address 4), which leave the
counts 4, 1, 4, then two removals at either end: counts 2, 1, 2. -/
def ops_2_1_2 : List Op :=
  fill_ops 12 ++ List.replicate 3 (Op.remove ⟨some 4, 0⟩ 5) ++
    List.replicate 2 Op.remove_beginning ++ List.replicate 2 Op.remove_end

/-- Three linked nodes (addresses 0, 1, 2) with `CAP = 4`: the outer ones hold
1, 2 and 4, 5, the middle one has just lost its only element. -/
def merge_heap : Heap :=
  write (write (write emptyHeap 0 ⟨2, [1, 2, 0, 0], none, some 1⟩)
    1 ⟨0, [3, 0, 0, 0], some 0, some 2⟩) 2 ⟨2, [4, 5, 0, 0], some 1, none⟩

/-- The list struct of `merge_heap`. -/
def merge_list : list := ⟨4, some 0, some 2⟩

/-- The statements of source `list_remove` that come before its call of
`rebalance_nodes`: the slots above the iterator move down by one, `count` and
`size` drop by one. -/
def list_remove_shift (h : Heap) (lst : list) (iter : list_iter) : Option (Heap × list) :=
  match iter.node with
  | none => none
  | some node =>
  match h node with
  | none => none
  | some n =>
  match memmove n.data iter.offset n.data (iter.offset + 1) (n.count - (iter.offset + 1)) with
  | none => none
  | some d =>
    some (write h node { n with data := d, count := n.count - 1 },
      { lst with size := lst.size - 1 })

/-! ## The build with assertions

`check_list_invariants` and `check_iter_invariants` are empty when the library is
compiled with `NDEBUG`.  Compiled without it, every public operation runs them
where the source calls them, and a failed assertion aborts the program: the call
has no result (`none`). -/

/-- Source `list_remove_end` in the build with assertions: the call, then its
closing `check_list_invariants (lst)`. -/
def list_remove_end_checked (CAP : Int) (fuel : Nat) (h : Heap) (lst : list) :
    Option (Heap × list) :=
  match list_remove_end h lst with
  | none => none
  | some (h1, lst1) =>
    if check_list_invariants CAP fuel h1 lst1 = some true then some (h1, lst1) else none

/-- Source `list_remove_beginning` in the build with assertions: the call, then
its closing `check_list_invariants (lst)`. -/
def list_remove_beginning_checked (CAP : Int) (fuel : Nat) (h : Heap) (lst : list) :
    Option (Heap × list) :=
  match list_remove_beginning h lst with
  | none => none
  | some (h1, lst1) =>
    if check_list_invariants CAP fuel h1 lst1 = some true then some (h1, lst1) else none

/-- One call of a public operation in the build with assertions, within the
precondition of `step`: the opening `check_list_invariants` of the iterator
operations, the call, and the closing `check_list_invariants` and
`check_iter_invariants` of a call that does not return early with 0. -/
def step_checked (CAP : Int) (hdr : list_node → List Val) (fuel : Nat) (op : Op)
    (s : State) : Option State :=
  match op with
  | Op.insert_beginning v m =>
    if fresh_at s.heap m then
      match list_insert_beginning CAP (fun _ => m) s.heap s.lst v with
      | none => none
      | some (r, h1, lst1) =>
        if r = 0 ∨ check_list_invariants CAP fuel h1 lst1 = some true then
          some ⟨h1, lst1, s.other⟩
        else none
    else none
  | Op.insert_end v m =>
    if fresh_at s.heap m then
      match list_insert_end CAP (fun _ => m) s.heap s.lst v with
      | none => none
      | some (r, h1, lst1) =>
        if r = 0 ∨ check_list_invariants CAP fuel h1 lst1 = some true then
          some ⟨h1, lst1, s.other⟩
        else none
    else none
  | Op.insert_after iter v m f =>
    if fresh_at s.heap m ∧ iter.node ≠ none ∧
        check_list_invariants CAP fuel s.heap s.lst = some true ∧
        check_iter_invariants f s.heap s.lst iter = some true then
      match list_insert_after CAP (fun _ => m) s.heap s.lst iter v with
      | none => none
      | some (r, h1, lst1, iter1) =>
        if r = 0 ∨ (check_list_invariants CAP fuel h1 lst1 = some true ∧
            check_iter_invariants fuel h1 lst1 iter1 = some true) then
          some ⟨h1, lst1, s.other⟩
        else none
    else none
  | Op.insert_before iter v m f =>
    if fresh_at s.heap m ∧ check_list_invariants CAP fuel s.heap s.lst = some true ∧
        check_iter_invariants f s.heap s.lst iter = some true then
      match list_insert_before CAP (fun _ => m) s.heap s.lst iter v with
      | none => none
      | some (r, h1, lst1, iter1) =>
        if r = 0 ∨ (check_list_invariants CAP fuel h1 lst1 = some true ∧
            check_iter_invariants fuel h1 lst1 iter1 = some true) then
          some ⟨h1, lst1, s.other⟩
        else none
    else none
  | Op.remove iter f =>
    if iter.node ≠ none ∧ check_list_invariants CAP fuel s.heap s.lst = some true ∧
        check_iter_invariants f s.heap s.lst iter = some true then
      match list_remove CAP hdr f s.heap s.lst iter with
      | none => none
      | some (h1, lst1, iter1) =>
        if check_list_invariants CAP fuel h1 lst1 = some true ∧
            check_iter_invariants fuel h1 lst1 iter1 = some true then
          some ⟨h1, lst1, s.other⟩
        else none
    else none
  | Op.remove_beginning =>
    if 0 < s.lst.size then
      match list_remove_beginning_checked CAP fuel s.heap s.lst with
      | none => none
      | some (h1, lst1) => some ⟨h1, lst1, s.other⟩
    else none
  | Op.remove_end =>
    if 0 < s.lst.size then
      match list_remove_end_checked CAP fuel s.heap s.lst with
      | none => none
      | some (h1, lst1) => some ⟨h1, lst1, s.other⟩
    else none
  | Op.swap =>
    if check_list_invariants CAP fuel s.heap (list_swap s.lst s.other).1 = some true ∧
        check_list_invariants CAP fuel s.heap (list_swap s.lst s.other).2 = some true then
      some ⟨s.heap, (list_swap s.lst s.other).1, (list_swap s.lst s.other).2⟩
    else none

/-- Run a sequence of operations in the build with assertions; `none` as soon as
one call has no result. -/
def run_checked (CAP : Int) (hdr : list_node → List Val) (fuel : Nat) :
    List Op → State → Option State
  | [], s => some s
  | op :: ops, s =>
    match step_checked CAP hdr fuel op s with
    | none => none
    | some s1 => run_checked CAP hdr fuel ops s1

/-- The middle node thinned to one element, eight removals at the beginning and
seven at the end: counts 1, 1, 2. -/
def ops_1_1_2 : List Op :=
  ops_thin_middle 8 ++ List.replicate 8 Op.remove_beginning ++ List.replicate 7 Op.remove_end

/-- The middle node thinned to one element, eight removals at the end and seven
at the beginning: counts 2, 1, 1. -/
def ops_2_1_1 : List Op :=
  ops_thin_middle 8 ++ List.replicate 8 Op.remove_end ++ List.replicate 7 Op.remove_beginning

/-! ## The dynamic array (`dynamic_array.c`)

An element (`element_size` bytes) is one `Val`; the block `data` points to is the
list of its element slots.  `realloc` is an oracle: given the old block (or
`NULL`) and the number of element slots asked for, it answers `NULL` or the new
block.

C `int` is the 32-bit type.  An `int` expression whose exact value is not an
`int` value (signed overflow, or the conversion `(int) x` of a `double` whose
integer part is out of range) has undefined behaviour, and the function has no
result (`none`).  The same holds when an assertion of
`check_dynamic_array_invariants` fails (the program aborts), when a `memmove`
leaves the block, and when `new_value` is read after the block it points into
has been reallocated. -/

/-- The C struct `dynamic_array`; `data` is `none` for `NULL`, otherwise the
contents of the block, one entry per element slot. -/
structure dynamic_array where
  size : Int
  capacity : Int
  data : Option (List Val)
deriving DecidableEq

/-- An allocator answer for `realloc (data, element_size * n)`: the new block, or
`none` for `NULL`. -/
abbrev Realloc := Option (List Val) → Int → Option (List Val)

/-- The largest value of the C type `int`. -/
def INT_MAX : Int := 2147483647

/-- The smallest value of the C type `int`. -/
def INT_MIN : Int := -2147483648

/-- The value of an `int` expression whose exact result is `x`: `none` (undefined
behaviour) when `x` is not an `int` value. -/
def as_int (x : Int) : Option Int := if INT_MIN ≤ x ∧ x ≤ INT_MAX then some x else none

/-- The `sizeof (int)` of the tests, which store `int` elements. -/
def sizeof_int : Int := 4

/-- The C expression `(int)(capacity * DYNAMIC_ARRAY_MINIMUM_LOAD)` with the
constant 0.4 of `config.h`.  C computes the product in `double` and truncates;
for every `int` capacity the integer part is that of the exact product
`capacity * 2 / 5`, which is an `int` value. -/
def minimum_load_size (capacity : Int) : Int := Int.tdiv (capacity * 2) 5

/-- The C expression `(int)(size / DYNAMIC_ARRAY_LOAD_AFTER_EXPANSION)` with the
constant 0.6: the integer part of the exact quotient `size * 5 / 3`, undefined
when that is not an `int` value. -/
def size_after_expansion (size : Int) : Option Int := as_int (Int.tdiv (size * 5) 3)

/-- The C expression `(int)(size / DYNAMIC_ARRAY_LOAD_AFTER_SHRINKING)` with the
constant 0.8: the integer part of the exact quotient `size * 5 / 4`, undefined
when that is not an `int` value. -/
def size_after_shrinking (size : Int) : Option Int := as_int (Int.tdiv (size * 5) 4)

/-- Source `check_dynamic_array_invariants`: whether every assertion holds. -/
def check_dynamic_array_invariants (array : dynamic_array) : Bool :=
  decide (0 ≤ array.size) && decide (array.size ≤ array.capacity) && array.data.isSome

/-- Source `dynamic_array_create_func`; `malloc` answers with a block of
`initial_size` slots or `NULL`. -/
def dynamic_array_create_func (malloc : Int → Option (List Val))
    (element_size initial_size : Int) : Option dynamic_array :=
  match as_int (element_size * initial_size) with
  | none => none
  | some _ =>
    if check_dynamic_array_invariants ⟨initial_size, initial_size, malloc initial_size⟩ then
      some ⟨initial_size, initial_size, malloc initial_size⟩
    else none

/-- Source `dynamic_array_resize_func`: the returned `int` and the array. -/
def dynamic_array_resize_func (realloc : Realloc) (array : dynamic_array)
    (element_size size : Int) : Option (Int × dynamic_array) :=
  if size < minimum_load_size array.capacity ∨ size > array.capacity then
    match (if size > array.capacity then size_after_expansion size
      else size_after_shrinking size) with
    | none => none
    | some quotient =>
    match as_int (1 + quotient) with
    | none => none
    | some new_capacity =>
    match as_int (element_size * new_capacity) with
    | none => none
    | some _ =>
    match realloc array.data new_capacity with
    | none => some (0, array)
    | some new_data =>
      if check_dynamic_array_invariants ⟨size, new_capacity, some new_data⟩ then
        some (1, ⟨size, new_capacity, some new_data⟩)
      else none
  else
    if check_dynamic_array_invariants { array with size := size } then
      some (1, { array with size := size })
    else none

/-- Whether `dynamic_array_resize_func` calls `realloc` (the test of its `if`):
after a successful call the old block is freed and pointers into it are
invalid. -/
def resize_reallocates (array : dynamic_array) (size : Int) : Bool :=
  decide (size < minimum_load_size array.capacity ∨ size > array.capacity)

/-- What an argument `void* new_value` points to when the call is made: an object
outside the array's block that holds `v`, or the element slot `i` of the array's
own block. -/
inductive value_ptr where
  | object (v : Val)
  | slot (i : Int)
deriving DecidableEq

/-- The element read through `new_value` once the resize is done: an object
outside the block still holds its value; a pointer into the block reads the slot
as it is now, and is invalid when the block has been reallocated. -/
def read_value (reallocated : Bool) (blk : List Val) : value_ptr → Option Val
  | value_ptr.object v => some v
  | value_ptr.slot i =>
    if reallocated then none else if 0 ≤ i then blk[i.toNat]? else none

/-- The call `memmove ((char * ) dst + element_size * d,
(char * ) src + element_size * s, element_size * n)`: the three products are
`int` expressions. -/
def memmove_elements (element_size : Int) (dst : List Val) (d : Int) (src : List Val)
    (s n : Int) : Option (List Val) :=
  if (as_int (element_size * d)).isSome ∧ (as_int (element_size * s)).isSome ∧
      (as_int (element_size * n)).isSome then memmove dst d src s n
  else none

/-- Source `dynamic_array_insert_range_func`. -/
def dynamic_array_insert_range_func (realloc : Realloc) (array : dynamic_array)
    (element_size index_start length : Int) : Option (Int × dynamic_array) :=
  match as_int (array.size + length) with
  | none => none
  | some size1 =>
  match dynamic_array_resize_func realloc array element_size size1 with
  | none => none
  | some (r, a1) =>
    if r = 0 then some (0, a1) else
    match a1.data with
    | none => none
    | some blk =>
      match memmove_elements element_size blk (index_start + length) blk index_start
          (a1.size - index_start) with
      | none => none
      | some blk1 =>
        if check_dynamic_array_invariants { a1 with data := some blk1 } then
          some (1, { a1 with data := some blk1 })
        else none

/-- Source `dynamic_array_insert_end_func`: `new_value` is read after the
resize. -/
def dynamic_array_insert_end_func (realloc : Realloc) (array : dynamic_array)
    (element_size : Int) (new_value : value_ptr) : Option (Int × dynamic_array) :=
  match as_int (array.size + 1) with
  | none => none
  | some size1 =>
  match dynamic_array_resize_func realloc array element_size size1 with
  | none => none
  | some (r, a1) =>
    if r = 0 then some (0, a1) else
    match a1.data with
    | none => none
    | some blk =>
      match as_int (element_size * (a1.size - 1)) with
      | none => none
      | some _ =>
      match read_value (resize_reallocates array size1) blk new_value with
      | none => none
      | some v =>
      match setSlot blk (a1.size - 1) v with
      | none => none
      | some blk1 =>
        if check_dynamic_array_invariants { a1 with data := some blk1 } then
          some (1, { a1 with data := some blk1 })
        else none

/-- Source `dynamic_array_insert_at_func`: `new_value` is read after the resize
and after the elements from `index` on have been moved up. -/
def dynamic_array_insert_at_func (realloc : Realloc) (array : dynamic_array)
    (element_size index : Int) (new_value : value_ptr) : Option (Int × dynamic_array) :=
  match as_int (array.size + 1) with
  | none => none
  | some size1 =>
  match dynamic_array_resize_func realloc array element_size size1 with
  | none => none
  | some (r, a1) =>
    if r = 0 then some (0, a1) else
    match a1.data with
    | none => none
    | some blk =>
      match memmove_elements element_size blk (index + 1) blk index
          (a1.size - (index + 1)) with
      | none => none
      | some blk1 =>
        match read_value (resize_reallocates array size1) blk1 new_value with
        | none => none
        | some v =>
        match setSlot blk1 index v with
        | none => none
        | some blk2 =>
          if check_dynamic_array_invariants { a1 with data := some blk2 } then
            some (1, { a1 with data := some blk2 })
          else none

/-- Source `dynamic_array_remove_end_func`: the result of the resize is not
looked at. -/
def dynamic_array_remove_end_func (realloc : Realloc) (array : dynamic_array)
    (element_size : Int) : Option dynamic_array :=
  match as_int (array.size - 1) with
  | none => none
  | some size1 =>
  match dynamic_array_resize_func realloc array element_size size1 with
  | none => none
  | some (_, a1) => some a1

/-- Source `dynamic_array_remove_range_func`: the result of the resize is not
looked at. -/
def dynamic_array_remove_range_func (realloc : Realloc) (array : dynamic_array)
    (element_size index_start length : Int) : Option dynamic_array :=
  match as_int (index_start + length) with
  | none => none
  | some index_end =>
  match (if index_end < array.size then
      match array.data with
      | none => none
      | some blk =>
        match memmove_elements element_size blk index_start blk index_end
            (array.size - index_end) with
        | none => none
        | some blk1 => some { array with data := some blk1 }
    else some array) with
  | none => none
  | some a0 =>
  match as_int (array.size - length) with
  | none => none
  | some size1 =>
  match dynamic_array_resize_func realloc a0 element_size size1 with
  | none => none
  | some (_, a1) => if check_dynamic_array_invariants a1 then some a1 else none

/-- Source `dynamic_array_reserve_func`. -/
def dynamic_array_reserve_func (realloc : Realloc) (array : dynamic_array)
    (element_size capacity : Int) : Option (Int × dynamic_array) :=
  if capacity > array.capacity then
    match as_int (element_size * capacity) with
    | none => none
    | some _ =>
    match realloc array.data capacity with
    | none => some (0, array)
    | some new_data =>
      if check_dynamic_array_invariants
          { array with data := some new_data, capacity := capacity } then
        some (1, { array with data := some new_data, capacity := capacity })
      else none
  else if check_dynamic_array_invariants array then some (1, array) else none

/-- Macro `IDX` of `dynamic_array.h` with bounds checking (`IDX_BOUNDS`): `none`
when the assertion `0 <= idx < size` fails or the slot lies outside the block. -/
def IDX (array : dynamic_array) (idx : Int) : Option Val :=
  if 0 ≤ idx ∧ idx < array.size then
    match array.data with
    | none => none
    | some blk => blk[idx.toNat]?
  else none

/-- The elements of the array: the first `size` slots of the block. -/
def contents (array : dynamic_array) : List Val :=
  match array.data with
  | none => []
  | some blk => blk.take array.size.toNat

/-- A well-formed array of elements of `element_size` bytes: the assertions of
`check_dynamic_array_invariants`, the block has room for `capacity` elements, and
its byte count `element_size * capacity` is an `int` value. -/
def DA_ok (element_size : Int) (a : dynamic_array) : Prop :=
  0 ≤ a.size ∧ a.size ≤ a.capacity ∧ 1 ≤ element_size ∧
    element_size * a.capacity ≤ INT_MAX ∧
    ∃ blk, a.data = some blk ∧ (blk.length : Int) = a.capacity

/-- What C promises of `realloc`: a block it returns has the room asked for, and
up to the smaller of the two sizes its slots are those of the old block. -/
def ReallocOK (realloc : Realloc) : Prop :=
  ∀ old n new, realloc old n = some new →
    (new.length : Int) = n ∧
      ∀ blk, old = some blk → ∀ i : Nat, i < blk.length → (i : Int) < n → new[i]? = blk[i]?

/-- An allocator that fails (`none`) or succeeds, the slots beyond the old block
taken from `junk` (what the uninitialised memory happens to hold). -/
def realloc_of (junk : Option (List Val)) : Realloc := fun old n =>
  match junk with
  | none => none
  | some j =>
    if 0 ≤ n then some (((old.getD []).take n.toNat ++ (j ++ List.replicate n.toNat 0)).take
      n.toNat)
    else none

/-- The public operations on one dynamic array, each with the answer of the
allocator to the reallocation it may attempt.  The value of an insertion is
passed by a pointer to an object outside the array's block. -/
inductive DAOp where
  | resize (size : Int) (junk : Option (List Val))
  | insert_end (value : Val) (junk : Option (List Val))
  | insert_at (index : Int) (value : Val) (junk : Option (List Val))
  | insert_range (index_start length : Int) (junk : Option (List Val))
  | remove_end (junk : Option (List Val))
  | remove_range (index_start length : Int) (junk : Option (List Val))
  | reserve (capacity : Int) (junk : Option (List Val))
deriving DecidableEq

/-- One operation, run when its precondition holds (a size that is not negative,
an index inside the array, a non-empty array for `remove_end`, a range inside the
array for `remove_range`); `none` otherwise or when the call has no result. -/
def da_step (element_size : Int) (op : DAOp) (a : dynamic_array) : Option dynamic_array :=
  match op with
  | DAOp.resize size junk =>
    if 0 ≤ size then
      (dynamic_array_resize_func (realloc_of junk) a element_size size).map (fun r => r.2)
    else none
  | DAOp.insert_end value junk =>
    (dynamic_array_insert_end_func (realloc_of junk) a element_size
      (value_ptr.object value)).map (fun r => r.2)
  | DAOp.insert_at index value junk =>
    if 0 ≤ index ∧ index ≤ a.size then
      (dynamic_array_insert_at_func (realloc_of junk) a element_size index
        (value_ptr.object value)).map (fun r => r.2)
    else none
  | DAOp.insert_range index_start length junk =>
    if 0 ≤ index_start ∧ index_start ≤ a.size ∧ 0 ≤ length then
      (dynamic_array_insert_range_func (realloc_of junk) a element_size index_start
        length).map (fun r => r.2)
    else none
  | DAOp.remove_end junk =>
    if 1 ≤ a.size then dynamic_array_remove_end_func (realloc_of junk) a element_size
    else none
  | DAOp.remove_range index_start length junk =>
    if 0 ≤ index_start ∧ 0 ≤ length ∧ index_start + length ≤ a.size then
      dynamic_array_remove_range_func (realloc_of junk) a element_size index_start length
    else none
  | DAOp.reserve capacity junk =>
    (dynamic_array_reserve_func (realloc_of junk) a element_size capacity).map
      (fun r => r.2)

/-- Run a sequence of operations on a dynamic array. -/
def da_run (element_size : Int) : List DAOp → dynamic_array → Option dynamic_array
  | [], a => some a
  | op :: ops, a =>
    match da_step element_size op a with
    | none => none
    | some a1 => da_run element_size ops a1

/-- A full array of two elements, 7 and 8. -/
def demo_array : dynamic_array := ⟨2, 2, some [7, 8]⟩

/-- An array made by `dynamic_array_create (int, 5)` whose slots hold
10 .. 14, then three calls of `dynamic_array_remove_end` (none of them
reallocates): size 2, capacity 5. -/
def da_2_of_5 : Option dynamic_array :=
  (dynamic_array_create_func (realloc_of (some [10, 11, 12, 13, 14]) none) sizeof_int 5).bind
    (da_run sizeof_int (List.replicate 3 (DAOp.remove_end (some []))))

/-- The three arguments of the `memmove` in source
`dynamic_array_insert_range_func`, in elements: destination index, source index
and number of elements; `a1` is the array after the resize. -/
def insert_range_memmove (a1 : dynamic_array) (index_start length : Int) : Int × Int × Int :=
  (index_start + length, index_start, a1.size - index_start)

/-! ## The lengths of the two-node redistribution -/

/-- The lengths `move_1` and `move_2` that source `rebalance_nodes` computes in
the first part of its two-node branch (`node->prev->count < node1_count`), read
off the heap as the source does. -/
def rebalance_moves (h : Heap) (node : Nat) : Option (Int × Int) :=
  match h node with
  | none => none
  | some n =>
  match n.prev with
  | none => none
  | some p =>
  match n.next with
  | none => none
  | some x =>
  match h p with
  | none => none
  | some pn =>
  match h x with
  | none => none
  | some xn =>
  let elements_sum := xn.count + n.count + pn.count
  let node1_count := (elements_sum + 0) / 2
  let move_1 := node1_count - pn.count
  let move_2 := n.count - move_1
  some (move_1, move_2)

/-- Twenty-seven elements appended (three full nodes when `CAP = 9`), seven
removals at the end and one `list_remove` at the first slot of the middle node
(address 9), which rebalances nothing: counts 9, 8, 2. -/
def ops_9_8_2 : List Op :=
  fill_ops 27 ++ List.replicate 7 Op.remove_end ++ [Op.remove ⟨some 9, 0⟩ 5]

/-! ## The baseline doubly linked list (`tests/dllist.c`) -/

/-- The C struct `dllist_node`. -/
structure dllist_node where
  data : Val
  next : Option Nat
  prev : Option Nat
deriving DecidableEq

/-- The C struct `dllist`. -/
structure dllist where
  first_node : Option Nat
  last_node : Option Nat
deriving DecidableEq

/-- The heap of `dllist_node`s; `none` is an address that is not allocated. -/
abbrev DLHeap := Nat → Option dllist_node

/-- Store a node at an address. -/
def dl_write (h : DLHeap) (a : Nat) (n : dllist_node) : DLHeap :=
  fun b => if b = a then some n else h b

/-- Source `free (node)`. -/
def dl_free (h : DLHeap) (a : Nat) : DLHeap :=
  fun b => if b = a then none else h b

/-- Source `dllist_create`. -/
def dllist_create : dllist := ⟨none, none⟩

/-- Source `dllist_insert_beginning`; `malloc` answers with the address of the
new node (`none` for `NULL`, which the source dereferences). -/
def dllist_insert_beginning (malloc : DLHeap → Option Nat) (h : DLHeap) (lst : dllist)
    (data : Val) : Option (DLHeap × dllist) :=
  match malloc h with
  | none => none
  | some new_node =>
    let h1 := dl_write h new_node ⟨data, lst.first_node, none⟩
    let lst1 : dllist := { lst with first_node := some new_node }
    match lst.first_node with
    | some nx =>
      match h1 nx with
      | none => none
      | some n => some (dl_write h1 nx { n with prev := some new_node }, lst1)
    | none => some (h1, { lst1 with last_node := some new_node })

/-- Source `dllist_insert_end`. -/
def dllist_insert_end (malloc : DLHeap → Option Nat) (h : DLHeap) (lst : dllist)
    (data : Val) : Option (DLHeap × dllist) :=
  match malloc h with
  | none => none
  | some new_node =>
    let h1 := dl_write h new_node ⟨data, none, lst.last_node⟩
    let lst1 : dllist := { lst with last_node := some new_node }
    match lst.last_node with
    | some pv =>
      match h1 pv with
      | none => none
      | some n => some (dl_write h1 pv { n with next := some new_node }, lst1)
    | none => some (h1, { lst1 with first_node := some new_node })

/-- Source `dllist_remove_end`. -/
def dllist_remove_end (h : DLHeap) (lst : dllist) : Option (DLHeap × dllist) :=
  match lst.last_node with
  | none => none
  | some node =>
    match h node with
    | none => none
    | some n =>
      let lst1 : dllist := { lst with last_node := n.prev }
      match n.prev with
      | some pv =>
        match h pv with
        | none => none
        | some pn => some (dl_free (dl_write h pv { pn with next := none }) node, lst1)
      | none => some (dl_free h node, { lst1 with first_node := none })

/-- Source `dllist_remove_beginning`: the `else` part assigns `first_node`
again. -/
def dllist_remove_beginning (h : DLHeap) (lst : dllist) : Option (DLHeap × dllist) :=
  match lst.first_node with
  | none => none
  | some node =>
    match h node with
    | none => none
    | some n =>
      let lst1 : dllist := { lst with first_node := n.next }
      match n.next with
      | some nx =>
        match h nx with
        | none => none
        | some xn => some (dl_free (dl_write h nx { xn with prev := none }) node, lst1)
      | none => some (dl_free h node, { lst1 with first_node := none })

/-- A list holding the single element 7, made by `dllist_insert_end` on
`dllist_create ()` (the node at address 0). -/
def dl_single : Option (DLHeap × dllist) :=
  dllist_insert_end (fun _ => some 0) (fun _ => none) dllist_create 7

/-! ## Heap and chain lemmas -/

@[simp] theorem write_same (h : Heap) (a : Nat) (n : list_node) : write h a n a = some n := by
  simp [write]

theorem write_ne (h : Heap) (a b : Nat) (n : list_node) (hne : b ≠ a) :
    write h a n b = h b := by
  simp [write, hne]

@[simp] theorem free_same (h : Heap) (a : Nat) : free h a a = none := by
  simp [free]

theorem free_ne (h : Heap) (a b : Nat) (hne : b ≠ a) : free h a b = h b := by
  simp [free, hne]

theorem store_eq (h : Heap) (a : Nat) (f : list_node → list_node) (n : list_node)
    (hn : h a = some n) : store h a f = some (write h a (f n)) := by
  simp [store, hn]

@[simp] theorem headAddr_nil (q : Option Nat) : headAddr [] q = q := rfl

@[simp] theorem headAddr_cons (n : ANode) (ns : List ANode) (q : Option Nat) :
    headAddr (n :: ns) q = some n.addr := rfl

@[simp] theorem lastAddr_nil (p : Option Nat) : lastAddr p [] = p := rfl

@[simp] theorem lastAddr_cons (p : Option Nat) (n : ANode) (ns : List ANode) :
    lastAddr p (n :: ns) = lastAddr (some n.addr) ns := rfl

theorem headAddr_append (l r : List ANode) (q : Option Nat) :
    headAddr (l ++ r) q = headAddr l (headAddr r q) := by
  cases l <;> simp

theorem lastAddr_append (p : Option Nat) (l r : List ANode) :
    lastAddr p (l ++ r) = lastAddr (lastAddr p l) r := by
  induction l generalizing p with
  | nil => simp
  | cons n l ih => simp [ih]

theorem lastAddr_mem (p : Option Nat) (l : List ANode) (a : Nat)
    (ha : lastAddr p l = some a) : p = some a ∨ a ∈ l.map ANode.addr := by
  induction l generalizing p with
  | nil => left; simpa using ha
  | cons n l ih =>
    rcases ih (some n.addr) (by simpa using ha) with h1 | h1
    · right; simp at h1; simp [h1]
    · right; simp at h1 ⊢; right; exact h1

theorem lastAddr_none (l : List ANode) (ha : lastAddr none l = none) : l = [] := by
  cases l with
  | nil => rfl
  | cons n l =>
    exfalso
    have : ∀ (l : List ANode) (b : Nat), lastAddr (some b) l ≠ none := by
      intro l
      induction l with
      | nil => intro b; simp
      | cons m l ih => intro b; simpa using ih m.addr
    exact this l n.addr (by simpa using ha)

theorem headAddr_none (l : List ANode) (ha : headAddr l none = none) : l = [] := by
  cases l with
  | nil => rfl
  | cons n l => simp at ha

@[simp] theorem chain_nil (h : Heap) (p q : Option Nat) : Chain h p [] q ↔ True := Iff.rfl

theorem chain_cons (h : Heap) (p q : Option Nat) (n : ANode) (ns : List ANode) :
    Chain h p (n :: ns) q ↔
      h n.addr = some ⟨n.count, n.data, p, headAddr ns q⟩ ∧ Chain h (some n.addr) ns q :=
  Iff.rfl

theorem chain_frame (h h1 : Heap) (p q : Option Nat) (ns : List ANode)
    (hf : ∀ n ∈ ns, h1 n.addr = h n.addr) (hc : Chain h p ns q) : Chain h1 p ns q := by
  induction ns generalizing p with
  | nil => trivial
  | cons n ns ih =>
    rw [chain_cons] at hc ⊢
    obtain ⟨h0, hrest⟩ := hc
    refine ⟨?_, ih _ (fun m hm => hf m (List.mem_cons_of_mem _ hm)) hrest⟩
    rw [hf n (List.mem_cons_self _ _)]; exact h0

theorem chain_append (h : Heap) (p q : Option Nat) (l r : List ANode) :
    Chain h p (l ++ r) q ↔ Chain h p l (headAddr r q) ∧ Chain h (lastAddr p l) r q := by
  induction l generalizing p with
  | nil => simp
  | cons n l ih =>
    rw [List.cons_append, chain_cons, chain_cons, ih, headAddr_append, lastAddr_cons]
    tauto

/-- Changing the `next` link of the last node of a chain. -/
theorem chain_set_next (h : Heap) (p q q1 : Option Nat) (l : List ANode)
    (hnd : (l.map ANode.addr).Nodup) (hc : Chain h p l q) (a : Nat)
    (ha : lastAddr p l = some a) (hl : l ≠ []) :
    ∃ n, h a = some n ∧ Chain (write h a { n with next := q1 }) p l q1 := by
  induction l generalizing p with
  | nil => exact absurd rfl hl
  | cons m l ih =>
    rw [chain_cons] at hc
    obtain ⟨h0, hrest⟩ := hc
    rw [List.map_cons, List.nodup_cons] at hnd
    cases l with
    | nil =>
      simp at ha
      subst ha
      exact ⟨_, h0, by simp [chain_cons]⟩
    | cons m1 l1 =>
      obtain ⟨n, hn, hch⟩ := ih (some m.addr) hnd.2 hrest (by simpa using ha) (by simp)
      refine ⟨n, hn, ?_⟩
      rw [chain_cons]
      refine ⟨?_, hch⟩
      have hne : m.addr ≠ a := by
        rcases lastAddr_mem _ _ _ (show lastAddr (some m1.addr) l1 = some a by simpa using ha) with h1 | h1
        · intro he; apply hnd.1; simp at h1; simp [he, h1]
        · intro he; apply hnd.1; simp at h1 ⊢; right; rw [he]; exact h1
      rw [write_ne _ _ _ _ hne]; simpa using h0

/-- Changing the `prev` link of the first node of a chain. -/
theorem chain_set_prev (h : Heap) (p p1 q : Option Nat) (l : List ANode)
    (hnd : (l.map ANode.addr).Nodup) (hc : Chain h p l q) (a : Nat)
    (ha : headAddr l q = some a) (hl : l ≠ []) :
    ∃ n, h a = some n ∧ Chain (write h a { n with prev := p1 }) p1 l q := by
  cases l with
  | nil => exact absurd rfl hl
  | cons m l =>
    rw [chain_cons] at hc
    obtain ⟨h0, hrest⟩ := hc
    rw [List.map_cons, List.nodup_cons] at hnd
    simp at ha
    subst ha
    refine ⟨_, h0, ?_⟩
    rw [chain_cons]
    refine ⟨by simp, chain_frame _ _ _ _ _ ?_ hrest⟩
    intro k hk
    apply write_ne
    intro he
    exact hnd.1 (by rw [← he]; exact List.mem_map_of_mem _ hk)

theorem lastAddr_of_ne_nil (p p1 : Option Nat) (l : List ANode) (hl : l ≠ []) :
    lastAddr p l = lastAddr p1 l := by
  cases l with
  | nil => exact absurd rfl hl
  | cons n l => rfl

theorem chain_alloc (h : Heap) (p q : Option Nat) (ns : List ANode) (hc : Chain h p ns q)
    (a : Nat) (ha : a ∈ ns.map ANode.addr) : h a ≠ none := by
  induction ns generalizing p with
  | nil => simp at ha
  | cons n ns ih =>
    rw [chain_cons] at hc
    rw [List.map_cons, List.mem_cons] at ha
    rcases ha with ha | ha
    · rw [ha, hc.1]; simp
    · exact ih _ hc.2 ha

theorem unlink_prev_spec (h : Heap) (lst : list) (L : List ANode) (a : Nat) (c : Int)
    (d : List Val) (q q1 : Option Nat) (hnd : (L.map ANode.addr).Nodup)
    (hc : Chain h none L q) (ha : h a = some ⟨c, d, lastAddr none L, q1⟩)
    (hna : a ∉ L.map ANode.addr) (hfirst : lst.first_node = headAddr L (some a)) :
    ∃ h1 lst1, unlink_prev h lst a = some (h1, lst1) ∧ Chain h1 none L q1 ∧
      (∀ b, b ∉ L.map ANode.addr → h1 b = h b) ∧ lst1.first_node = headAddr L q1 ∧
      lst1.last_node = lst.last_node ∧ lst1.size = lst.size := by
  unfold unlink_prev
  rw [ha]
  cases hp : lastAddr none L with
  | none =>
    have hL := lastAddr_none L hp
    subst hL
    exact ⟨h, _, rfl, trivial, fun _ _ => rfl, rfl, rfl, rfl⟩
  | some pa =>
    have hL : L ≠ [] := by intro he; subst he; simp at hp
    obtain ⟨n, hn, hch⟩ := chain_set_next h none q q1 L hnd hc pa hp hL
    have hmem : pa ∈ L.map ANode.addr := by
      rcases lastAddr_mem _ _ _ hp with h1 | h1
      · simp at h1
      · exact h1
    refine ⟨write h pa { n with next := q1 }, lst, ?_, hch, ?_, ?_, rfl, rfl⟩
    · simp [store_eq h pa _ n hn]
    · intro b hb
      exact write_ne _ _ _ _ (fun he => hb (he ▸ hmem))
    · rw [hfirst]; cases L with
      | nil => exact absurd rfl hL
      | cons m L => rfl

theorem unlink_next_spec (h : Heap) (lst : list) (R : List ANode) (a : Nat) (c : Int)
    (d : List Val) (p1 : Option Nat) (hnd : (R.map ANode.addr).Nodup)
    (hc : Chain h (some a) R none) (ha : h a = some ⟨c, d, p1, headAddr R none⟩)
    (hna : a ∉ R.map ANode.addr) (hlast : lst.last_node = lastAddr (some a) R) :
    ∃ h1 lst1, unlink_next h lst a = some (h1, lst1) ∧ Chain h1 p1 R none ∧
      (∀ b, b ∉ R.map ANode.addr → h1 b = h b) ∧ lst1.last_node = lastAddr p1 R ∧
      lst1.first_node = lst.first_node ∧ lst1.size = lst.size := by
  unfold unlink_next
  rw [ha]
  cases hx : headAddr R none with
  | none =>
    have hR := headAddr_none R hx
    subst hR
    exact ⟨h, _, rfl, trivial, fun _ _ => rfl, rfl, rfl, rfl⟩
  | some xa =>
    have hR : R ≠ [] := by intro he; subst he; simp at hx
    obtain ⟨n, hn, hch⟩ := chain_set_prev h (some a) p1 none R hnd hc xa hx hR
    have hmem : xa ∈ R.map ANode.addr := by
      cases R with
      | nil => exact absurd rfl hR
      | cons m R => simp at hx; simp [hx]
    refine ⟨write h xa { n with prev := p1 }, lst, ?_, hch, ?_, ?_, rfl, rfl⟩
    · simp [store_eq h xa _ n hn]
    · intro b hb
      exact write_ne _ _ _ _ (fun he => hb (he ▸ hmem))
    · rw [hlast]; exact lastAddr_of_ne_nil _ _ _ hR

theorem nodup_split (L R : List ANode) (nd : ANode)
    (hnd : ((L ++ nd :: R).map ANode.addr).Nodup) :
    (L.map ANode.addr).Nodup ∧ (R.map ANode.addr).Nodup ∧ nd.addr ∉ L.map ANode.addr ∧
      nd.addr ∉ R.map ANode.addr ∧ (∀ b ∈ L.map ANode.addr, b ∉ R.map ANode.addr) ∧
      ((L ++ R).map ANode.addr).Nodup := by
  rw [List.map_append, List.map_cons, List.nodup_append] at hnd
  obtain ⟨h1, h2, h3⟩ := hnd
  rw [List.nodup_cons] at h2
  refine ⟨h1, h2.2, ?_, h2.1, ?_, ?_⟩
  · intro hm; exact h3 hm (List.mem_cons_self _ _)
  · intro b hb hb2; exact h3 hb (List.mem_cons_of_mem _ hb2)
  · rw [List.map_append, List.nodup_append]
    exact ⟨h1, h2.2, fun b hb hb2 => h3 hb (List.mem_cons_of_mem _ hb2)⟩

theorem chain_split (h : Heap) (L R : List ANode) (nd : ANode)
    (hc : Chain h none (L ++ nd :: R) none) :
    Chain h none L (some nd.addr) ∧
      h nd.addr = some ⟨nd.count, nd.data, lastAddr none L, headAddr R none⟩ ∧
      Chain h (some nd.addr) R none := by
  rw [chain_append, chain_cons] at hc
  exact ⟨by simpa using hc.1, hc.2.1, hc.2.2⟩

theorem remove_node_spec (h : Heap) (lst : list) (L R : List ANode) (nd : ANode)
    (hrep : Rep h lst (L ++ nd :: R)) :
    ∃ h1 lst1, remove_node h lst nd.addr = some (h1, lst1) ∧ Rep h1 lst1 (L ++ R) ∧
      lst1.size = lst.size ∧ (∀ b, b ∉ (L ++ nd :: R).map ANode.addr → h1 b = h b) ∧
      h1 nd.addr = none := by
  obtain ⟨hnd, hc, hfirst, hlast⟩ := hrep
  obtain ⟨hndL, hndR, haL, haR, hLR, hndLR⟩ := nodup_split L R nd hnd
  obtain ⟨hcL, hnode, hcR⟩ := chain_split h L R nd hc
  obtain ⟨h1, lst1, e1, hc1, hf1, hfirst1, hlast1, hsz1⟩ :=
    unlink_prev_spec h lst L nd.addr nd.count nd.data (some nd.addr) (headAddr R none)
      hndL hcL hnode haL (by rw [hfirst, headAddr_append]; rfl)
  have hnode1 : h1 nd.addr = some ⟨nd.count, nd.data, lastAddr none L, headAddr R none⟩ := by
    rw [hf1 _ haL]; exact hnode
  have hcR1 : Chain h1 (some nd.addr) R none :=
    chain_frame h h1 _ _ R (fun n hn => hf1 _ (fun hm => hLR _ hm (List.mem_map_of_mem _ hn))) hcR
  obtain ⟨h2, lst2, e2, hc2, hf2, hlast2, hfirst2, hsz2⟩ :=
    unlink_next_spec h1 lst1 R nd.addr nd.count nd.data (lastAddr none L) hndR hcR1 hnode1 haR
      (by rw [hlast1, hlast, lastAddr_append]; simp)
  have hnode2 : h2 nd.addr = some ⟨nd.count, nd.data, lastAddr none L, headAddr R none⟩ := by
    rw [hf2 _ haR]; exact hnode1
  have hcL2 : Chain h2 none L (headAddr R none) :=
    chain_frame h1 h2 _ _ L (fun n hn => hf2 _ (hLR _ (List.mem_map_of_mem _ hn))) hc1
  refine ⟨free h2 nd.addr, lst2, ?_, ⟨hndLR, ?_, ?_, ?_⟩, ?_, ?_, by simp⟩
  · simp [remove_node, e1, e2, hnode2]
  · rw [chain_append]
    constructor
    · refine chain_frame h2 _ _ _ L (fun n hn => free_ne _ _ _ ?_) hcL2
      intro he; exact haL (he ▸ List.mem_map_of_mem _ hn)
    · refine chain_frame h2 _ _ _ R (fun n hn => free_ne _ _ _ ?_) hc2
      intro he; exact haR (he ▸ List.mem_map_of_mem _ hn)
  · rw [hfirst2, hfirst1, headAddr_append]
  · rw [hlast2, lastAddr_append]
  · rw [hsz2, hsz1]
  · intro b hb
    rw [List.map_append, List.map_cons, List.mem_append, List.mem_cons] at hb
    push_neg at hb
    rw [free_ne _ _ _ hb.2.1, hf2 _ hb.2.2, hf1 _ hb.1]

theorem rep_write (h : Heap) (lst : list) (L R : List ANode) (nd : ANode)
    (hrep : Rep h lst (L ++ nd :: R)) (c : Int) (d : List Val) :
    Rep (write h nd.addr ⟨c, d, lastAddr none L, headAddr R none⟩) lst
      (L ++ ⟨nd.addr, c, d⟩ :: R) := by
  obtain ⟨hnd, hc, hfirst, hlast⟩ := hrep
  obtain ⟨hndL, hndR, haL, haR, hLR, hndLR⟩ := nodup_split L R nd hnd
  obtain ⟨hcL, hnode, hcR⟩ := chain_split h L R nd hc
  refine ⟨by simpa using hnd, ?_, ?_, ?_⟩
  · rw [chain_append, chain_cons]
    refine ⟨?_, by simp, ?_⟩
    · refine chain_frame h _ _ _ L (fun n hn => write_ne _ _ _ _ ?_) (by simpa using hcL)
      intro he; exact haL (he ▸ List.mem_map_of_mem _ hn)
    · refine chain_frame h _ _ _ R (fun n hn => write_ne _ _ _ _ ?_) hcR
      intro he; exact haR (he ▸ List.mem_map_of_mem _ hn)
  · rw [hfirst, headAddr_append, headAddr_append]; rfl
  · rw [hlast, lastAddr_append, lastAddr_append]; rfl

theorem insert_empty_node_after_fail (CAP : Int) (malloc : Heap → Option Nat) (h : Heap)
    (lst : list) (node : Nat) (hm : malloc h = none) :
    insert_empty_node_after CAP malloc h lst node = some (0, h, lst) := by
  simp [insert_empty_node_after, hm]

theorem insert_empty_node_after_eval (CAP : Int) (malloc : Heap → Option Nat) (h : Heap)
    (lst : list) (node a : Nat) (n : list_node) (hm : malloc h = some a) (hne : a ≠ node)
    (hn : h node = some n) :
    insert_empty_node_after CAP malloc h lst node =
      match n.next with
      | some nx =>
        match store (write (write h a ⟨0, fresh_data CAP, some node, n.next⟩) node
            { n with next := some a }) nx (fun m => { m with prev := some a }) with
        | none => none
        | some h3 => some (1, h3, lst)
      | none => some (1, write (write h a ⟨0, fresh_data CAP, some node, n.next⟩) node
            { n with next := some a }, { lst with last_node := some a }) := by
  have e1 : write h a ⟨0, fresh_data CAP, some node, n.next⟩ node = some n := by
    rw [write_ne _ _ _ _ (Ne.symm hne)]; exact hn
  simp only [insert_empty_node_after, hm, hn, store_eq _ _ _ _ e1, write_ne _ _ _ _ hne,
    write_same]

theorem insert_empty_node_after_spec (CAP : Int) (malloc : Heap → Option Nat) (h : Heap)
    (lst : list) (L R : List ANode) (nd : ANode) (a : Nat)
    (hrep : Rep h lst (L ++ nd :: R)) (hm : malloc h = some a) (hfresh : h a = none) :
    ∃ h1 lst1, insert_empty_node_after CAP malloc h lst nd.addr = some (1, h1, lst1) ∧
      Rep h1 lst1 (L ++ nd :: ⟨a, 0, fresh_data CAP⟩ :: R) ∧ lst1.size = lst.size ∧
      (∀ b, b ∉ (L ++ nd :: R).map ANode.addr → b ≠ a → h1 b = h b) := by
  obtain ⟨hnd, hc, hfirst, hlast⟩ := hrep
  obtain ⟨hndL, hndR, haL, haR, hLR, hndLR⟩ := nodup_split L R nd hnd
  obtain ⟨hcL, hnode, hcR⟩ := chain_split h L R nd hc
  have hnew : a ∉ (L ++ nd :: R).map ANode.addr := fun hmem => chain_alloc h _ _ _ hc a hmem hfresh
  rw [List.map_append, List.map_cons, List.mem_append, List.mem_cons] at hnew
  push_neg at hnew
  obtain ⟨hnewL, hnewnd, hnewR⟩ := hnew
  have hnd2 : ((L ++ nd :: ⟨a, 0, fresh_data CAP⟩ :: R).map ANode.addr).Nodup := by
    rw [List.map_append, List.map_cons, List.map_cons, List.nodup_append]
    refine ⟨hndL, ?_, ?_⟩
    · rw [List.nodup_cons, List.nodup_cons]
      refine ⟨?_, hnewR, hndR⟩
      rw [List.mem_cons]; push_neg; exact ⟨hnewnd.symm, haR⟩
    · intro b hb hb2
      rw [List.mem_cons, List.mem_cons] at hb2
      rcases hb2 with h1 | h1 | h1
      · exact haL (h1 ▸ hb)
      · exact hnewL ((show b = a from h1) ▸ hb)
      · exact hLR b hb h1
  rw [insert_empty_node_after_eval CAP malloc h lst nd.addr a _ hm hnewnd hnode]
  obtain ⟨h2, hh2⟩ : ∃ h2 : Heap, h2 = write (write h a
      ⟨0, fresh_data CAP, some nd.addr, headAddr R none⟩) nd.addr
      ⟨nd.count, nd.data, lastAddr none L, some a⟩ := ⟨_, rfl⟩
  have hf2 : ∀ b, b ≠ nd.addr → b ≠ a → h2 b = h b := by
    intro b hb1 hb2
    rw [hh2, write_ne _ _ _ _ hb1, write_ne _ _ _ _ hb2]
  have e2 : h2 a = some ⟨0, fresh_data CAP, some nd.addr, headAddr R none⟩ := by
    rw [hh2, write_ne _ _ _ _ hnewnd, write_same]
  have e3 : h2 nd.addr = some ⟨nd.count, nd.data, lastAddr none L, some a⟩ := by
    rw [hh2, write_same]
  have hL2 : Chain h2 none L (some nd.addr) :=
    chain_frame h _ _ _ L (fun n hn => hf2 _
      (ne_of_mem_of_not_mem (List.mem_map_of_mem ANode.addr hn) haL)
      (ne_of_mem_of_not_mem (List.mem_map_of_mem ANode.addr hn) hnewL)) hcL
  have hR2 : Chain h2 (some nd.addr) R none :=
    chain_frame h _ _ _ R (fun n hn => hf2 _
      (ne_of_mem_of_not_mem (List.mem_map_of_mem ANode.addr hn) haR)
      (ne_of_mem_of_not_mem (List.mem_map_of_mem ANode.addr hn) hnewR)) hcR
  simp only [← hh2]
  cases R with
  | nil =>
    refine ⟨h2, { lst with last_node := some a }, rfl, ⟨hnd2, ?_, ?_, ?_⟩, rfl, ?_⟩
    · rw [chain_append, chain_cons, chain_cons]
      exact ⟨by simpa using hL2, e3, e2, trivial⟩
    · simp [hfirst, headAddr_append]
    · simp [lastAddr_append]
    · intro b hb hba
      rw [List.map_append, List.map_cons, List.mem_append, List.mem_cons] at hb
      push_neg at hb
      exact hf2 b hb.2.1 hba
  | cons x R =>
    obtain ⟨n, hn, hch⟩ := chain_set_prev h2 (some nd.addr) (some a) none (x :: R) hndR hR2
      x.addr rfl (by simp)
    have hxa : x.addr ≠ a := fun he => hnewR (by simp [← he])
    have hxn : x.addr ≠ nd.addr := fun he => haR (by simp [← he])
    have hxL : x.addr ∉ L.map ANode.addr := fun hmem => hLR _ hmem (by simp)
    refine ⟨write h2 x.addr { n with prev := some a }, lst, ?_, ⟨hnd2, ?_, ?_, ?_⟩, rfl, ?_⟩
    · simp [store_eq h2 _ _ _ hn]
    · rw [chain_append, chain_cons, chain_cons]
      refine ⟨?_, ?_, ?_, hch⟩
      · exact chain_frame h2 _ _ _ L (fun m hm1 => write_ne _ _ _ _
          (ne_of_mem_of_not_mem (List.mem_map_of_mem ANode.addr hm1) hxL)) (by simpa using hL2)
      · rw [write_ne _ _ _ _ hxn.symm]; exact e3
      · rw [write_ne _ _ _ _ hxa.symm]; exact e2
    · simp [hfirst, headAddr_append]
    · rw [hlast, lastAddr_append, lastAddr_append]
      rfl
    · intro b hb hba
      rw [List.map_append, List.map_cons, List.mem_append, List.mem_cons] at hb
      push_neg at hb
      rw [write_ne _ _ _ _ (fun he => hb.2.2 (by simp [← he]))]
      exact hf2 b hb.2.1 hba

theorem insert_empty_node_before_fail (CAP : Int) (malloc : Heap → Option Nat) (h : Heap)
    (lst : list) (node : Nat) (hm : malloc h = none) :
    insert_empty_node_before CAP malloc h lst node = some (0, h, lst) := by
  simp [insert_empty_node_before, hm]

/-- `insert_empty_node_before` called on the first node of the chain (its only
use in `list.c`). -/
theorem insert_empty_node_before_spec (CAP : Int) (malloc : Heap → Option Nat) (h : Heap)
    (lst : list) (R : List ANode) (nd : ANode) (a : Nat)
    (hrep : Rep h lst (nd :: R)) (hm : malloc h = some a) (hfresh : h a = none) :
    ∃ h1 lst1, insert_empty_node_before CAP malloc h lst nd.addr = some (1, h1, lst1) ∧
      Rep h1 lst1 (⟨a, 0, fresh_data CAP⟩ :: nd :: R) ∧ lst1.size = lst.size ∧
      (∀ b, b ∉ (nd :: R).map ANode.addr → b ≠ a → h1 b = h b) := by
  obtain ⟨hnd, hc, hfirst, hlast⟩ := hrep
  have hnew : a ∉ (nd :: R).map ANode.addr := fun hmem => chain_alloc h _ _ _ hc a hmem hfresh
  rw [chain_cons] at hc
  obtain ⟨hnode, hcR⟩ := hc
  have hnd0 := hnd
  rw [List.map_cons, List.nodup_cons] at hnd0
  rw [List.map_cons, List.mem_cons] at hnew
  push_neg at hnew
  have e1 : write h a ⟨0, fresh_data CAP, none, some nd.addr⟩ nd.addr = some
      ⟨nd.count, nd.data, none, headAddr R none⟩ := by
    rw [write_ne _ _ _ _ (Ne.symm hnew.1)]; exact hnode
  refine ⟨write (write h a ⟨0, fresh_data CAP, none, some nd.addr⟩) nd.addr
      ⟨nd.count, nd.data, some a, headAddr R none⟩, { lst with first_node := some a }, ?_,
      ⟨?_, ?_, rfl, ?_⟩, rfl, ?_⟩
  · simp only [insert_empty_node_before, hm, hnode, store_eq _ _ _ _ e1,
      write_ne _ _ _ _ hnew.1, write_same]
  · rw [List.map_cons, List.nodup_cons]
    refine ⟨?_, hnd⟩
    rw [List.map_cons, List.mem_cons]; push_neg; exact hnew
  · rw [chain_cons, chain_cons]
    refine ⟨by rw [write_ne _ _ _ _ hnew.1, write_same]; rfl, by rw [write_same], ?_⟩
    refine chain_frame h _ _ _ R (fun n hn => ?_) hcR
    have hn1 := List.mem_map_of_mem ANode.addr hn
    rw [write_ne _ _ _ _ (ne_of_mem_of_not_mem hn1 hnd0.1),
      write_ne _ _ _ _ (ne_of_mem_of_not_mem hn1 hnew.2)]
  · simpa using hlast
  · intro b hb hba
    rw [List.map_cons, List.mem_cons] at hb
    push_neg at hb
    rw [write_ne _ _ _ _ hb.1, write_ne _ _ _ _ hba]

theorem insert_empty_sole_node_spec (CAP : Int) (malloc : Heap → Option Nat) (h : Heap)
    (lst : list) (a : Nat) (hm : malloc h = some a) :
    insert_empty_sole_node CAP malloc h lst = some (1, write h a ⟨0, fresh_data CAP, none, none⟩,
        { lst with first_node := some a, last_node := some a }) ∧
      Rep (write h a ⟨0, fresh_data CAP, none, none⟩)
        { lst with first_node := some a, last_node := some a } [⟨a, 0, fresh_data CAP⟩] := by
  refine ⟨by simp [insert_empty_sole_node, hm], by simp, ?_, rfl, rfl⟩
  rw [chain_cons]; exact ⟨by simp, trivial⟩

/-! ## Slot arrays and element sequences -/

theorem memmove_nat (dst src : List Val) (d s n : Nat) (h1 : d + n ≤ dst.length)
    (h2 : s + n ≤ src.length) :
    memmove dst d src s n =
      some (dst.take d ++ ((src.drop s).take n ++ dst.drop (d + n))) := by
  unfold memmove
  rw [if_pos (by omega)]
  simp only [Int.toNat_ofNat]
  rfl

theorem memmove_length (dst src r : List Val) (d s n : Int)
    (hr : memmove dst d src s n = some r) : r.length = dst.length := by
  unfold memmove at hr
  split at hr
  · rename_i hc
    simp only [Option.some.injEq] at hr
    subst hr
    simp only [List.length_append, List.length_take, List.length_drop]
    omega
  · simp at hr

theorem setSlot_nat (dst : List Val) (i : Nat) (v : Val) (hi : i < dst.length) :
    setSlot dst i v = some (dst.set i v) := by
  unfold setSlot
  rw [if_pos (by omega)]
  rfl

theorem take_set_end (D : List Val) (c : Nat) (v : Val) (hc : c < D.length) :
    (D.set c v).take (c + 1) = D.take c ++ [v] := by
  rw [List.set_eq_take_append_cons_drop, if_pos hc]
  have h1 : D.take c ++ v :: D.drop (c + 1) = (D.take c ++ [v]) ++ D.drop (c + 1) := by simp
  rw [h1, List.take_append_of_le_length (by simp; omega)]
  rw [List.take_of_length_le (by simp)]

theorem shift_insert (D : List Val) (c j : Nat) (v : Val) (hj : j ≤ c) (hc : c < D.length) :
    ((D.take (j + 1) ++ ((D.drop j).take (c - j) ++ D.drop (j + 1 + (c - j)))).set j v).take
      (c + 1) = (D.take c).take j ++ v :: (D.take c).drop j := by
  have h1 : (D.take (j + 1)).length = j + 1 := by simp; omega
  rw [List.set_append_left _ _ (by omega)]
  have h2 : ((D.take (j + 1)).set j v) = D.take j ++ [v] := by
    rw [← List.set_take, take_set_end D j v (by omega)]
  rw [h2, ← List.append_assoc]
  have h3 : (D.take j ++ [v] ++ (D.drop j).take (c - j)).length = c + 1 := by
    simp; omega
  rw [List.take_append_of_le_length (by omega), List.take_of_length_le (by omega)]
  rw [List.take_take, List.drop_take]
  simp [Nat.min_eq_left hj]

theorem insert_at_middle (A B C : List Val) (j : Nat) (v : Val) (hj : j ≤ B.length) :
    (A ++ (B ++ C)).take (A.length + j) ++ v :: (A ++ (B ++ C)).drop (A.length + j) =
      A ++ ((B.take j ++ v :: B.drop j) ++ C) := by
  rw [List.take_append, List.drop_append, List.take_append_of_le_length hj,
    List.drop_append_of_le_length hj]
  simp

@[simp] theorem elems_nil : elems [] = [] := rfl

@[simp] theorem elems_cons (n : ANode) (ns : List ANode) :
    elems (n :: ns) = n.data.take n.count.toNat ++ elems ns := rfl

theorem elems_append (l r : List ANode) : elems (l ++ r) = elems l ++ elems r := by
  induction l with
  | nil => simp
  | cons n l ih => simp [ih]

@[simp] theorem count_sum_nil : count_sum [] = 0 := rfl

@[simp] theorem count_sum_cons (n : ANode) (ns : List ANode) :
    count_sum (n :: ns) = n.count + count_sum ns := by
  simp [count_sum]

theorem count_sum_append (l r : List ANode) : count_sum (l ++ r) = count_sum l + count_sum r := by
  simp [count_sum]

theorem rep_size (h : Heap) (lst : list) (ns : List ANode) (s : Int) (hrep : Rep h lst ns) :
    Rep h { lst with size := s } ns := hrep

theorem frames_none (h h1 : Heap) (ns ns1 : List ANode) (m : Option Nat)
    (hf : Frames h h1 ns ns1 none) : Frames h h1 ns ns1 m :=
  ⟨fun b hb _ => hf.1 b hb (by simp), fun b hb => Or.inl ((hf.2 b hb).resolve_right (by simp))⟩

theorem rep_last (h : Heap) (lst : list) (L : List ANode) (nd : ANode)
    (hrep : Rep h lst (L ++ [nd])) :
    lst.last_node = some nd.addr ∧ h nd.addr = some ⟨nd.count, nd.data, lastAddr none L, none⟩ := by
  obtain ⟨_, hc, _, hlast⟩ := hrep
  obtain ⟨_, hnode, _⟩ := chain_split h L [] nd hc
  exact ⟨by rw [hlast, lastAddr_append]; rfl, hnode⟩

/-! ## `list_insert_end` -/

theorem insert_end_slot_spec (h : Heap) (lst : list) (L : List ANode) (a : Nat) (d : List Val)
    (v : Val) (c : Nat) (hrep : Rep h lst (L ++ [⟨a, c, d⟩])) (hlen : c < d.length) :
    ∃ h1 lst1, insert_end_slot h lst v = some (1, h1, lst1) ∧
      Rep h1 lst1 (L ++ [⟨a, c + 1, d.set c v⟩]) ∧ lst1.size = lst.size + 1 ∧
      (∀ b, b ≠ a → h1 b = h b) := by
  obtain ⟨hlast, hnode⟩ := rep_last h lst L _ hrep
  have hrep1 := rep_size _ _ _ (lst.size + 1) (rep_write h lst L [] _ hrep (c + 1) (d.set c v))
  obtain ⟨sz, f, l⟩ := lst
  simp only at hlast hnode hrep1
  subst hlast
  refine ⟨_, _, ?_, hrep1, rfl, fun b hb => write_ne _ _ _ _ hb⟩
  simp only [insert_end_slot, hnode, setSlot_nat _ _ _ hlen]
  rfl

theorem insert_end_room_spec (CAP : Int) (malloc : Heap → Option Nat) (h : Heap) (lst : list)
    (L : List ANode) (nd : ANode) (v : Val) (hCAP : 1 ≤ CAP)
    (hrep : Rep h lst (L ++ [nd])) (hc0 : 0 ≤ nd.count) (hc1 : nd.count ≤ CAP)
    (hlen : (nd.data.length : Int) = CAP)
    (hfresh : nd.count = CAP → ∀ a, malloc h = some a → h a = none) :
    ∃ r h1 lst1, insert_end_room CAP malloc h lst v = some (r, h1, lst1) ∧
      ((r = 0 ∧ nd.count = CAP ∧ malloc h = none ∧ h1 = h ∧ lst1 = lst) ∨
        (r = 1 ∧ ∃ ns1, Rep h1 lst1 ns1 ∧ lst1.size = lst.size + 1 ∧
          count_sum ns1 = count_sum (L ++ [nd]) + 1 ∧
          elems ns1 = elems (L ++ [nd]) ++ [v] ∧
          ((∀ n ∈ L, Good CAP n) → ∀ n ∈ ns1, Good CAP n) ∧
          Frames h h1 (L ++ [nd]) ns1 (if nd.count = CAP then malloc h else none))) := by
  obtain ⟨hlast, hnode⟩ := rep_last h lst L nd hrep
  obtain ⟨a0, cnt, d⟩ := nd
  simp only at hc0 hc1 hlen hfresh hlast hnode
  obtain ⟨c, hc⟩ := Int.eq_ofNat_of_zero_le hc0
  subst hc
  by_cases hfull : (c : Int) = CAP
  · cases hm : malloc h with
    | none =>
      refine ⟨0, h, lst, ?_, Or.inl ⟨rfl, hfull, rfl, rfl, rfl⟩⟩
      simp only [insert_end_room, hlast, hnode, if_pos hfull,
        insert_empty_node_after_fail CAP malloc h lst a0 hm]
      simp
    | some a =>
      obtain ⟨h1, lst1, e1, hrep1, hsz1, hf1⟩ :=
        insert_empty_node_after_spec CAP malloc h lst L [] _ a hrep hm (hfresh hfull a hm)
      have hfl : 0 < (fresh_data CAP).length := by
        simp [fresh_data]; omega
      have hrep1b : Rep h1 lst1 ((L ++ [⟨a0, c, d⟩]) ++ [⟨a, (0 : Nat), fresh_data CAP⟩]) := by
        simpa using hrep1
      obtain ⟨h2, lst2, e2, hrep2, hsz2, hf2⟩ :=
        insert_end_slot_spec h1 lst1 (L ++ [⟨a0, c, d⟩]) a (fresh_data CAP) v 0 hrep1b hfl
      refine ⟨1, h2, lst2, ?_, Or.inr ⟨rfl, _, hrep2, ?_, ?_, ?_, ?_, ?_⟩⟩
      · simp only [insert_end_room, hlast, hnode, if_pos hfull, e1]
        simpa using e2
      · rw [hsz2, hsz1]
      · simp [count_sum_append]; ring
      · rw [elems_append]
        simp only [elems_cons, elems_nil, List.append_nil]
        rw [show ((0 : Nat) + 1 : Int).toNat = 0 + 1 from rfl, take_set_end _ _ _ hfl]
        simp
      · intro hL n hn
        simp only [List.mem_append, List.mem_singleton] at hn
        rcases hn with (hn | hn) | hn
        · exact hL n hn
        · subst hn; exact ⟨by simp only; omega, hc1, hlen⟩
        · subst hn
          refine ⟨by simp, by simpa using hCAP, ?_⟩
          simp [fresh_data]; omega
      · rw [if_pos hfull]
        constructor
        · intro b hb hba
          have hne : b ≠ a := fun he => hba (by rw [he])
          rw [hf2 b hne]
          exact hf1 b hb hne
        · intro b hb
          simp only [List.map_append, List.map_cons, List.map_nil, List.mem_append,
            List.mem_singleton] at hb ⊢
          rcases hb with (hb | hb) | hb
          · exact Or.inl (Or.inl hb)
          · exact Or.inl (Or.inr hb)
          · exact Or.inr (by rw [hb])
  · have hlt : c < d.length := by omega
    obtain ⟨h2, lst2, e2, hrep2, hsz2, hf2⟩ := insert_end_slot_spec h lst L a0 d v c hrep hlt
    refine ⟨1, h2, lst2, ?_, Or.inr ⟨rfl, _, hrep2, hsz2, ?_, ?_, ?_, ?_⟩⟩
    · simp only [insert_end_room, hlast, hnode, if_neg hfull]
      exact e2
    · simp [count_sum_append]; ring
    · rw [elems_append, elems_append]
      simp only [elems_cons, elems_nil, List.append_nil]
      rw [show ((c : Int) + 1).toNat = c + 1 by omega, Int.toNat_ofNat, take_set_end _ _ _ hlt]
      simp
    · intro hL n hn
      simp only [List.mem_append, List.mem_singleton] at hn
      rcases hn with hn | hn
      · exact hL n hn
      · subst hn
        refine ⟨by simp only; omega, by simp only; omega, ?_⟩
        simp only [List.length_set]; exact hlen
    · rw [if_neg hfull]
      constructor
      · intro b hb _
        refine hf2 b (fun he => hb ?_)
        simp [he]
      · intro b hb
        left
        simpa using hb

theorem list_insert_end_spec (CAP : Int) (malloc : Heap → Option Nat) (h : Heap) (lst : list)
    (ns : List ANode) (v : Val) (hCAP : 1 ≤ CAP) (hwf : WF CAP h lst ns)
    (hfresh : ∀ a, malloc h = some a → h a = none) :
    ∃ r h1 lst1, list_insert_end CAP malloc h lst v = some (r, h1, lst1) ∧
      ((r = 0 ∧ malloc h = none ∧ h1 = h ∧ lst1 = lst) ∨
        (r = 1 ∧ ∃ ns1, WF CAP h1 lst1 ns1 ∧ elems ns1 = elems ns ++ [v] ∧
          lst1.size = lst.size + 1 ∧ Frames h h1 ns ns1 (malloc h))) := by
  obtain ⟨hrep, hgood, hsize⟩ := hwf
  rcases List.eq_nil_or_concat ns with hns | ⟨L, nd, hns⟩
  · subst hns
    have hlast : lst.last_node = none := hrep.2.2.2
    cases hm : malloc h with
    | none =>
      refine ⟨0, h, lst, ?_, Or.inl ⟨rfl, rfl, rfl, rfl⟩⟩
      simp [list_insert_end, hlast, insert_empty_sole_node, hm]
    | some a =>
      obtain ⟨e1, hrep1⟩ := insert_empty_sole_node_spec CAP malloc h lst a hm
      obtain ⟨r, h2, lst2, e2, hres⟩ := insert_end_room_spec CAP malloc _ _ [] _ v hCAP
        (by simpa using hrep1) (le_refl _) (by simp only; omega)
        (by simp [fresh_data]; omega) (fun hc => absurd hc (by simp only; omega))
      have hne : ¬ ((0 : Int) = CAP) := by omega
      rcases hres with ⟨_, hc, _⟩ | ⟨hr, ns1, hrep2, hsz2, hcs2, hel2, hg2, hf2⟩
      · exact absurd hc hne
      · subst hr
        refine ⟨1, h2, lst2, ?_, Or.inr ⟨rfl, ns1, ⟨hrep2, hg2 (by simp), ?_⟩, ?_, ?_, ?_⟩⟩
        · simp only [list_insert_end, hlast, if_true, e1]
          simpa using e2
        · rw [hsz2, hcs2]; simp [hsize]
        · simpa using hel2
        · simpa using hsz2
        · rw [if_neg hne] at hf2
          constructor
          · intro b _ hba
            have hne2 : b ≠ a := fun he => hba (by rw [he])
            rw [hf2.1 b (by simpa using hne2) (by simp), write_ne _ _ _ _ hne2]
          · intro b hb
            right
            rcases hf2.2 b hb with h3 | h3
            · simp only [List.nil_append, List.map_cons, List.map_nil,
                List.mem_singleton] at h3
              rw [h3]
            · simp at h3
  · rw [List.concat_eq_append] at hns
    subst hns
    obtain ⟨hlast, hnode⟩ := rep_last h lst L nd hrep
    have hgnd := hgood nd (by simp)
    obtain ⟨r, h2, lst2, e2, hres⟩ := insert_end_room_spec CAP malloc h lst L nd v hCAP hrep
      (by have := hgnd.1; omega) hgnd.2.1 hgnd.2.2 (fun _ => hfresh)
    refine ⟨r, h2, lst2, ?_, ?_⟩
    · simp only [list_insert_end, hlast]
      simpa using e2
    · rcases hres with hres | ⟨hr, ns1, hrep2, hsz2, hcs2, hel2, hg2, hf2⟩
      · exact Or.inl ⟨hres.1, hres.2.2⟩
      · refine Or.inr ⟨hr, ns1, ⟨hrep2, hg2 (fun n hn => hgood n (by simp [hn])), ?_⟩, hel2, hsz2, ?_⟩
        · rw [hsz2, hcs2, hsize]
        · split at hf2
          · exact hf2
          · exact frames_none _ _ _ _ _ hf2

/-! ## `split_node` -/

theorem rep_lookup (h : Heap) (lst : list) (L R : List ANode) (nd : ANode)
    (hrep : Rep h lst (L ++ nd :: R)) :
    h nd.addr = some ⟨nd.count, nd.data, lastAddr none L, headAddr R none⟩ :=
  (chain_split h L R nd hrep.2.1).2.1

theorem rep_store (h : Heap) (lst : list) (L R : List ANode) (nd : ANode)
    (hrep : Rep h lst (L ++ nd :: R)) (c : Int) (d : List Val) (f : list_node → list_node)
    (hf : f ⟨nd.count, nd.data, lastAddr none L, headAddr R none⟩ =
      ⟨c, d, lastAddr none L, headAddr R none⟩) :
    ∃ h1, store h nd.addr f = some h1 ∧ Rep h1 lst (L ++ ⟨nd.addr, c, d⟩ :: R) ∧
      (∀ b, b ≠ nd.addr → h1 b = h b) := by
  refine ⟨_, store_eq h _ f _ (rep_lookup h lst L R nd hrep), ?_, fun b hb => write_ne _ _ _ _ hb⟩
  rw [hf]
  exact rep_write h lst L R nd hrep c d

theorem split_data_take (CAP : Int) (D : List Val) (k C : Nat) (hD : D.length = C) :
    (split_data CAP D k C).take (C - k) = D.drop k := by
  unfold split_data
  rw [List.take_zero, List.nil_append, List.take_append_of_le_length (by simp; omega),
    List.take_take, Nat.min_self, List.take_of_length_le (by simp; omega)]

theorem split_data_length (CAP : Int) (D : List Val) (k C : Nat) (hD : D.length = C)
    (hC : CAP = C) : (split_data CAP D k C).length = C := by
  unfold split_data fresh_data
  simp only [List.take_zero, List.nil_append, List.length_append, List.length_take,
    List.length_drop, List.length_replicate, hC, Int.toNat_ofNat]
  omega

theorem split_node_fail (CAP : Int) (malloc : Heap → Option Nat) (h : Heap) (lst : list)
    (iter : list_iter) (a : Nat) (ha : iter.node = some a) (hm : malloc h = none) :
    split_node CAP malloc h lst iter = some (0, h, lst, iter) := by
  simp [split_node, ha, insert_empty_node_after_fail CAP malloc h lst a hm]

theorem split_node_spec (CAP : Int) (malloc : Heap → Option Nat) (h : Heap) (lst : list)
    (L R : List ANode) (nd : ANode) (iter : list_iter) (a : Nat) (C : Nat)
    (hrep : Rep h lst (L ++ nd :: R)) (hit : iter.node = some nd.addr)
    (hcount : nd.count = C) (hlen : nd.data.length = C) (hC : CAP = C)
    (hm : malloc h = some a) (hfresh : h a = none) :
    ∃ h1 lst1, split_node CAP malloc h lst iter = some (1, h1, lst1,
        if iter.offset ≥ ((C / 2 : Nat) : Int) then ⟨some a, iter.offset - ((C / 2 : Nat) : Int)⟩
        else iter) ∧
      Rep h1 lst1 (L ++ ⟨nd.addr, ((C / 2 : Nat) : Int), nd.data⟩ ::
        ⟨a, ((C - C / 2 : Nat) : Int), split_data CAP nd.data (C / 2) C⟩ :: R) ∧
      lst1.size = lst.size ∧
      (∀ b, b ∉ (L ++ nd :: R).map ANode.addr → b ≠ a → h1 b = h b) := by
  obtain ⟨h1, lst1, e1, hrep1, hsz1, hf1⟩ :=
    insert_empty_node_after_spec CAP malloc h lst L R nd a hrep hm hfresh
  have l1 := rep_lookup h1 lst1 L _ nd hrep1
  have hrep1b : Rep h1 lst1 ((L ++ [nd]) ++ ⟨a, 0, fresh_data CAP⟩ :: R) := by
    simpa using hrep1
  obtain ⟨h2, s2, hrep2, hf2⟩ := rep_store h1 lst1 (L ++ [nd]) R _ hrep1b
    (nd.count - nd.count / 2) (fresh_data CAP)
    (fun m => { m with count := nd.count - nd.count / 2 }) rfl
  have hrep2b : Rep h2 lst1 (L ++ nd :: ⟨a, nd.count - nd.count / 2, fresh_data CAP⟩ :: R) := by
    simpa using hrep2
  obtain ⟨h3, s3, hrep3, hf3⟩ := rep_store h2 lst1 L _ nd hrep2b (nd.count / 2) nd.data
    (fun m => { m with count := m.count / 2 }) rfl
  have l3 := rep_lookup h3 lst1 L _ _ hrep3
  have hrep3b : Rep h3 lst1 ((L ++ [⟨nd.addr, nd.count / 2, nd.data⟩]) ++
      ⟨a, nd.count - nd.count / 2, fresh_data CAP⟩ :: R) := by
    simpa using hrep3
  have l3x := rep_lookup h3 lst1 _ R _ hrep3b
  have hk : nd.count / 2 = ((C / 2 : Nat) : Int) := by rw [hcount]; norm_cast
  have hck : nd.count - nd.count / 2 = ((C - C / 2 : Nat) : Int) := by
    rw [hcount]; omega
  have hmm : memmove (fresh_data CAP) 0 nd.data (nd.count / 2) (nd.count - nd.count / 2) =
      some (split_data CAP nd.data (C / 2) C) := by
    rw [hck, hk]
    have := memmove_nat (fresh_data CAP) nd.data 0 (C / 2) (C - C / 2)
      (by simp [fresh_data, hC]) (by omega)
    simpa [split_data] using this
  obtain ⟨h4, s4, hrep4, hf4⟩ := rep_store h3 lst1 _ R _ hrep3b
    (nd.count - nd.count / 2) (split_data CAP nd.data (C / 2) C)
    (fun m => { m with data := split_data CAP nd.data (C / 2) C }) rfl
  have hrep4b : Rep h4 lst1 (L ++ ⟨nd.addr, nd.count / 2, nd.data⟩ ::
      ⟨a, nd.count - nd.count / 2, split_data CAP nd.data (C / 2) C⟩ :: R) := by
    simpa using hrep4
  have l4 := rep_lookup h4 lst1 L _ _ hrep4b
  simp only [headAddr_cons, lastAddr_append, lastAddr_cons, lastAddr_nil] at l1 l3 l3x l4 s2 s3 s4
  refine ⟨h4, lst1, ?_, ?_, hsz1, ?_⟩
  · simp only [split_node, hit, e1, l1, s2, s3, l3, l3x, hmm, s4, l4]
    rw [if_neg (by decide), hk]
    split <;> rfl
  · rw [← hk, ← hck]; exact hrep4b
  · intro b hb hba
    have hbn : b ≠ nd.addr := fun he => hb (by simp [he])
    rw [hf4 b hba, hf3 b hbn, hf2 b hba, hf1 b hb hba]

/-! ## Inserting into a node that has room -/

theorem iter_index_elim (ns : List ANode) (iter : list_iter) (k : Nat)
    (hk : iter_index ns iter = some k) :
    ∃ L nd R, ns = L ++ nd :: R ∧ iter.node = some nd.addr ∧ 0 ≤ iter.offset ∧
      iter.offset < nd.count ∧ k = (elems L).length + iter.offset.toNat := by
  induction ns generalizing k with
  | nil => simp [iter_index] at hk
  | cons n rest ih =>
    unfold iter_index at hk
    split at hk
    · rename_i hn
      split at hk
      · rename_i ho
        simp only [Option.some.injEq] at hk
        exact ⟨[], n, rest, rfl, hn, ho.1, ho.2, by simp [hk]⟩
      · simp at hk
    · simp only [Option.map_eq_some'] at hk
      obtain ⟨k1, hk1, hk2⟩ := hk
      obtain ⟨L, nd, R, hns, h1, h2, h3, h4⟩ := ih k1 hk1
      refine ⟨n :: L, nd, R, by simp [hns], h1, h2, h3, ?_⟩
      simp only [elems_cons, List.length_append]
      omega

theorem iter_index_intro (L R : List ANode) (nd : ANode) (iter : list_iter)
    (hnd : ((L ++ nd :: R).map ANode.addr).Nodup) (hit : iter.node = some nd.addr)
    (h0 : 0 ≤ iter.offset) (h1 : iter.offset < nd.count) :
    iter_index (L ++ nd :: R) iter = some ((elems L).length + iter.offset.toNat) := by
  induction L with
  | nil => simp [iter_index, hit, h0, h1]
  | cons n L ih =>
    rw [List.cons_append, List.map_cons, List.nodup_cons] at hnd
    have hne : ¬ (iter.node = some n.addr) := by
      rw [hit]
      intro he
      apply hnd.1
      simp only [Option.some.injEq] at he
      simp [← he]
    rw [List.cons_append, iter_index, if_neg hne, ih hnd.2]
    simp only [Option.map_some', elems_cons, List.length_append]
    congr 1
    omega

theorem shifted_length (d : List Val) (c j : Nat) (v : Val) (hj : j ≤ c) (hc : c < d.length) :
    (shifted d c j v).length = d.length := by
  unfold shifted
  simp only [List.length_set, List.length_append, List.length_take, List.length_drop]
  omega

theorem slot_insert_spec (h : Heap) (lst : list) (L R : List ANode) (a : Nat) (d : List Val)
    (c j : Nat) (v : Val) (hrep : Rep h lst (L ++ ⟨a, c, d⟩ :: R)) (hj : j ≤ c)
    (hc : c < d.length) :
    (∃ X, memmove d ((j : Int) + 1) d j ((c : Int) - j) = some X ∧
      setSlot X j v = some (shifted d c j v)) ∧
    Rep (write h a ⟨(c : Int) + 1, shifted d c j v, lastAddr none L, headAddr R none⟩)
      { lst with size := lst.size + 1 } (L ++ ⟨a, ((c + 1 : Nat) : Int), shifted d c j v⟩ :: R) ∧
    elems (L ++ ⟨a, ((c + 1 : Nat) : Int), shifted d c j v⟩ :: R) =
      (elems (L ++ ⟨a, c, d⟩ :: R)).take ((elems L).length + j) ++
        v :: (elems (L ++ ⟨a, c, d⟩ :: R)).drop ((elems L).length + j) := by
  refine ⟨?_, ?_, ?_⟩
  · have hX : j < (d.take (j + 1) ++ ((d.drop j).take (c - j) ++
        d.drop (j + 1 + (c - j)))).length := by
      simp only [List.length_append, List.length_take, List.length_drop]
      omega
    refine ⟨_, ?_, setSlot_nat _ _ _ hX⟩
    have := memmove_nat d d (j + 1) j (c - j) (by omega) (by omega)
    rw [← this]
    congr 1
    omega
  · have := rep_size _ _ _ (lst.size + 1) (rep_write h lst L R _ hrep ((c : Int) + 1)
      (shifted d c j v))
    simpa using this
  · rw [elems_append, elems_append]
    simp only [elems_cons, Int.toNat_ofNat]
    rw [insert_at_middle _ _ _ _ _ (by simp only [List.length_take]; omega)]
    unfold shifted
    rw [shift_insert d c j v hj hc]

theorem insert_after_slot_spec (h : Heap) (lst : list) (L R : List ANode) (a : Nat)
    (d : List Val) (c o : Nat) (v : Val) (hrep : Rep h lst (L ++ ⟨a, c, d⟩ :: R))
    (ho : o < c) (hc : c < d.length) :
    insert_after_slot h lst ⟨some a, (o : Int)⟩ v = some (1,
      write h a ⟨(c : Int) + 1, shifted d c (o + 1) v, lastAddr none L, headAddr R none⟩,
      { lst with size := lst.size + 1 }, ⟨some a, (o : Int)⟩) := by
  obtain ⟨⟨X, hX, hS⟩, _, _⟩ := slot_insert_spec h lst L R a d c (o + 1) v hrep (by omega) hc
  have l1 := rep_lookup h lst L R _ hrep
  have e1 : ((o : Int) + 2) = ((o + 1 : Nat) : Int) + 1 := by push_cast; ring
  have e2 : ((o : Int) + 1) = ((o + 1 : Nat) : Int) := by push_cast; ring
  simp only [insert_after_slot, l1]
  rw [e1, e2, hX]
  simp only [hS]

theorem insert_before_slot_spec (h : Heap) (lst : list) (L R : List ANode) (a : Nat)
    (d : List Val) (c o : Nat) (v : Val) (hrep : Rep h lst (L ++ ⟨a, c, d⟩ :: R))
    (ho : o < c) (hc : c < d.length) :
    insert_before_slot h lst ⟨some a, (o : Int)⟩ v = some (1,
      write h a ⟨(c : Int) + 1, shifted d c o v, lastAddr none L, headAddr R none⟩,
      { lst with size := lst.size + 1 }, ⟨some a, (o : Int) + 1⟩) := by
  obtain ⟨⟨X, hX, hS⟩, _, _⟩ := slot_insert_spec h lst L R a d c o v hrep (by omega) hc
  have l1 := rep_lookup h lst L R _ hrep
  simp only [insert_before_slot, l1, hX, hS]

theorem frames_refl (h : Heap) (ns : List ANode) (m : Option Nat) : Frames h h ns ns m :=
  ⟨fun _ _ _ => rfl, fun _ hb => Or.inl hb⟩

theorem split_if_full_spec (CAP : Int) (malloc : Heap → Option Nat) (h : Heap) (lst : list)
    (ns : List ANode) (iter : list_iter) (k : Nat) (hCAP : 2 ≤ CAP) (hwf : WF CAP h lst ns)
    (hk : iter_index ns iter = some k) (hfresh : ∀ a, malloc h = some a → h a = none) :
    (split_if_full CAP malloc h lst iter = some (0, h, lst, iter) ∧ malloc h = none) ∨
    ∃ (h1 : Heap) (lst1 : list) (L : List ANode) (a c : Nat) (d : List Val) (o : Nat)
      (R : List ANode),
      split_if_full CAP malloc h lst iter = some (1, h1, lst1, ⟨some a, (o : Int)⟩) ∧
      Rep h1 lst1 (L ++ ⟨a, (c : Int), d⟩ :: R) ∧ o < c ∧ (c : Int) < CAP ∧
      (d.length : Int) = CAP ∧ (∀ n ∈ L ++ ⟨a, (c : Int), d⟩ :: R, Good CAP n) ∧
      lst1.size = lst.size ∧ count_sum (L ++ ⟨a, (c : Int), d⟩ :: R) = count_sum ns ∧
      elems (L ++ ⟨a, (c : Int), d⟩ :: R) = elems ns ∧ (elems L).length + o = k ∧
      Frames h h1 ns (L ++ ⟨a, (c : Int), d⟩ :: R) (malloc h) := by
  obtain ⟨hrep, hgood, hsize⟩ := hwf
  obtain ⟨L0, nd, R0, hns, hit, ho0, ho1, hkk⟩ := iter_index_elim ns iter k hk
  subst hns
  have hg := hgood nd (by simp)
  have l0 := rep_lookup h lst L0 R0 nd hrep
  obtain ⟨a0, cnt, d0⟩ := nd
  obtain ⟨inode, ioff⟩ := iter
  simp only at hit ho0 ho1 hkk l0
  subst hit
  obtain ⟨o, ho⟩ := Int.eq_ofNat_of_zero_le ho0
  subst ho
  obtain ⟨hg1, hg2, hg3⟩ := hg
  simp only at hg1 hg2 hg3
  obtain ⟨c0, hc0⟩ := Int.eq_ofNat_of_zero_le (show 0 ≤ cnt by omega)
  subst hc0
  simp only [Int.toNat_ofNat] at hkk
  by_cases hfull : (c0 : Int) = CAP
  · cases hm : malloc h with
    | none =>
      left
      refine ⟨?_, rfl⟩
      simp only [split_if_full, l0, if_pos hfull]
      exact split_node_fail CAP malloc h lst _ a0 rfl hm
    | some a =>
      right
      obtain ⟨h1, lst1, e1, hrep1, hsz1, hf1⟩ := split_node_spec CAP malloc h lst L0 R0
        ⟨a0, c0, d0⟩ ⟨some a0, o⟩ a c0 hrep rfl rfl (show d0.length = c0 by omega) hfull.symm
        hm (hfresh a hm)
      simp only at e1 hrep1
      have hd0 : d0.length = c0 := by omega
      have hsd := split_data_take CAP d0 (c0 / 2) c0 hd0
      have hsl := split_data_length CAP d0 (c0 / 2) c0 hd0 hfull.symm
      have hc2 : 2 ≤ c0 := by omega
      generalize hk2 : c0 / 2 = k2 at e1 hrep1 hsd hsl
      generalize hm2 : c0 - k2 = m2 at e1 hrep1 hsd
      generalize split_data CAP d0 k2 c0 = d2 at e1 hrep1 hsd hsl
      have hfr : Frames h h1 (L0 ++ ⟨a0, c0, d0⟩ :: R0) (L0 ++ ⟨a0, (k2 : Int), d0⟩ ::
          ⟨a, (m2 : Int), d2⟩ :: R0) (some a) := by
        constructor
        · intro b hb hba
          exact hf1 b hb (fun he => hba (by rw [he]))
        · intro b hb
          simp only [List.map_append, List.map_cons, List.mem_append, List.mem_cons] at hb ⊢
          rcases hb with hb | hb | hb | hb
          · exact Or.inl (Or.inl hb)
          · exact Or.inl (Or.inr (Or.inl hb))
          · exact Or.inr (by rw [hb])
          · exact Or.inl (Or.inr (Or.inr hb))
      have hgd : ∀ n ∈ L0 ++ ⟨a0, (k2 : Int), d0⟩ :: ⟨a, (m2 : Int), d2⟩ :: R0, Good CAP n := by
        intro n hn
        simp only [List.mem_append, List.mem_cons] at hn
        rcases hn with hn | hn | hn | hn
        · exact hgood n (by simp [hn])
        · subst hn; exact ⟨by simp only; omega, by simp only; omega, hg3⟩
        · subst hn; exact ⟨by simp only; omega, by simp only; omega, by simp only; omega⟩
        · exact hgood n (by simp [hn])
      have hcs : count_sum (L0 ++ ⟨a0, (k2 : Int), d0⟩ :: ⟨a, (m2 : Int), d2⟩ :: R0) =
          count_sum (L0 ++ ⟨a0, c0, d0⟩ :: R0) := by
        simp only [count_sum_append, count_sum_cons]
        omega
      have hel : elems (L0 ++ ⟨a0, (k2 : Int), d0⟩ :: ⟨a, (m2 : Int), d2⟩ :: R0) =
          elems (L0 ++ ⟨a0, c0, d0⟩ :: R0) := by
        simp only [elems_append, elems_cons, Int.toNat_ofNat, hsd]
        rw [← List.append_assoc (d0.take k2), List.take_append_drop,
          List.take_of_length_le (by omega)]
      by_cases hlow : (o : Int) ≥ (k2 : Int)
      · rw [if_pos hlow] at e1
        have hoo : (o : Int) - (k2 : Int) = ((o - k2 : Nat) : Int) := by omega
        rw [hoo] at e1
        generalize ho2 : o - k2 = o2 at e1
        refine ⟨h1, lst1, L0 ++ [⟨a0, (k2 : Int), d0⟩], a, m2, d2, o2, R0, ?_, ?_, by omega,
          by omega, by omega, ?_, hsz1, ?_, ?_, ?_, ?_⟩
        · simp only [split_if_full, l0, if_pos hfull]; exact e1
        · simp only [List.append_assoc, List.cons_append, List.nil_append]; exact hrep1
        · simp only [List.append_assoc, List.cons_append, List.nil_append]; exact hgd
        · simp only [List.append_assoc, List.cons_append, List.nil_append]; exact hcs
        · simp only [List.append_assoc, List.cons_append, List.nil_append]; exact hel
        · simp only [elems_append, elems_cons, elems_nil, Int.toNat_ofNat, List.length_append,
            List.length_take, List.append_nil]
          omega
        · simp only [List.append_assoc, List.cons_append, List.nil_append]; exact hfr
      · rw [if_neg hlow] at e1
        refine ⟨h1, lst1, L0, a0, k2, d0, o, _, ?_, hrep1, by omega, by omega, hg3, hgd,
          hsz1, hcs, hel, by omega, hfr⟩
        simp only [split_if_full, l0, if_pos hfull]; exact e1
  · right
    refine ⟨h, lst, L0, a0, c0, d0, o, R0, ?_, hrep, by omega, by omega, hg3, hgood, rfl, rfl,
      rfl, by omega, frames_refl _ _ _⟩
    simp only [split_if_full, l0, if_neg hfull]

/-! ## `list_insert_after` and `list_insert_before` -/

theorem list_insert_after_spec (CAP : Int) (malloc : Heap → Option Nat) (h : Heap) (lst : list)
    (ns : List ANode) (iter : list_iter) (v : Val) (k : Nat) (hCAP : 2 ≤ CAP)
    (hwf : WF CAP h lst ns) (hk : iter_index ns iter = some k)
    (hfresh : ∀ a, malloc h = some a → h a = none) :
    ∃ r h1 lst1 iter1, list_insert_after CAP malloc h lst iter v = some (r, h1, lst1, iter1) ∧
      ((r = 0 ∧ malloc h = none ∧ h1 = h ∧ lst1 = lst ∧ iter1 = iter) ∨
        (r = 1 ∧ ∃ ns1, WF CAP h1 lst1 ns1 ∧
          elems ns1 = (elems ns).take (k + 1) ++ v :: (elems ns).drop (k + 1) ∧
          lst1.size = lst.size + 1 ∧ iter_index ns1 iter1 = some (k) ∧
          Frames h h1 ns ns1 (malloc h))) := by
  have hsome : ∃ a, iter.node = some a := by
    obtain ⟨_, nd, _, _, hit, _⟩ := iter_index_elim ns iter k hk
    exact ⟨_, hit⟩
  obtain ⟨a0, ha0⟩ := hsome
  rcases split_if_full_spec CAP malloc h lst ns iter k hCAP hwf hk hfresh with ⟨e, hmn⟩ |
    ⟨h1, lst1, L, a, c, d, o, R, e, hrep1, ho, hc, hd, hgood1, hsz1, hcs1, hel1, hidx, hfr⟩
  · refine ⟨0, h, lst, iter, ?_, Or.inl ⟨rfl, hmn, rfl, rfl, rfl⟩⟩
    simp [list_insert_after, ha0, e]
  · have hcd : c < d.length := by omega
    obtain ⟨_, hrep2, hel2⟩ := slot_insert_spec h1 lst1 L R a d c (o + 1) v hrep1 (by omega) hcd
    have e2 := insert_after_slot_spec h1 lst1 L R a d c o v hrep1 ho hcd
    refine ⟨1, write h1 a ⟨(c : Int) + 1, shifted d c (o + 1) v, lastAddr none L, headAddr R none⟩,
      { lst1 with size := lst1.size + 1 }, ⟨some a, (o : Int)⟩, ?_,
      Or.inr ⟨rfl, _, ⟨hrep2, ?_, ?_⟩, ?_, ?_, ?_, ?_⟩⟩
    · simp only [list_insert_after, ha0, e]
      rw [if_neg (by decide)]
      exact e2
    · intro n hn
      simp only [List.mem_append, List.mem_cons] at hn
      rcases hn with hn | hn | hn
      · exact hgood1 n (by simp [hn])
      · subst hn
        refine ⟨by simp only; omega, by simp only; omega, ?_⟩
        simp only
        rw [shifted_length d c (o + 1) v (by omega) hcd]
        exact hd
      · exact hgood1 n (by simp [hn])
    · have h1s : lst1.size = count_sum ns := by rw [hsz1]; exact hwf.2.2
      simp only [count_sum_append, count_sum_cons] at hcs1 ⊢
      rw [h1s, ← hcs1]
      push_cast
      ring
    · have hpos : (elems L).length + (o + 1) = k + 1 := by omega
      rw [hel2, hel1, hpos]
    · simp only [hsz1]
    · have := iter_index_intro L R ⟨a, ((c + 1 : Nat) : Int), shifted d c (o + 1) v⟩
        ⟨some a, (o : Int)⟩ hrep2.1 rfl (by simp only; omega) (by simp only; omega)
      rw [this]
      simp only [Int.toNat_ofNat, hidx]
    · constructor
      · intro b hb hba
        have hne : b ≠ a := by
          intro he
          rcases hfr.2 a (by simp) with h3 | h3
          · exact hb (he ▸ h3)
          · exact hba (he ▸ h3)
        rw [write_ne _ _ _ _ hne]
        exact hfr.1 b hb hba
      · intro b hb
        exact hfr.2 b (by simpa using hb)

theorem list_insert_before_spec (CAP : Int) (malloc : Heap → Option Nat) (h : Heap) (lst : list)
    (ns : List ANode) (iter : list_iter) (v : Val) (k : Nat) (hCAP : 2 ≤ CAP)
    (hwf : WF CAP h lst ns) (hk : iter_index ns iter = some k)
    (hfresh : ∀ a, malloc h = some a → h a = none) :
    ∃ r h1 lst1 iter1, list_insert_before CAP malloc h lst iter v = some (r, h1, lst1, iter1) ∧
      ((r = 0 ∧ malloc h = none ∧ h1 = h ∧ lst1 = lst ∧ iter1 = iter) ∨
        (r = 1 ∧ ∃ ns1, WF CAP h1 lst1 ns1 ∧
          elems ns1 = (elems ns).take (k) ++ v :: (elems ns).drop (k) ∧
          lst1.size = lst.size + 1 ∧ iter_index ns1 iter1 = some (k + 1) ∧
          Frames h h1 ns ns1 (malloc h))) := by
  have hsome : ∃ a, iter.node = some a := by
    obtain ⟨_, nd, _, _, hit, _⟩ := iter_index_elim ns iter k hk
    exact ⟨_, hit⟩
  obtain ⟨a0, ha0⟩ := hsome
  rcases split_if_full_spec CAP malloc h lst ns iter k hCAP hwf hk hfresh with ⟨e, hmn⟩ |
    ⟨h1, lst1, L, a, c, d, o, R, e, hrep1, ho, hc, hd, hgood1, hsz1, hcs1, hel1, hidx, hfr⟩
  · refine ⟨0, h, lst, iter, ?_, Or.inl ⟨rfl, hmn, rfl, rfl, rfl⟩⟩
    simp [list_insert_before, ha0, e]
  · have hcd : c < d.length := by omega
    obtain ⟨_, hrep2, hel2⟩ := slot_insert_spec h1 lst1 L R a d c (o) v hrep1 (by omega) hcd
    have e2 := insert_before_slot_spec h1 lst1 L R a d c o v hrep1 ho hcd
    refine ⟨1, write h1 a ⟨(c : Int) + 1, shifted d c o v, lastAddr none L, headAddr R none⟩,
      { lst1 with size := lst1.size + 1 }, ⟨some a, (o : Int) + 1⟩, ?_,
      Or.inr ⟨rfl, _, ⟨hrep2, ?_, ?_⟩, ?_, ?_, ?_, ?_⟩⟩
    · simp only [list_insert_before, ha0, e]
      rw [if_neg (by decide)]
      exact e2
    · intro n hn
      simp only [List.mem_append, List.mem_cons] at hn
      rcases hn with hn | hn | hn
      · exact hgood1 n (by simp [hn])
      · subst hn
        refine ⟨by simp only; omega, by simp only; omega, ?_⟩
        simp only
        rw [shifted_length d c (o) v (by omega) hcd]
        exact hd
      · exact hgood1 n (by simp [hn])
    · have h1s : lst1.size = count_sum ns := by rw [hsz1]; exact hwf.2.2
      simp only [count_sum_append, count_sum_cons] at hcs1 ⊢
      rw [h1s, ← hcs1]
      push_cast
      ring
    · rw [hel2, hel1, hidx]
    · simp only [hsz1]
    · have := iter_index_intro L R ⟨a, ((c + 1 : Nat) : Int), shifted d c (o) v⟩
        ⟨some a, (o : Int) + 1⟩ hrep2.1 rfl (by simp only; omega) (by simp only; omega)
      rw [this]
      have e3 : ((o : Int) + 1).toNat = o + 1 := by omega
      simp only [e3, ← hidx]
      rfl
    · constructor
      · intro b hb hba
        have hne : b ≠ a := by
          intro he
          rcases hfr.2 a (by simp) with h3 | h3
          · exact hb (he ▸ h3)
          · exact hba (he ▸ h3)
        rw [write_ne _ _ _ _ hne]
        exact hfr.1 b hb hba
      · intro b hb
        exact hfr.2 b (by simpa using hb)

/-! ## `list_insert_beginning` -/

theorem rep_first (h : Heap) (lst : list) (R : List ANode) (nd : ANode)
    (hrep : Rep h lst (nd :: R)) :
    lst.first_node = some nd.addr ∧
      h nd.addr = some ⟨nd.count, nd.data, none, headAddr R none⟩ :=
  ⟨hrep.2.2.1, rep_lookup h lst [] R nd hrep⟩

theorem insert_beginning_slot_spec (h : Heap) (lst : list) (R : List ANode) (a : Nat)
    (d : List Val) (v : Val) (c : Nat) (hrep : Rep h lst (⟨a, c, d⟩ :: R)) (hlen : c < d.length) :
    ∃ h1 lst1, insert_beginning_slot h lst v = some (1, h1, lst1) ∧
      Rep h1 lst1 (⟨a, ((c + 1 : Nat) : Int), shifted d c 0 v⟩ :: R) ∧
      lst1.size = lst.size + 1 ∧ (∀ b, b ≠ a → h1 b = h b) ∧
      elems (⟨a, ((c + 1 : Nat) : Int), shifted d c 0 v⟩ :: R) = v :: elems (⟨a, c, d⟩ :: R) := by
  obtain ⟨hfirst, hnode⟩ := rep_first h lst R _ hrep
  obtain ⟨⟨X, hX, hS⟩, hrep1, hel⟩ := slot_insert_spec h lst [] R a d c 0 v hrep (by omega) hlen
  simp only [Nat.cast_zero, zero_add, sub_zero] at hX hS
  refine ⟨_, _, ?_, hrep1, rfl, fun b hb => write_ne _ _ _ _ hb, ?_⟩
  · simp only [insert_beginning_slot, hfirst, hnode, hX, hS]
    rfl
  · simpa using hel

theorem list_insert_beginning_spec (CAP : Int) (malloc : Heap → Option Nat) (h : Heap)
    (lst : list) (ns : List ANode) (v : Val) (hCAP : 1 ≤ CAP) (hwf : WF CAP h lst ns)
    (hfresh : ∀ a, malloc h = some a → h a = none) :
    ∃ r h1 lst1, list_insert_beginning CAP malloc h lst v = some (r, h1, lst1) ∧
      ((r = 0 ∧ malloc h = none ∧ h1 = h ∧ lst1 = lst) ∨
        (r = 1 ∧ ∃ ns1, WF CAP h1 lst1 ns1 ∧ elems ns1 = v :: elems ns ∧
          lst1.size = lst.size + 1 ∧ Frames h h1 ns ns1 (malloc h))) := by
  obtain ⟨hrep, hgood, hsize⟩ := hwf
  have hfl : 0 < (fresh_data CAP).length := by
    simp [fresh_data]; omega
  have hfg : ∀ a, Good CAP ⟨a, ((0 + 1 : Nat) : Int), shifted (fresh_data CAP) 0 0 v⟩ := by
    intro a
    refine ⟨by simp, by simpa using hCAP, ?_⟩
    simp only
    rw [shifted_length _ _ _ _ (le_refl _) hfl]
    simp [fresh_data]; omega
  cases ns with
  | nil =>
    have hfirst : lst.first_node = none := hrep.2.2.1
    cases hm : malloc h with
    | none =>
      refine ⟨0, h, lst, ?_, Or.inl ⟨rfl, rfl, rfl, rfl⟩⟩
      simp [list_insert_beginning, hfirst, insert_empty_sole_node, hm]
    | some a =>
      obtain ⟨e1, hrep1⟩ := insert_empty_sole_node_spec CAP malloc h lst a hm
      obtain ⟨hf1, hn1⟩ := rep_first _ _ _ _ hrep1
      have hne : ¬ ((0 : Int) = CAP) := by omega
      obtain ⟨h2, lst2, e2, hrep2, hsz2, hf2, hel2⟩ := insert_beginning_slot_spec _ _ []
        a (fresh_data CAP) v 0 hrep1 hfl
      refine ⟨1, h2, lst2, ?_, Or.inr ⟨rfl, _, ⟨hrep2, ?_, ?_⟩, ?_, ?_, ?_⟩⟩
      · simp only [list_insert_beginning, hfirst, if_true, e1]
        rw [if_neg (by decide)]
        simp only [insert_beginning_room, hn1, if_neg hne]
        exact e2
      · intro n hn
        simp only [List.mem_singleton] at hn
        subst hn
        exact hfg a
      · rw [hsz2]; simp [hsize]
      · simpa using hel2
      · simpa using hsz2
      · constructor
        · intro b _ hba
          have hne2 : b ≠ a := fun he => hba (by rw [he])
          rw [hf2 b hne2, write_ne _ _ _ _ hne2]
        · intro b hb
          right
          simp only [List.map_cons, List.map_nil, List.mem_singleton] at hb
          rw [hb]
  | cons nd R =>
    obtain ⟨hfirst, hnode⟩ := rep_first h lst R nd hrep
    have hgnd := hgood nd (by simp)
    obtain ⟨a0, cnt, d⟩ := nd
    obtain ⟨hg1, hg2, hg3⟩ := hgnd
    simp only at hg1 hg2 hg3 hfirst hnode
    obtain ⟨c, hc⟩ := Int.eq_ofNat_of_zero_le (show 0 ≤ cnt by omega)
    subst hc
    have hne : lst.first_node ≠ none := by rw [hfirst]; simp
    by_cases hfull : (c : Int) = CAP
    · cases hm : malloc h with
      | none =>
        refine ⟨0, h, lst, ?_, Or.inl ⟨rfl, rfl, rfl, rfl⟩⟩
        unfold list_insert_beginning
        rw [if_neg hne]
        simp only [insert_beginning_room, hfirst, hnode,
          if_pos hfull, insert_empty_node_before_fail CAP malloc h lst a0 hm]
        simp
      | some a =>
        obtain ⟨h1, lst1, e1, hrep1, hsz1, hf1⟩ :=
          insert_empty_node_before_spec CAP malloc h lst R _ a hrep hm (hfresh a hm)
        obtain ⟨h2, lst2, e2, hrep2, hsz2, hf2, hel2⟩ := insert_beginning_slot_spec h1 lst1 _
          a (fresh_data CAP) v 0 hrep1 hfl
        refine ⟨1, h2, lst2, ?_, Or.inr ⟨rfl, _, ⟨hrep2, ?_, ?_⟩, ?_, ?_, ?_⟩⟩
        · unfold list_insert_beginning
          rw [if_neg hne]
          simp only [insert_beginning_room, hfirst, hnode, if_pos hfull, e1]
          rw [if_neg (by decide)]
          exact e2
        · intro n hn
          simp only [List.mem_cons] at hn
          rcases hn with hn | hn | hn
          · subst hn; exact hfg a
          · subst hn; exact ⟨hg1, hg2, hg3⟩
          · exact hgood n (by simp [hn])
        · rw [hsz2, hsz1, hsize]
          simp only [count_sum_cons]
          push_cast
          ring
        · simpa using hel2
        · rw [hsz2, hsz1]
        · constructor
          · intro b hb hba
            have hne2 : b ≠ a := fun he => hba (by rw [he])
            rw [hf2 b hne2]
            exact hf1 b hb hne2
          · intro b hb
            simp only [List.map_cons, List.mem_cons] at hb ⊢
            rcases hb with hb | hb | hb
            · exact Or.inr (by rw [hb])
            · exact Or.inl (Or.inl hb)
            · exact Or.inl (Or.inr hb)
    · have hlt : c < d.length := by omega
      obtain ⟨h2, lst2, e2, hrep2, hsz2, hf2, hel2⟩ := insert_beginning_slot_spec h lst R
        a0 d v c hrep hlt
      refine ⟨1, h2, lst2, ?_, Or.inr ⟨rfl, _, ⟨hrep2, ?_, ?_⟩, hel2, hsz2, ?_⟩⟩
      · unfold list_insert_beginning
        rw [if_neg hne]
        simp only [insert_beginning_room, hfirst, hnode, if_neg hfull]
        exact e2
      · intro n hn
        simp only [List.mem_cons] at hn
        rcases hn with hn | hn
        · subst hn
          refine ⟨by simp only; omega, by simp only; omega, ?_⟩
          simp only
          rw [shifted_length _ _ _ _ (Nat.zero_le _) hlt]
          exact hg3
        · exact hgood n (by simp [hn])
      · rw [hsz2, hsize]
        simp only [count_sum_cons]
        push_cast
        ring
      · constructor
        · intro b hb _
          exact hf2 b (fun he => hb (by simp [he]))
        · intro b hb
          left
          simpa using hb

/-! ## `list_remove_end` and `list_remove_beginning` -/

theorem dropLast_append_take (A d : List Val) (c : Nat) (h1 : 1 ≤ c) (h2 : c ≤ d.length) :
    (A ++ d.take c).dropLast = A ++ d.take (c - 1) := by
  have hne : d.take c ≠ [] := by
    intro he
    have := congrArg List.length he
    simp only [List.length_take, List.length_nil] at this
    omega
  rw [List.dropLast_append_of_ne_nil A hne, List.dropLast_eq_take, List.take_take,
    List.length_take]
  congr 2
  omega

theorem tail_take_append (d B : List Val) (c : Nat) (h1 : 1 ≤ c) (h2 : c ≤ d.length) :
    (d.take c ++ B).tail = (d.drop 1).take (c - 1) ++ B := by
  have hne : d.take c ≠ [] := by
    intro he
    have := congrArg List.length he
    simp only [List.length_take, List.length_nil] at this
    omega
  rw [List.tail_append_of_ne_nil hne, ← List.drop_one, List.drop_take]

theorem list_remove_end_spec (CAP : Int) (h : Heap) (lst : list) (ns : List ANode)
    (hwf : WF CAP h lst ns) (hne : 0 < lst.size) :
    ∃ h1 lst1 ns1, list_remove_end h lst = some (h1, lst1) ∧ WF CAP h1 lst1 ns1 ∧
      elems ns1 = (elems ns).dropLast ∧ lst1.size = lst.size - 1 ∧ Frames h h1 ns ns1 none := by
  obtain ⟨hrep, hgood, hsize⟩ := hwf
  rcases List.eq_nil_or_concat ns with hns | ⟨L, nd, hns⟩
  · subst hns
    rw [hsize] at hne
    simp at hne
  rw [List.concat_eq_append] at hns
  subst hns
  obtain ⟨hlast, hnode⟩ := rep_last h lst L nd hrep
  obtain ⟨hg1, hg2, hg3⟩ := hgood nd (by simp)
  obtain ⟨a, cnt, d⟩ := nd
  obtain ⟨sz, fn, ln⟩ := lst
  simp only at hg1 hg2 hg3 hlast hnode hsize hne
  subst hlast
  obtain ⟨c, hc⟩ := Int.eq_ofNat_of_zero_le (show 0 ≤ cnt by omega)
  subst hc
  have hrep1 : Rep (write h a ⟨(c : Int) - 1, d, lastAddr none L, none⟩)
      ⟨sz - 1, fn, some a⟩ (L ++ [⟨a, (c : Int) - 1, d⟩]) :=
    rep_size _ _ _ _ (rep_write h _ L [] _ hrep _ _)
  have hel : elems L ++ d.take (c - 1) = (elems (L ++ [⟨a, (c : Int), d⟩])).dropLast := by
    rw [elems_append]
    simp only [elems_cons, elems_nil, List.append_nil, Int.toNat_ofNat]
    rw [dropLast_append_take _ _ _ (by omega) (by omega)]
  have hcs : count_sum (L ++ [⟨a, (c : Int), d⟩]) = count_sum L + c := by
    simp [count_sum_append]
  by_cases hz : (c : Int) - 1 = 0
  · obtain ⟨h2, lst2, e2, hrep2, hsz2, hf2, _⟩ := remove_node_spec _ _ L [] _ hrep1
    refine ⟨h2, lst2, L, ?_, ⟨by simpa using hrep2, fun n hn => hgood n (by simp [hn]), ?_⟩,
      ?_, ?_, ?_⟩
    · simp only [list_remove_end, hnode, if_pos hz]
      exact e2
    · rw [hsz2]; simp only; rw [hsize, hcs]; omega
    · rw [← hel]
      have : c - 1 = 0 := by omega
      simp [this]
    · rw [hsz2]
    · constructor
      · intro b hb _
        rw [hf2 b (by simpa using hb)]
        exact write_ne _ _ _ _ (fun he => hb (by simp [he]))
      · intro b hb
        left
        simp only [List.map_append, List.mem_append]
        exact Or.inl hb
  · refine ⟨_, _, L ++ [⟨a, (c : Int) - 1, d⟩], ?_, ⟨hrep1, ?_, ?_⟩, ?_, rfl, ?_⟩
    · simp only [list_remove_end, hnode, if_neg hz]
    · intro n hn
      simp only [List.mem_append, List.mem_singleton] at hn
      rcases hn with hn | hn
      · exact hgood n (by simp [hn])
      · subst hn; exact ⟨by simp only; omega, by simp only; omega, hg3⟩
    · simp only [count_sum_append, count_sum_cons, count_sum_nil]
      rw [hsize, hcs]; ring
    · rw [← hel, elems_append]
      simp only [elems_cons, elems_nil, List.append_nil]
      congr 2
      omega
    · constructor
      · intro b hb _
        exact write_ne _ _ _ _ (fun he => hb (by simp [he]))
      · intro b hb
        left
        simpa using hb

theorem list_remove_beginning_spec (CAP : Int) (h : Heap) (lst : list) (ns : List ANode)
    (hwf : WF CAP h lst ns) (hne : 0 < lst.size) :
    ∃ h1 lst1 ns1, list_remove_beginning h lst = some (h1, lst1) ∧ WF CAP h1 lst1 ns1 ∧
      elems ns1 = (elems ns).tail ∧ lst1.size = lst.size - 1 ∧ Frames h h1 ns ns1 none := by
  obtain ⟨hrep, hgood, hsize⟩ := hwf
  cases ns with
  | nil =>
    rw [hsize] at hne
    simp at hne
  | cons nd R =>
  obtain ⟨hfirst, hnode⟩ := rep_first h lst R nd hrep
  obtain ⟨hg1, hg2, hg3⟩ := hgood nd (by simp)
  obtain ⟨a, cnt, d⟩ := nd
  obtain ⟨sz, fn, ln⟩ := lst
  simp only at hg1 hg2 hg3 hfirst hnode hsize hne
  subst hfirst
  obtain ⟨c, hc⟩ := Int.eq_ofNat_of_zero_le (show 0 ≤ cnt by omega)
  subst hc
  have hcs : count_sum (⟨a, (c : Int), d⟩ :: R) = c + count_sum R := by simp
  have hmm := memmove_nat d d 0 1 (c - 1) (by omega) (by omega)
  have hcast : memmove d 0 d 1 ((c : Int) - 1) = memmove d ((0 : Nat) : Int) d ((1 : Nat) : Int)
      ((c - 1 : Nat) : Int) := by
    congr 1
    omega
  rw [← hcast] at hmm
  generalize hd1 : d.take 0 ++ ((d.drop 1).take (c - 1) ++ d.drop (0 + (c - 1))) = d1 at hmm
  have hd1t : d1.take (c - 1) = (d.drop 1).take (c - 1) := by
    rw [← hd1, List.take_zero, List.nil_append,
      List.take_append_of_le_length (by simp only [List.length_take, List.length_drop]; omega),
      List.take_take, Nat.min_self]
  have hd1l : d1.length = d.length := memmove_length _ _ _ _ _ _ hmm
  have hrep1 : Rep (write h a ⟨(c : Int) - 1, d1, none, headAddr R none⟩)
      ⟨sz - 1, some a, ln⟩ (⟨a, (c : Int) - 1, d1⟩ :: R) :=
    rep_size _ _ _ _ (rep_write h _ [] R _ hrep _ _)
  have hel : d1.take (c - 1) ++ elems R = (elems (⟨a, (c : Int), d⟩ :: R)).tail := by
    simp only [elems_cons, Int.toNat_ofNat]
    rw [tail_take_append _ _ _ (by omega) (by omega), hd1t]
  by_cases hz : (c : Int) - 1 = 0
  · obtain ⟨h2, lst2, e2, hrep2, hsz2, hf2, _⟩ := remove_node_spec _ _ [] R _ hrep1
    refine ⟨h2, lst2, R, ?_, ⟨by simpa using hrep2, fun n hn => hgood n (by simp [hn]), ?_⟩,
      ?_, ?_, ?_⟩
    · simp only [list_remove_beginning, hnode, hmm, if_pos hz]
      exact e2
    · rw [hsz2]; simp only; rw [hsize, hcs]; omega
    · rw [← hel]
      have : c - 1 = 0 := by omega
      simp [this]
    · rw [hsz2]
    · constructor
      · intro b hb _
        rw [hf2 b (by simpa using hb)]
        exact write_ne _ _ _ _ (fun he => hb (by simp [he]))
      · intro b hb
        left
        simp only [List.map_cons, List.mem_cons]
        exact Or.inr hb
  · refine ⟨_, _, ⟨a, (c : Int) - 1, d1⟩ :: R, ?_, ⟨hrep1, ?_, ?_⟩, ?_, rfl, ?_⟩
    · simp only [list_remove_beginning, hnode, hmm, if_neg hz]
    · intro n hn
      simp only [List.mem_cons] at hn
      rcases hn with hn | hn
      · subst hn; exact ⟨by simp only; omega, by simp only; omega, by simp only; omega⟩
      · exact hgood n (by simp [hn])
    · simp only [count_sum_cons]
      rw [hsize, hcs]; ring
    · rw [← hel]
      simp only [elems_cons]
      congr 2
      omega
    · constructor
      · intro b hb _
        exact write_ne _ _ _ _ (fun he => hb (by simp [he]))
      · intro b hb
        left
        simpa using hb

/-! ## `rebalance_nodes` and `list_remove`: the chain and the counts -/

theorem rep_lookup3 (h : Heap) (lst : list) (L R : List ANode) (pd nd xd : ANode)
    (hrep : Rep h lst (L ++ pd :: nd :: xd :: R)) :
    h pd.addr = some ⟨pd.count, pd.data, lastAddr none L, some nd.addr⟩ ∧
      h nd.addr = some ⟨nd.count, nd.data, some pd.addr, some xd.addr⟩ ∧
      h xd.addr = some ⟨xd.count, xd.data, some nd.addr, headAddr R none⟩ := by
  refine ⟨rep_lookup h lst L _ pd hrep, ?_, ?_⟩
  · have := rep_lookup h lst (L ++ [pd]) (xd :: R) nd (by simpa using hrep)
    simpa [lastAddr_append] using this
  · have := rep_lookup h lst (L ++ [pd, nd]) R xd (by simpa using hrep)
    simpa [lastAddr_append] using this

theorem rep_write_mid (h : Heap) (lst : list) (L R : List ANode) (pd nd xd : ANode)
    (hrep : Rep h lst (L ++ pd :: nd :: xd :: R)) (c : Int) (d : List Val) :
    Rep (write h nd.addr ⟨c, d, some pd.addr, some xd.addr⟩) lst
      (L ++ pd :: ⟨nd.addr, c, d⟩ :: xd :: R) := by
  have := rep_write h lst (L ++ [pd]) (xd :: R) nd (by simpa using hrep) c d
  simpa [lastAddr_append] using this

theorem rebalance_merge_inv (h : Heap) (lst : list) (L R : List ANode) (pd nd xd : ANode)
    (iter iter2 : list_iter) (h2 : Heap) (lst2 : list)
    (hrep : Rep h lst (L ++ pd :: nd :: xd :: R))
    (hres : rebalance_merge h lst iter nd.addr = some (h2, lst2, iter2)) :
    ∃ d3, d3.length = nd.data.length ∧
      Rep h2 lst2 (L ++ ⟨nd.addr, xd.count + nd.count + pd.count, d3⟩ :: R) ∧
      lst2.size = lst.size ∧
      (∀ b, b ∉ (L ++ pd :: nd :: xd :: R).map ANode.addr → h2 b = h b) := by
  obtain ⟨lp, la, lx⟩ := rep_lookup3 h lst L R pd nd xd hrep
  simp only [rebalance_merge, la, lp, lx] at hres
  cases hm1 : memmove nd.data pd.count nd.data 0 nd.count with
  | none => simp [hm1] at hres
  | some d1 =>
  rw [hm1] at hres
  simp only at hres
  cases hm2 : memmove d1 0 pd.data 0 pd.count with
  | none => simp [hm2] at hres
  | some d2 =>
  rw [hm2] at hres
  simp only at hres
  cases hm3 : memmove d2 (pd.count + nd.count) xd.data 0 xd.count with
  | none => simp [hm3] at hres
  | some d3 =>
  rw [hm3] at hres
  simp only at hres
  have hlen : d3.length = nd.data.length := by
    rw [memmove_length _ _ _ _ _ _ hm3, memmove_length _ _ _ _ _ _ hm2,
      memmove_length _ _ _ _ _ _ hm1]
  have hrep1 := rep_write_mid h lst L R pd nd xd hrep (xd.count + nd.count + pd.count) d3
  obtain ⟨h3, lst3, e3, hrep3, hsz3, hf3, _⟩ := remove_node_spec _ _ L _ pd hrep1
  rw [e3] at hres
  simp only at hres
  have l3 := rep_lookup h3 lst3 L (xd :: R) _ hrep3
  simp only [headAddr_cons] at l3
  rw [l3] at hres
  simp only at hres
  obtain ⟨h4, lst4, e4, hrep4, hsz4, hf4, _⟩ := remove_node_spec h3 lst3
    (L ++ [⟨nd.addr, xd.count + nd.count + pd.count, d3⟩]) R xd (by simpa using hrep3)
  rw [e4] at hres
  simp only [Option.some.injEq, Prod.mk.injEq] at hres
  obtain ⟨hh, hl, _⟩ := hres
  subst hh hl
  refine ⟨d3, hlen, by simpa using hrep4, by rw [hsz4, hsz3], ?_⟩
  intro b hb
  simp only [List.map_append, List.map_cons, List.mem_append, List.mem_cons] at hb
  push_neg at hb
  rw [hf4 b (by simp only [List.map_append, List.map_cons, List.map_nil, List.mem_append,
    List.mem_cons, List.mem_singleton, List.not_mem_nil]; tauto),
    hf3 b (by simp only [List.map_append, List.map_cons, List.mem_append, List.mem_cons]; tauto),
    write_ne _ _ _ _ hb.2.2.1]

theorem rebalance_two_inv (hdr : list_node → List Val) (h : Heap) (lst : list)
    (L R : List ANode) (pd nd xd : ANode) (iter iter2 : list_iter) (h2 : Heap) (lst2 : list)
    (hrep : Rep h lst (L ++ pd :: nd :: xd :: R))
    (hres : rebalance_two hdr h lst iter nd.addr = some (h2, lst2, iter2)) :
    ∃ d1 d3, d1.length = pd.data.length ∧ d3.length = nd.data.length ∧
      Rep h2 lst2 (L ++ ⟨pd.addr, (xd.count + nd.count + pd.count) / 2, d1⟩ ::
        ⟨nd.addr, (xd.count + nd.count + pd.count + 1) / 2, d3⟩ :: R) ∧
      lst2.size = lst.size ∧
      (∀ b, b ∉ (L ++ pd :: nd :: xd :: R).map ANode.addr → h2 b = h b) := by
  obtain ⟨lp, la, lx⟩ := rep_lookup3 h lst L R pd nd xd hrep
  simp only [rebalance_two, la, lp, lx, add_zero] at hres
  have key : ∀ (d1 d3 : List Val), d1.length = pd.data.length → d3.length = nd.data.length →
      (match remove_node (write (write h pd.addr
          ⟨(xd.count + nd.count + pd.count) / 2, d1, lastAddr none L, some nd.addr⟩) nd.addr
          ⟨(xd.count + nd.count + pd.count + 1) / 2, d3, some pd.addr, some xd.addr⟩) lst xd.addr
        with
        | none => none
        | some (h3, lst3) => some (h3, lst3, iter2)) = some (h2, lst2, iter2) →
      ∃ d1 d3, d1.length = pd.data.length ∧ d3.length = nd.data.length ∧
      Rep h2 lst2 (L ++ ⟨pd.addr, (xd.count + nd.count + pd.count) / 2, d1⟩ ::
        ⟨nd.addr, (xd.count + nd.count + pd.count + 1) / 2, d3⟩ :: R) ∧
      lst2.size = lst.size ∧
      (∀ b, b ∉ (L ++ pd :: nd :: xd :: R).map ANode.addr → h2 b = h b) := by
    intro d1 d3 hl1 hl3 hr
    have hrep1 : Rep (write h pd.addr
        ⟨(xd.count + nd.count + pd.count) / 2, d1, lastAddr none L, some nd.addr⟩) lst
        (L ++ ⟨pd.addr, (xd.count + nd.count + pd.count) / 2, d1⟩ :: nd :: xd :: R) :=
      rep_write h lst L _ pd hrep _ _
    have hrep2 := rep_write_mid _ lst L R _ nd xd hrep1
      ((xd.count + nd.count + pd.count + 1) / 2) d3
    obtain ⟨h4, lst4, e4, hrep4, hsz4, hf4, _⟩ := remove_node_spec _ lst
      (L ++ [⟨pd.addr, (xd.count + nd.count + pd.count) / 2, d1⟩,
        ⟨nd.addr, (xd.count + nd.count + pd.count + 1) / 2, d3⟩]) R xd
      (by simp only [List.append_assoc, List.cons_append, List.nil_append]; exact hrep2)
    rw [e4] at hr
    simp only [Option.some.injEq, Prod.mk.injEq] at hr
    obtain ⟨hh, hl, _⟩ := hr
    subst hh hl
    refine ⟨d1, d3, hl1, hl3, ?_, hsz4, ?_⟩
    · simp only [List.append_assoc, List.cons_append, List.nil_append] at hrep4
      exact hrep4
    intro b hb
    simp only [List.map_append, List.map_cons, List.mem_append, List.mem_cons] at hb
    push_neg at hb
    rw [hf4 b (by simp only [List.map_append, List.map_cons, List.map_nil, List.mem_append,
      List.mem_cons, List.mem_singleton, List.not_mem_nil]; tauto),
      write_ne _ _ _ _ hb.2.2.1, write_ne _ _ _ _ hb.2.1]
  split at hres
  · cases hm1 : memmove pd.data pd.count nd.data 0
        ((xd.count + nd.count + pd.count) / 2 - pd.count) with
    | none => simp [hm1] at hres
    | some d1 =>
    rw [hm1] at hres
    simp only at hres
    cases hm2 : memmove nd.data 0 nd.data ((xd.count + nd.count + pd.count) / 2 - pd.count)
        (nd.count - ((xd.count + nd.count + pd.count) / 2 - pd.count)) with
    | none => simp [hm2] at hres
    | some d2 =>
    rw [hm2] at hres
    simp only at hres
    cases hm3 : memmove d2 (nd.count - ((xd.count + nd.count + pd.count) / 2 - pd.count))
        xd.data 0 xd.count with
    | none => simp [hm3] at hres
    | some d3 =>
    rw [hm3] at hres
    simp only at hres
    have hres2 : (match remove_node (write (write h pd.addr
          ⟨(xd.count + nd.count + pd.count) / 2, d1, lastAddr none L, some nd.addr⟩) nd.addr
          ⟨(xd.count + nd.count + pd.count + 1) / 2, d3, some pd.addr, some xd.addr⟩) lst xd.addr
        with
        | none => none
        | some (h3, lst3) => some (h3, lst3, iter2)) = some (h2, lst2, iter2) := by
      revert hres
      cases remove_node (write (write h pd.addr
          ⟨(xd.count + nd.count + pd.count) / 2, d1, lastAddr none L, some nd.addr⟩) nd.addr
          ⟨(xd.count + nd.count + pd.count + 1) / 2, d3, some pd.addr, some xd.addr⟩) lst xd.addr
        with
      | none => simp
      | some r =>
        simp only [Option.some.injEq, Prod.mk.injEq]
        rintro ⟨e1, e2, _⟩
        exact ⟨e1, e2, trivial⟩
    exact key d1 d3 (memmove_length _ _ _ _ _ _ hm1)
      (by rw [memmove_length _ _ _ _ _ _ hm3, memmove_length _ _ _ _ _ _ hm2]) hres2
  · cases hm1 : memmove nd.data (pd.count - (xd.count + nd.count + pd.count) / 2)
        (hdr ⟨nd.count, nd.data, some pd.addr, some xd.addr⟩ ++ nd.data) 0 nd.count with
    | none => simp [hm1] at hres
    | some d1 =>
    rw [hm1] at hres
    simp only at hres
    cases hm2 : memmove d1 0 pd.data ((xd.count + nd.count + pd.count) / 2)
        (pd.count - (xd.count + nd.count + pd.count) / 2) with
    | none => simp [hm2] at hres
    | some d2 =>
    rw [hm2] at hres
    simp only at hres
    cases hm3 : memmove d2 (nd.count + (pd.count - (xd.count + nd.count + pd.count) / 2))
        xd.data 0 xd.count with
    | none => simp [hm3] at hres
    | some d3 =>
    rw [hm3] at hres
    simp only at hres
    have hres2 : (match remove_node (write (write h pd.addr
          ⟨(xd.count + nd.count + pd.count) / 2, pd.data, lastAddr none L, some nd.addr⟩)
          nd.addr
          ⟨(xd.count + nd.count + pd.count + 1) / 2, d3, some pd.addr, some xd.addr⟩) lst xd.addr
        with
        | none => none
        | some (h3, lst3) => some (h3, lst3, iter2)) = some (h2, lst2, iter2) := by
      revert hres
      cases remove_node (write (write h pd.addr
          ⟨(xd.count + nd.count + pd.count) / 2, pd.data, lastAddr none L, some nd.addr⟩)
          nd.addr
          ⟨(xd.count + nd.count + pd.count + 1) / 2, d3, some pd.addr, some xd.addr⟩) lst xd.addr
        with
      | none => simp
      | some r =>
        simp only [Option.some.injEq, Prod.mk.injEq]
        rintro ⟨e1, e2, _⟩
        exact ⟨e1, e2, trivial⟩
    exact key pd.data d3 rfl
      (by rw [memmove_length _ _ _ _ _ _ hm3, memmove_length _ _ _ _ _ _ hm2,
        memmove_length _ _ _ _ _ _ hm1]) hres2

theorem rebalance_nodes_inv (CAP : Int) (hdr : list_node → List Val) (fuel : Nat) (h : Heap)
    (lst : list) (L R : List ANode) (nd : ANode) (iter iter2 : list_iter) (h2 : Heap)
    (lst2 : list) (hrep : Rep h lst (L ++ nd :: R))
    (hL : ∀ n ∈ L, Good CAP n) (hR : ∀ n ∈ R, Good CAP n) (hc0 : 0 ≤ nd.count)
    (hc1 : nd.count ≤ CAP) (hd : (nd.data.length : Int) = CAP) (hit : iter.node = some nd.addr)
    (hres : rebalance_nodes CAP hdr fuel h lst iter = some (h2, lst2, iter2)) :
    ∃ ns2, Rep h2 lst2 ns2 ∧ (∀ n ∈ ns2, Good CAP n) ∧
      count_sum ns2 = count_sum (L ++ nd :: R) ∧ lst2.size = lst.size ∧
      Frames h h2 (L ++ nd :: R) ns2 none := by
  have la := rep_lookup h lst L R nd hrep
  have hedge : (headAddr R none = none ∨ lastAddr none L = none) →
      ∃ ns2, Rep h2 lst2 ns2 ∧ (∀ n ∈ ns2, Good CAP n) ∧
      count_sum ns2 = count_sum (L ++ nd :: R) ∧ lst2.size = lst.size ∧
      Frames h h2 (L ++ nd :: R) ns2 none := by
    intro hcond
    simp only [rebalance_nodes, hit, la] at hres
    rw [if_pos hcond] at hres
    split at hres
    · rename_i hz
      cases hfx : fixup_iter_node fuel h lst iter with
      | none => simp [hfx] at hres
      | some iter1 =>
      rw [hfx] at hres
      simp only at hres
      obtain ⟨h3, lst3, e3, hrep3, hsz3, hf3, _⟩ := remove_node_spec h lst L R nd hrep
      rw [e3] at hres
      simp only [Option.some.injEq, Prod.mk.injEq] at hres
      obtain ⟨hh, hl, _⟩ := hres
      subst hh hl
      refine ⟨L ++ R, hrep3, ?_, ?_, hsz3, ⟨fun b hb _ => hf3 b hb, ?_⟩⟩
      · intro n hn
        rcases List.mem_append.1 hn with hn | hn
        · exact hL n hn
        · exact hR n hn
      · simp only [count_sum_append, count_sum_cons, hz]; ring
      · intro b hb
        left
        simp only [List.map_append, List.map_cons, List.mem_append, List.mem_cons] at hb ⊢
        tauto
    · rename_i hz
      simp only [Option.some.injEq, Prod.mk.injEq] at hres
      obtain ⟨hh, hl, _⟩ := hres
      subst hh hl
      refine ⟨L ++ nd :: R, hrep, ?_, rfl, rfl, frames_refl _ _ _⟩
      intro n hn
      simp only [List.mem_append, List.mem_cons] at hn
      rcases hn with hn | hn | hn
      · exact hL n hn
      · subst hn; exact ⟨by omega, hc1, hd⟩
      · exact hR n hn
  rcases List.eq_nil_or_concat L with hL0 | ⟨L1, pd, hL1⟩
  · subst hL0
    exact hedge (Or.inr rfl)
  cases R with
  | nil => exact hedge (Or.inl rfl)
  | cons xd R1 =>
  rw [List.concat_eq_append] at hL1
  subst hL1
  have hrep0 : Rep h lst (L1 ++ pd :: nd :: xd :: R1) := by
    simpa using hrep
  obtain ⟨lp, la1, lx⟩ := rep_lookup3 h lst L1 R1 pd nd xd hrep0
  have hgp := hL pd (by simp)
  have hgx := hR xd (by simp)
  have hL1g : ∀ n ∈ L1, Good CAP n := fun n hn => hL n (by simp [hn])
  have hR1g : ∀ n ∈ R1, Good CAP n := fun n hn => hR n (by simp [hn])
  simp only [rebalance_nodes, hit, la1] at hres
  rw [if_neg (by simp)] at hres
  simp only [lx, lp] at hres
  have hcs0 : count_sum (L1 ++ [pd] ++ nd :: xd :: R1) =
      count_sum L1 + count_sum R1 + (xd.count + nd.count + pd.count) := by
    simp only [count_sum_append, count_sum_cons, count_sum_nil]; ring
  split at hres
  · rename_i hsum
    obtain ⟨d3, hlen, hrep3, hsz3, hf3⟩ := rebalance_merge_inv h lst L1 R1 pd nd xd iter iter2
      h2 lst2 hrep0 hres
    refine ⟨_, hrep3, ?_, ?_, hsz3, ⟨fun b hb _ => hf3 b (by simpa using hb), ?_⟩⟩
    · intro n hn
      simp only [List.mem_append, List.mem_cons] at hn
      rcases hn with hn | hn | hn
      · exact hL1g n hn
      · subst hn
        exact ⟨by simp only; have := hgp.1; have := hgx.1; omega, hsum, by simp only; omega⟩
      · exact hR1g n hn
    · rw [hcs0]
      simp only [count_sum_append, count_sum_cons]; ring
    · intro b hb
      left
      simp only [List.map_append, List.map_cons, List.mem_append, List.mem_cons,
        List.map_nil, List.mem_singleton, List.not_mem_nil] at hb ⊢
      tauto
  · rename_i hsum
    split at hres
    · rename_i hsum2
      obtain ⟨d1, d3, hl1, hl3, hrep3, hsz3, hf3⟩ := rebalance_two_inv hdr h lst L1 R1 pd nd xd
        iter iter2 h2 lst2 hrep0 hres
      refine ⟨_, hrep3, ?_, ?_, hsz3, ⟨fun b hb _ => hf3 b (by simpa using hb), ?_⟩⟩
      · intro n hn
        simp only [List.mem_append, List.mem_cons] at hn
        rcases hn with hn | hn | hn | hn
        · exact hL1g n hn
        · subst hn
          exact ⟨by simp only; omega, by simp only; omega, by simp only; rw [hl1]; exact hgp.2.2⟩
        · subst hn
          exact ⟨by simp only; omega, hsum2, by simp only; omega⟩
        · exact hR1g n hn
      · rw [hcs0]
        simp only [count_sum_append, count_sum_cons]
        omega
      · intro b hb
        left
        simp only [List.map_append, List.map_cons, List.mem_append, List.mem_cons,
          List.map_nil, List.mem_singleton, List.not_mem_nil] at hb ⊢
        tauto
    · rename_i hsum2
      simp only [Option.some.injEq, Prod.mk.injEq] at hres
      obtain ⟨hh, hl, _⟩ := hres
      subst hh hl
      refine ⟨_, hrep, ?_, rfl, rfl, frames_refl _ _ _⟩
      intro n hn
      rcases List.mem_append.1 hn with hn | hn
      · exact hL n hn
      · simp only [List.mem_cons] at hn
        rcases hn with hn | hn
        · subst hn
          have := hgp.2.1
          have := hgx.2.1
          exact ⟨by omega, hc1, hd⟩
        · exact hR n (by simpa using hn)

theorem list_remove_inv (CAP : Int) (hdr : list_node → List Val) (fuel : Nat) (h : Heap)
    (lst : list) (ns : List ANode) (iter iter2 : list_iter) (k : Nat) (h2 : Heap) (lst2 : list)
    (hwf : WF CAP h lst ns) (hk : iter_index ns iter = some k)
    (hres : list_remove CAP hdr fuel h lst iter = some (h2, lst2, iter2)) :
    ∃ ns2, WF CAP h2 lst2 ns2 ∧ lst2.size = lst.size - 1 ∧ Frames h h2 ns ns2 none := by
  obtain ⟨hrep, hgood, hsize⟩ := hwf
  obtain ⟨L, nd, R, hns, hit, ho0, ho1, _⟩ := iter_index_elim ns iter k hk
  subst hns
  have la := rep_lookup h lst L R nd hrep
  obtain ⟨hg1, hg2, hg3⟩ := hgood nd (by simp)
  simp only [list_remove, hit, la] at hres
  cases hm : memmove nd.data iter.offset nd.data (iter.offset + 1)
      (nd.count - (iter.offset + 1)) with
  | none => simp [hm] at hres
  | some d1 =>
  rw [hm] at hres
  simp only at hres
  have hlen := memmove_length _ _ _ _ _ _ hm
  have hrep1 : Rep (write h nd.addr ⟨nd.count - 1, d1, lastAddr none L, headAddr R none⟩)
      { lst with size := lst.size - 1 } (L ++ ⟨nd.addr, nd.count - 1, d1⟩ :: R) :=
    rep_size _ _ _ _ (rep_write h lst L R nd hrep _ _)
  cases hrb : rebalance_nodes CAP hdr fuel
      (write h nd.addr ⟨nd.count - 1, d1, lastAddr none L, headAddr R none⟩)
      { lst with size := lst.size - 1 } iter with
  | none => simp [hrb] at hres
  | some r =>
  obtain ⟨h3, lst3, iter3⟩ := r
  rw [hrb] at hres
  simp only at hres
  cases hfx : fixup_iter_node fuel h3 lst3 iter3 with
  | none => simp [hfx] at hres
  | some iter4 =>
  rw [hfx] at hres
  simp only [Option.some.injEq, Prod.mk.injEq] at hres
  obtain ⟨hh, hl, _⟩ := hres
  subst hh hl
  obtain ⟨ns2, hrep2, hgood2, hcs2, hsz2, hf2⟩ := rebalance_nodes_inv CAP hdr fuel _ _ L R
    ⟨nd.addr, nd.count - 1, d1⟩ iter iter3 h3 lst3 hrep1
    (fun n hn => hgood n (by simp [hn])) (fun n hn => hgood n (by simp [hn]))
    (by simp only; omega) (by simp only; omega) (by simp only; omega) hit hrb
  refine ⟨ns2, ⟨hrep2, hgood2, ?_⟩, hsz2, ?_⟩
  · rw [hsz2, hcs2]
    simp only [count_sum_append, count_sum_cons] at hsize ⊢
    rw [hsize]; ring
  · constructor
    · intro b hb _
      rw [hf2.1 b (by simpa using hb) (by simp)]
      exact write_ne _ _ _ _ (fun he => hb (by simp [he]))
    · intro b hb
      left
      have := (hf2.2 b hb).resolve_right (by simp)
      simpa using this

/-! ## The iterator precondition -/

theorem list_contains_node_sound (h : Heap) (a : Nat) (fuel : Nat) (p : Option Nat)
    (ns : List ANode) (hc : Chain h p ns none)
    (hres : list_contains_node h a fuel (headAddr ns none) = some true) :
    a ∈ ns.map ANode.addr := by
  induction fuel generalizing p ns with
  | zero => simp [list_contains_node] at hres
  | succ fuel ih =>
    cases ns with
    | nil => simp [list_contains_node] at hres
    | cons n rest =>
      rw [chain_cons] at hc
      simp only [headAddr_cons, list_contains_node] at hres
      by_cases he : n.addr = a
      · simp [he]
      · rw [if_neg he, hc.1] at hres
        simp only at hres
        have := ih (some n.addr) rest hc.2 hres
        simp [this]

theorem check_iter_invariants_sound (fuel : Nat) (h : Heap) (lst : list) (ns : List ANode)
    (iter : list_iter) (hrep : Rep h lst ns) (hne : iter.node ≠ none)
    (hchk : check_iter_invariants fuel h lst iter = some true) :
    ∃ k, iter_index ns iter = some k := by
  cases hn : iter.node with
  | none => exact absurd hn hne
  | some a =>
    simp only [check_iter_invariants, hn] at hchk
    cases ha : h a with
    | none => simp [ha] at hchk
    | some n =>
      rw [ha] at hchk
      simp only at hchk
      split at hchk
      · rename_i ho
        rw [hrep.2.2.1] at hchk
        have hmem := list_contains_node_sound h a fuel none ns hrep.2.1 hchk
        obtain ⟨nd, hnd, hnda⟩ := List.mem_map.1 hmem
        obtain ⟨L, R, hns⟩ := List.append_of_mem hnd
        subst hns
        have la := rep_lookup h lst L R nd hrep
        rw [hnda, ha] at la
        simp only [Option.some.injEq] at la
        subst la
        exact ⟨_, iter_index_intro L R nd iter hrep.1 (by rw [hn, hnda]) ho.1 ho.2⟩
      · simp at hchk

/-! ## The invariant of the reachable states -/

theorem wf_frame (CAP : Int) (h h1 : Heap) (lst : list) (ms : List ANode)
    (hwf : WF CAP h lst ms) (hf : ∀ b ∈ ms.map ANode.addr, h1 b = h b) : WF CAP h1 lst ms := by
  obtain ⟨⟨hnd, hc, hfst, hlst⟩, hgood, hsize⟩ := hwf
  exact ⟨⟨hnd, chain_frame h h1 _ _ ms (fun n hn => hf _ (List.mem_map_of_mem _ hn)) hc,
    hfst, hlst⟩, hgood, hsize⟩

theorem inv_init (CAP : Int) : Inv CAP init :=
  ⟨[], [], ⟨⟨by simp, trivial, rfl, rfl⟩, by simp, rfl⟩,
    ⟨⟨by simp, trivial, rfl, rfl⟩, by simp, rfl⟩, by simp⟩

theorem inv_of_frames (CAP : Int) (h h1 : Heap) (_lst lst1 other : list) (ns ns1 ms : List ANode)
    (m : Option Nat) (hms : WF CAP h other ms)
    (hdis : ∀ b ∈ ns.map ANode.addr, b ∉ ms.map ANode.addr)
    (hwf1 : WF CAP h1 lst1 ns1) (hfr : Frames h h1 ns ns1 m)
    (hfresh : ∀ a, m = some a → h a = none) : Inv CAP ⟨h1, lst1, other⟩ := by
  have halloc : ∀ b ∈ ms.map ANode.addr, m ≠ some b := by
    intro b hb he
    exact chain_alloc h _ _ ms hms.1.2.1 b hb (hfresh b he)
  refine ⟨ns1, ms, hwf1, wf_frame CAP h h1 other ms hms ?_, ?_⟩
  · intro b hb
    exact hfr.1 b (fun hbn => hdis b hbn hb) (halloc b hb)
  · intro b hb hbm
    rcases hfr.2 b hb with h3 | h3
    · exact hdis b h3 hbm
    · exact halloc b hbm h3

theorem fresh_at_spec (h : Heap) (m : Option Nat) (hf : fresh_at h m = true) :
    ∀ a, (fun _ : Heap => m) h = some a → h a = none := by
  intro a ha
  simp only at ha
  subst ha
  simpa [fresh_at] using hf

theorem inv_step (CAP : Int) (hdr : list_node → List Val) (hCAP : 2 ≤ CAP) (op : Op)
    (s s1 : State) (hinv : Inv CAP s) (hstep : step CAP hdr op s = some s1) : Inv CAP s1 := by
  obtain ⟨ns, ms, hns, hms, hdis⟩ := hinv
  obtain ⟨h, lst, other⟩ := s
  simp only at hns hms
  cases op with
  | insert_beginning v m =>
    simp only [step] at hstep
    split at hstep
    · rename_i hf
      have hfresh := fresh_at_spec h m hf
      obtain ⟨r, h1, lst1, e, hres⟩ := list_insert_beginning_spec CAP (fun _ => m) h lst ns v
        (by omega) hns hfresh
      rw [e] at hstep
      simp only [Option.some.injEq] at hstep
      subst hstep
      rcases hres with ⟨_, _, hh, hl⟩ | ⟨_, ns1, hwf1, _, _, hfr⟩
      · subst hh hl; exact ⟨ns, ms, hns, hms, hdis⟩
      · exact inv_of_frames CAP h h1 lst lst1 other ns ns1 ms m hms hdis hwf1 hfr
          (fun a ha => hfresh a ha)
    · simp at hstep
  | insert_end v m =>
    simp only [step] at hstep
    split at hstep
    · rename_i hf
      have hfresh := fresh_at_spec h m hf
      obtain ⟨r, h1, lst1, e, hres⟩ := list_insert_end_spec CAP (fun _ => m) h lst ns v
        (by omega) hns hfresh
      rw [e] at hstep
      simp only [Option.some.injEq] at hstep
      subst hstep
      rcases hres with ⟨_, _, hh, hl⟩ | ⟨_, ns1, hwf1, _, _, hfr⟩
      · subst hh hl; exact ⟨ns, ms, hns, hms, hdis⟩
      · exact inv_of_frames CAP h h1 lst lst1 other ns ns1 ms m hms hdis hwf1 hfr
          (fun a ha => hfresh a ha)
    · simp at hstep
  | insert_after iter v m fuel =>
    simp only [step] at hstep
    split at hstep
    · rename_i hf
      have hfresh := fresh_at_spec h m hf.1
      obtain ⟨k, hk⟩ := check_iter_invariants_sound fuel h lst ns iter hns.1 hf.2.1 hf.2.2
      obtain ⟨r, h1, lst1, iter1, e, hres⟩ := list_insert_after_spec CAP (fun _ => m) h lst ns
        iter v k hCAP hns hk hfresh
      rw [e] at hstep
      simp only [Option.some.injEq] at hstep
      subst hstep
      rcases hres with ⟨_, _, hh, hl, _⟩ | ⟨_, ns1, hwf1, _, _, _, hfr⟩
      · subst hh hl; exact ⟨ns, ms, hns, hms, hdis⟩
      · exact inv_of_frames CAP h h1 lst lst1 other ns ns1 ms m hms hdis hwf1 hfr
          (fun a ha => hfresh a ha)
    · simp at hstep
  | insert_before iter v m fuel =>
    simp only [step] at hstep
    split at hstep
    · rename_i hf
      have hfresh := fresh_at_spec h m hf.1
      cases hn : iter.node with
      | none =>
        obtain ⟨r, h1, lst1, e, hres⟩ := list_insert_end_spec CAP (fun _ => m) h lst ns v
          (by omega) hns hfresh
        simp only [list_insert_before, hn, e] at hstep
        simp only [Option.some.injEq] at hstep
        subst hstep
        rcases hres with ⟨_, _, hh, hl⟩ | ⟨_, ns1, hwf1, _, _, hfr⟩
        · subst hh hl; exact ⟨ns, ms, hns, hms, hdis⟩
        · exact inv_of_frames CAP h h1 lst lst1 other ns ns1 ms m hms hdis hwf1 hfr
            (fun a ha => hfresh a ha)
      | some a =>
        obtain ⟨k, hk⟩ := check_iter_invariants_sound fuel h lst ns iter hns.1
          (by rw [hn]; simp) hf.2
        obtain ⟨r, h1, lst1, iter1, e, hres⟩ := list_insert_before_spec CAP (fun _ => m) h lst
          ns iter v k hCAP hns hk hfresh
        rw [e] at hstep
        simp only [Option.some.injEq] at hstep
        subst hstep
        rcases hres with ⟨_, _, hh, hl, _⟩ | ⟨_, ns1, hwf1, _, _, _, hfr⟩
        · subst hh hl; exact ⟨ns, ms, hns, hms, hdis⟩
        · exact inv_of_frames CAP h h1 lst lst1 other ns ns1 ms m hms hdis hwf1 hfr
            (fun a ha => hfresh a ha)
    · simp at hstep
  | remove iter fuel =>
    simp only [step] at hstep
    split at hstep
    · rename_i hf
      obtain ⟨k, hk⟩ := check_iter_invariants_sound fuel h lst ns iter hns.1 hf.1 hf.2
      cases hr : list_remove CAP hdr fuel h lst iter with
      | none => simp [hr] at hstep
      | some r =>
        obtain ⟨h1, lst1, iter1⟩ := r
        rw [hr] at hstep
        simp only [Option.some.injEq] at hstep
        subst hstep
        obtain ⟨ns1, hwf1, _, hfr⟩ := list_remove_inv CAP hdr fuel h lst ns iter iter1 k h1 lst1
          hns hk hr
        exact inv_of_frames CAP h h1 lst lst1 other ns ns1 ms none hms hdis hwf1 hfr
          (fun a ha => by simp at ha)
    · simp at hstep
  | remove_beginning =>
    simp only [step] at hstep
    split at hstep
    · rename_i hf
      obtain ⟨h1, lst1, ns1, e, hwf1, _, _, hfr⟩ := list_remove_beginning_spec CAP h lst ns hns hf
      rw [e] at hstep
      simp only [Option.some.injEq] at hstep
      subst hstep
      exact inv_of_frames CAP h h1 lst lst1 other ns ns1 ms none hms hdis hwf1 hfr
        (fun a ha => by simp at ha)
    · simp at hstep
  | remove_end =>
    simp only [step] at hstep
    split at hstep
    · rename_i hf
      obtain ⟨h1, lst1, ns1, e, hwf1, _, _, hfr⟩ := list_remove_end_spec CAP h lst ns hns hf
      rw [e] at hstep
      simp only [Option.some.injEq] at hstep
      subst hstep
      exact inv_of_frames CAP h h1 lst lst1 other ns ns1 ms none hms hdis hwf1 hfr
        (fun a ha => by simp at ha)
    · simp at hstep
  | swap =>
    simp only [step, list_swap, Option.some.injEq] at hstep
    subst hstep
    exact ⟨ms, ns, hms, hns, fun b hb hb2 => hdis b hb2 hb⟩

theorem inv_run (CAP : Int) (hdr : list_node → List Val) (hCAP : 2 ≤ CAP) (ops : List Op)
    (s s1 : State) (hinv : Inv CAP s) (hrun : run CAP hdr ops s = some s1) : Inv CAP s1 := by
  induction ops generalizing s with
  | nil =>
    simp only [run, Option.some.injEq] at hrun
    subst hrun
    exact hinv
  | cons op ops ih =>
    simp only [run] at hrun
    cases hs : step CAP hdr op s with
    | none => simp [hs] at hrun
    | some s2 =>
      rw [hs] at hrun
      exact ih s2 (inv_step CAP hdr hCAP op s s2 hinv hs) hrun

theorem reachable_inv (CAP : Int) (hdr : list_node → List Val) (hCAP : 2 ≤ CAP) (s : State)
    (hs : Reachable CAP hdr s) : Inv CAP s := by
  obtain ⟨ops, hrun⟩ := hs
  exact inv_run CAP hdr hCAP ops init s (inv_init CAP) hrun

/-! ## Facts about the sample states -/

theorem demo_wf : WF 2 demo_heap demo_list demo_nodes := by
  refine ⟨⟨by decide, ⟨rfl, trivial⟩, rfl, rfl⟩, ?_, rfl⟩
  intro n hn
  simp only [demo_nodes, List.mem_singleton] at hn
  subst hn
  exact ⟨by decide, by decide, by decide⟩

theorem demo_fresh (a0 : Nat) (ha0 : a0 ≠ 0) :
    ∀ a, (fun _ : Heap => some a0) demo_heap = some a → demo_heap a = none := by
  intro a ha
  simp only [Option.some.injEq] at ha
  subst ha
  simp [demo_heap, write, emptyHeap, ha0]

theorem wf_empty (CAP : Int) : WF CAP emptyHeap list_create [] :=
  ⟨⟨by simp, trivial, rfl, rfl⟩, by simp, rfl⟩

theorem test_insert_end_iterate_spec (CAP : Int) (hCAP : 2 ≤ CAP) (n : Nat) :
    ∃ h lst ns, test_insert_end_iterate CAP n = some (h, lst) ∧ WF CAP h lst ns ∧
      elems ns = List.range n ∧ lst.size = n ∧ (∀ b, n ≤ b → h b = none) ∧
      (∀ b ∈ ns.map ANode.addr, b < n) := by
  induction n with
  | zero =>
    exact ⟨emptyHeap, list_create, [], rfl, wf_empty CAP, rfl, rfl, fun _ _ => rfl, by simp⟩
  | succ n ih =>
    obtain ⟨h, lst, ns, e, hwf, hel, hsz, hfree, hlt⟩ := ih
    have hfresh : ∀ a, (fun _ : Heap => some n) h = some a → h a = none := by
      intro a ha
      simp only [Option.some.injEq] at ha
      subst ha
      exact hfree _ (le_refl _)
    obtain ⟨r, h1, lst1, e1, hres⟩ := list_insert_end_spec CAP (fun _ => some n) h lst ns n
      (by omega) hwf hfresh
    rcases hres with ⟨_, hm, _⟩ | ⟨_, ns1, hwf1, hel1, hsz1, hfr⟩
    · simp at hm
    · refine ⟨h1, lst1, ns1, ?_, hwf1, ?_, ?_, ?_, ?_⟩
      · simp only [test_insert_end_iterate, e, e1]
      · rw [hel1, hel, List.range_succ]
      · rw [hsz1, hsz]; push_cast; ring
      · intro b hb
        rw [hfr.1 b (fun hmem => by have := hlt b hmem; omega) (by simp; omega)]
        exact hfree b (by omega)
      · intro b hb
        rcases hfr.2 b hb with h3 | h3
        · have := hlt b h3; omega
        · simp only [Option.some.injEq] at h3; omega

/-! ## Positions in the element sequence -/

theorem sample_reachable : Reachable 2 (fun _ => []) sample_state := by
  refine ⟨fill_ops 3, ?_⟩
  have hs : (run 2 (fun _ => []) (fill_ops 3) init).isSome = true := by decide!
  unfold sample_state
  cases hr : run 2 (fun _ => []) (fill_ops 3) init with
  | none => rw [hr] at hs; simp at hs
  | some s => rfl

/-! ## Boundary removals, `list_first`, `list_last` and traversals -/

theorem list_remove_end_chain (CAP : Int) (h : Heap) (lst : list) (L : List ANode) (nd : ANode)
    (hwf : WF CAP h lst (L ++ [nd])) :
    ∃ h1 lst1, list_remove_end h lst = some (h1, lst1) ∧ lst1.size = lst.size - 1 ∧
      (∀ b, b ∉ (L ++ [nd]).map ANode.addr → h1 b = h b) ∧
      ((nd.count = 1 ∧ WF CAP h1 lst1 L ∧ h1 nd.addr = none) ∨
        (nd.count ≠ 1 ∧ WF CAP h1 lst1 (L ++ [⟨nd.addr, nd.count - 1, nd.data⟩]))) := by
  obtain ⟨hrep, hgood, hsize⟩ := hwf
  obtain ⟨hlast, hnode⟩ := rep_last h lst L nd hrep
  obtain ⟨hg1, hg2, hg3⟩ := hgood nd (by simp)
  obtain ⟨a, cnt, d⟩ := nd
  obtain ⟨sz, fn, ln⟩ := lst
  simp only at hg1 hg2 hg3 hlast hnode hsize
  subst hlast
  have hrep1 : Rep (write h a ⟨cnt - 1, d, lastAddr none L, none⟩)
      ⟨sz - 1, fn, some a⟩ (L ++ [⟨a, cnt - 1, d⟩]) :=
    rep_size _ _ _ _ (rep_write h _ L [] _ hrep _ _)
  have hcs : count_sum (L ++ [⟨a, cnt, d⟩]) = count_sum L + cnt := by
    simp [count_sum_append]
  by_cases hz : cnt - 1 = 0
  · obtain ⟨h2, lst2, e2, hrep2, hsz2, hf2, hfree⟩ := remove_node_spec _ _ L [] _ hrep1
    refine ⟨h2, lst2, ?_, ?_, ?_, Or.inl ⟨by simp only; omega,
      ⟨by simpa using hrep2, fun n hn => hgood n (by simp [hn]), ?_⟩, hfree⟩⟩
    · simp only [list_remove_end, hnode, if_pos hz]
      exact e2
    · rw [hsz2]
    · intro b hb
      rw [hf2 b (by simpa using hb)]
      exact write_ne _ _ _ _ (fun he => hb (by simp [he]))
    · rw [hsz2]; simp only; rw [hsize, hcs]; omega
  · refine ⟨_, _, ?_, rfl, ?_, Or.inr ⟨by simp only; omega, hrep1, ?_, ?_⟩⟩
    · simp only [list_remove_end, hnode, if_neg hz]
    · intro b hb
      exact write_ne _ _ _ _ (fun he => hb (by simp [he]))
    · intro n hn
      simp only [List.mem_append, List.mem_singleton] at hn
      rcases hn with hn | hn
      · exact hgood n (by simp [hn])
      · subst hn; exact ⟨by simp only; omega, by simp only; omega, hg3⟩
    · simp only [count_sum_append, count_sum_cons, count_sum_nil]
      rw [hsize, hcs]; ring

theorem list_remove_beginning_chain (CAP : Int) (h : Heap) (lst : list) (R : List ANode)
    (nd : ANode) (hwf : WF CAP h lst (nd :: R)) :
    ∃ h1 lst1 d1, list_remove_beginning h lst = some (h1, lst1) ∧ lst1.size = lst.size - 1 ∧
      (∀ b, b ∉ (nd :: R).map ANode.addr → h1 b = h b) ∧
      d1.take (nd.count.toNat - 1) = (nd.data.drop 1).take (nd.count.toNat - 1) ∧
      ((nd.count = 1 ∧ WF CAP h1 lst1 R ∧ h1 nd.addr = none) ∨
        (nd.count ≠ 1 ∧ WF CAP h1 lst1 (⟨nd.addr, nd.count - 1, d1⟩ :: R))) := by
  obtain ⟨hrep, hgood, hsize⟩ := hwf
  obtain ⟨hfirst, hnode⟩ := rep_first h lst R nd hrep
  obtain ⟨hg1, hg2, hg3⟩ := hgood nd (by simp)
  obtain ⟨a, cnt, d⟩ := nd
  obtain ⟨sz, fn, ln⟩ := lst
  simp only at hg1 hg2 hg3 hfirst hnode hsize
  subst hfirst
  obtain ⟨c, hc⟩ := Int.eq_ofNat_of_zero_le (show 0 ≤ cnt by omega)
  subst hc
  have hcs : count_sum (⟨a, (c : Int), d⟩ :: R) = c + count_sum R := by simp
  have hmm := memmove_nat d d 0 1 (c - 1) (by omega) (by omega)
  have hcast : memmove d 0 d 1 ((c : Int) - 1) = memmove d ((0 : Nat) : Int) d ((1 : Nat) : Int)
      ((c - 1 : Nat) : Int) := by
    congr 1
    omega
  rw [← hcast] at hmm
  generalize hd1 : d.take 0 ++ ((d.drop 1).take (c - 1) ++ d.drop (0 + (c - 1))) = d1 at hmm
  have hd1t : d1.take (c - 1) = (d.drop 1).take (c - 1) := by
    rw [← hd1, List.take_zero, List.nil_append,
      List.take_append_of_le_length (by simp only [List.length_take, List.length_drop]; omega),
      List.take_take, Nat.min_self]
  have hd1l : d1.length = d.length := memmove_length _ _ _ _ _ _ hmm
  have hrep1 : Rep (write h a ⟨(c : Int) - 1, d1, none, headAddr R none⟩)
      ⟨sz - 1, some a, ln⟩ (⟨a, (c : Int) - 1, d1⟩ :: R) :=
    rep_size _ _ _ _ (rep_write h _ [] R _ hrep _ _)
  by_cases hz : (c : Int) - 1 = 0
  · obtain ⟨h2, lst2, e2, hrep2, hsz2, hf2, hfree⟩ := remove_node_spec _ _ [] R _ hrep1
    refine ⟨h2, lst2, d1, ?_, ?_, ?_, by simpa using hd1t, Or.inl ⟨by simp only; omega,
      ⟨by simpa using hrep2, fun n hn => hgood n (by simp [hn]), ?_⟩, hfree⟩⟩
    · simp only [list_remove_beginning, hnode, hmm, if_pos hz]
      exact e2
    · rw [hsz2]
    · intro b hb
      rw [hf2 b (by simpa using hb)]
      exact write_ne _ _ _ _ (fun he => hb (by simp [he]))
    · rw [hsz2]; simp only; rw [hsize, hcs]; omega
  · refine ⟨_, _, d1, ?_, rfl, ?_, by simpa using hd1t, Or.inr ⟨by simp only; omega, hrep1, ?_, ?_⟩⟩
    · simp only [list_remove_beginning, hnode, hmm, if_neg hz]
    · intro b hb
      exact write_ne _ _ _ _ (fun he => hb (by simp [he]))
    · intro n hn
      simp only [List.mem_cons] at hn
      rcases hn with hn | hn
      · subst hn; exact ⟨by simp only; omega, by simp only; omega, by simp only; omega⟩
      · exact hgood n (by simp [hn])
    · simp only [count_sum_cons]
      rw [hsize, hcs]; ring

theorem iter_index_slot (CAP : Int) (h : Heap) (lst : list) (ns : List ANode) (iter : list_iter)
    (k : Nat) (hwf : WF CAP h lst ns) (hk : iter_index ns iter = some k) :
    ∃ a n, iter.node = some a ∧ a ∈ ns.map ANode.addr ∧ h a = some n ∧ 0 ≤ iter.offset ∧
      iter.offset < n.count ∧ n.data[iter.offset.toNat]? = (elems ns)[k]? := by
  obtain ⟨L, nd, R, hns, hnode, ho0, ho1, hkk⟩ := iter_index_elim ns iter k hk
  subst hns
  obtain ⟨hg1, hg2, hg3⟩ := hwf.2.1 nd (by simp)
  refine ⟨nd.addr, _, hnode, by simp, rep_lookup h lst L R nd hwf.1, ho0, ho1, ?_⟩
  simp only [elems_append, elems_cons]
  rw [hkk, List.getElem?_append_right (by omega), Nat.add_sub_cancel_left,
    List.getElem?_append_left (by simp only [List.length_take]; omega),
    List.getElem?_take_of_lt (by omega)]

theorem elems_length (CAP : Int) (ns : List ANode) (hgood : ∀ n ∈ ns, Good CAP n) :
    ((elems ns).length : Int) = count_sum ns := by
  induction ns with
  | nil => simp
  | cons n ns ih =>
    obtain ⟨h1, h2, h3⟩ := hgood n (by simp)
    have := ih (fun m hm => hgood m (by simp [hm]))
    simp only [elems_cons, List.length_append, List.length_take, count_sum_cons]
    omega

theorem list_first_spec (CAP : Int) (h : Heap) (lst : list) (R : List ANode) (nd : ANode)
    (hwf : WF CAP h lst (nd :: R)) :
    list_first lst = ⟨some nd.addr, 0⟩ ∧ iter_index (nd :: R) (list_first lst) = some 0 := by
  obtain ⟨hfirst, _⟩ := rep_first h lst R nd hwf.1
  obtain ⟨hg1, _, _⟩ := hwf.2.1 nd (by simp)
  have e : list_first lst = ⟨some nd.addr, 0⟩ := by simp only [list_first, hfirst]
  refine ⟨e, ?_⟩
  rw [e]
  simp only [iter_index, if_true]
  rw [if_pos ⟨le_refl _, by omega⟩]
  rfl

theorem list_last_spec (CAP : Int) (h : Heap) (lst : list) (L : List ANode) (nd : ANode)
    (hwf : WF CAP h lst (L ++ [nd])) :
    list_last h lst = some ⟨some nd.addr, nd.count - 1⟩ ∧
      iter_index (L ++ [nd]) ⟨some nd.addr, nd.count - 1⟩ =
        some ((elems (L ++ [nd])).length - 1) := by
  obtain ⟨hlast, hnode⟩ := rep_last h lst L nd hwf.1
  obtain ⟨hg1, hg2, hg3⟩ := hwf.2.1 nd (by simp)
  refine ⟨by simp only [list_last, hlast, hnode], ?_⟩
  rw [iter_index_intro L [] nd ⟨some nd.addr, nd.count - 1⟩ hwf.1.1 rfl
    (by simp only; omega) (by simp only; omega)]
  simp only [elems_append, elems_cons, elems_nil, List.append_nil, List.length_append,
    List.length_take, Option.some.injEq]
  omega

theorem wf_nil_of_size (CAP : Int) (h : Heap) (lst : list) (ns : List ANode)
    (hwf : WF CAP h lst ns) : (lst.size = 0 → ns = []) ∧ (0 < lst.size → ns ≠ []) ∧
      0 ≤ lst.size := by
  obtain ⟨_, hgood, hsize⟩ := hwf
  cases ns with
  | nil => simp [hsize]
  | cons n ns =>
    have h1 := (hgood n (by simp)).1
    have h2 := elems_length CAP ns (fun m hm => hgood m (by simp [hm]))
    simp only [count_sum_cons] at hsize
    refine ⟨fun h0 => ?_, fun _ => by simp, ?_⟩ <;> omega


theorem wf_first_last (CAP : Int) (h : Heap) (lst : list) (ns : List ANode)
    (hwf : WF CAP h lst ns) :
    0 ≤ lst.size ∧ (lst.size = 0 → lst.first_node = none ∧ lst.last_node = none) ∧
      (0 < lst.size → lst.first_node ≠ none ∧ lst.last_node ≠ none) := by
  obtain ⟨h0, h1, h2⟩ := wf_nil_of_size CAP h lst ns hwf
  refine ⟨h2, fun hz => ?_, fun hp => ?_⟩
  · have := h0 hz
    subst this
    exact ⟨hwf.1.2.2.1, hwf.1.2.2.2⟩
  · have hne := h1 hp
    constructor
    · intro hf
      rw [hwf.1.2.2.1] at hf
      exact hne (headAddr_none ns hf)
    · intro hl
      rw [hwf.1.2.2.2] at hl
      exact hne (lastAddr_none ns hl)

theorem chain_addrs_spec (h : Heap) (p : Option Nat) (ns : List ANode)
    (hc : Chain h p ns none) :
    chain_addrs h (ns.length + 1) (headAddr ns none) = some (ns.map ANode.addr) := by
  induction ns generalizing p with
  | nil => rfl
  | cons n ns ih =>
    rw [chain_cons] at hc
    have := ih (some n.addr) hc.2
    simp only [headAddr_cons, List.length_cons, chain_addrs, hc.1, this, List.map_cons]

theorem chain_elems_spec (h : Heap) (p : Option Nat) (ns : List ANode)
    (hc : Chain h p ns none) :
    chain_elems h (ns.length + 1) (headAddr ns none) = some (elems ns) := by
  induction ns generalizing p with
  | nil => rfl
  | cons n ns ih =>
    rw [chain_cons] at hc
    have := ih (some n.addr) hc.2
    simp only [headAddr_cons, List.length_cons, chain_elems, hc.1, this, elems_cons]

theorem lastAddr_getLast? (ns : List ANode) :
    (ns.map ANode.addr).getLast? = lastAddr none ns := by
  rcases List.eq_nil_or_concat ns with hns | ⟨L, nd, hns⟩
  · subst hns; rfl
  · rw [List.concat_eq_append] at hns
    subst hns
    rw [lastAddr_append]
    simp [lastAddr]

theorem rep_links (h : Heap) (lst : list) (ns : List ANode) (hrep : Rep h lst ns) (a : Nat)
    (ha : a ∈ ns.map ANode.addr) :
    ∃ n, h a = some n ∧
      (∀ x, n.next = some x → ∃ xn, h x = some xn ∧ xn.prev = some a) ∧
      (∀ p, n.prev = some p → ∃ pn, h p = some pn ∧ pn.next = some a) := by
  rw [List.mem_map] at ha
  obtain ⟨nd, hmem, rfl⟩ := ha
  obtain ⟨L, R, hns⟩ := List.append_of_mem hmem
  subst hns
  refine ⟨_, rep_lookup h lst L R nd hrep, fun x hx => ?_, fun p hp => ?_⟩
  · simp only at hx
    cases R with
    | nil => simp [headAddr] at hx
    | cons xd R1 =>
      simp only [headAddr, Option.some.injEq] at hx
      subst hx
      have hrep1 : Rep h lst ((L ++ [nd]) ++ xd :: R1) := by simpa using hrep
      refine ⟨_, rep_lookup h lst (L ++ [nd]) R1 xd hrep1, ?_⟩
      simp only [lastAddr_append]
      rfl
  · simp only at hp
    rcases List.eq_nil_or_concat L with hL | ⟨L1, pd, hL⟩
    · subst hL; simp [lastAddr] at hp
    · rw [List.concat_eq_append] at hL
      subst hL
      rw [lastAddr_append] at hp
      simp only [lastAddr, Option.some.injEq] at hp
      subst hp
      have hrep1 : Rep h lst (L1 ++ pd :: (nd :: R)) := by simpa using hrep
      exact ⟨_, rep_lookup h lst L1 (nd :: R) pd hrep1, rfl⟩

theorem insert_end_all_spec (CAP : Int) (hCAP : 1 ≤ CAP) (calls : List (Val × Option Nat)) :
    ∀ (h0 : Heap) (lst0 : list) (ns0 : List ANode) (h : Heap) (lst : list),
      WF CAP h0 lst0 ns0 → insert_end_all CAP calls h0 lst0 = some (h, lst) →
      ∃ ns, WF CAP h lst ns ∧ lst.size = lst0.size + calls.length ∧
        elems ns = elems ns0 ++ calls.map Prod.fst := by
  induction calls with
  | nil =>
    intro h0 lst0 ns0 h lst hwf hres
    simp only [insert_end_all, Option.some.injEq, Prod.mk.injEq] at hres
    obtain ⟨rfl, rfl⟩ := hres
    exact ⟨ns0, hwf, by simp, by simp⟩
  | cons c rest ih =>
    intro h0 lst0 ns0 h lst hwf hres
    obtain ⟨v, m⟩ := c
    unfold insert_end_all at hres
    split at hres
    · rename_i hf
      obtain ⟨r, h1, lst1, e, hcase⟩ := list_insert_end_spec CAP (fun _ => m) h0 lst0 ns0 v hCAP
        hwf (fresh_at_spec h0 m hf)
      rw [e] at hres
      simp only at hres
      rcases hcase with ⟨hr, _⟩ | ⟨hr, ns1, hwf1, hel, hsz, _⟩
      · rw [if_pos hr] at hres
        exact absurd hres (by simp)
      · rw [if_neg (by omega)] at hres
        obtain ⟨ns, hwf2, hsz2, hel2⟩ := ih h1 lst1 ns1 h lst hwf1 hres
        refine ⟨ns, hwf2, ?_, ?_⟩
        · rw [hsz2, hsz]
          simp only [List.length_cons, Nat.cast_add, Nat.cast_one]
          ring
        · rw [hel2, hel]
          simp
    · exact absurd hres (by simp)

theorem remove_end_times_spec (CAP : Int) (n : Nat) :
    ∀ (h : Heap) (lst : list) (ns : List ANode), WF CAP h lst ns → lst.size = n →
      ∃ h1, remove_end_times n h lst = some (h1, list_create) ∧
        (∀ b ∈ ns.map ANode.addr, h1 b = none) ∧
        (∀ b, b ∉ ns.map ANode.addr → h1 b = h b) := by
  induction n with
  | zero =>
    intro h lst ns hwf hsz
    have hnil := (wf_nil_of_size CAP h lst ns hwf).1 (by simpa using hsz)
    subst hnil
    obtain ⟨sz, fn, ln⟩ := lst
    have hf : fn = none := hwf.1.2.2.1
    have hl : ln = none := hwf.1.2.2.2
    simp only [Nat.cast_zero] at hsz
    subst hf hl hsz
    exact ⟨h, rfl, by simp, fun _ _ => rfl⟩
  | succ n ih =>
    intro h lst ns hwf hsz
    have hne := (wf_nil_of_size CAP h lst ns hwf).2.1 (by rw [hsz]; positivity)
    rcases List.eq_nil_or_concat ns with hnil | ⟨L, nd, hns⟩
    · exact absurd hnil hne
    rw [List.concat_eq_append] at hns
    subst hns
    obtain ⟨h1, lst1, e, hsz1, hfr, hcase⟩ := list_remove_end_chain CAP h lst L nd hwf
    have hsz1n : lst1.size = n := by
      rw [hsz1, hsz]; simp
    rcases hcase with ⟨_, hwf1, hfree⟩ | ⟨_, hwf1⟩
    · obtain ⟨h2, e2, hin, hout⟩ := ih h1 lst1 L hwf1 hsz1n
      refine ⟨h2, by simp only [remove_end_times, e, e2], fun b hb => ?_, fun b hb => ?_⟩
      · simp only [List.map_append, List.map_cons, List.map_nil, List.mem_append,
          List.mem_singleton] at hb
        rcases hb with hb | hb
        · exact hin b hb
        · subst hb
          by_cases hm : nd.addr ∈ L.map ANode.addr
          · exact hin _ hm
          · rw [hout _ hm]; exact hfree
      · rw [hout b (fun hm => hb (by simp only [List.map_append, List.mem_append]; exact Or.inl hm)),
          hfr b hb]
    · obtain ⟨h2, e2, hin, hout⟩ := ih h1 lst1 _ hwf1 hsz1n
      refine ⟨h2, by simp only [remove_end_times, e, e2], fun b hb => ?_, fun b hb => ?_⟩
      · exact hin b (by simpa using hb)
      · rw [hout b (by simpa using hb), hfr b hb]

/-! ## `split_node` and the merge branch of `rebalance_nodes`: the slots -/

theorem merge_data (pdat ndat xdat : List Val) (pc nc xc : Nat) (hp : pc ≤ pdat.length)
    (hx : xc ≤ xdat.length) (hs : pc + nc + xc ≤ ndat.length) :
    ∃ d1 d2 d3, memmove ndat pc ndat 0 nc = some d1 ∧ memmove d1 0 pdat 0 pc = some d2 ∧
      memmove d2 ((pc : Int) + nc) xdat 0 xc = some d3 ∧ d3.length = ndat.length ∧
      d3.take (pc + nc + xc) = pdat.take pc ++ (ndat.take nc ++ xdat.take xc) := by
  have m1 := memmove_nat ndat ndat pc 0 nc (by omega) (by omega)
  simp only [Nat.cast_zero] at m1
  generalize hd1 : ndat.take pc ++ ((ndat.drop 0).take nc ++ ndat.drop (pc + nc)) = d1 at m1
  have l1 : d1.length = ndat.length := memmove_length _ _ _ _ _ _ m1
  have m2 := memmove_nat d1 pdat 0 0 pc (by omega) (by omega)
  simp only [Nat.cast_zero] at m2
  generalize hd2 : d1.take 0 ++ ((pdat.drop 0).take pc ++ d1.drop (0 + pc)) = d2 at m2
  have l2 : d2.length = ndat.length := by rw [memmove_length _ _ _ _ _ _ m2, l1]
  have m3 := memmove_nat d2 xdat (pc + nc) 0 xc (by omega) (by omega)
  simp only [Nat.cast_zero, Nat.cast_add] at m3
  generalize hd3 : d2.take (pc + nc) ++ ((xdat.drop 0).take xc ++ d2.drop (pc + nc + xc)) = d3
    at m3
  have l3 : d3.length = ndat.length := by rw [memmove_length _ _ _ _ _ _ m3, l2]
  refine ⟨d1, d2, d3, m1, m2, m3, l3, ?_⟩
  have t2 : d2.take (pc + nc) = pdat.take pc ++ ndat.take nc := by
    rw [← hd2, ← hd1]
    simp only [List.take_zero, List.nil_append, List.drop_zero, Nat.zero_add]
    rw [List.take_append_eq_append_take, List.take_take]
    simp only [List.length_take]
    rw [Nat.min_eq_right (by omega : pc ≤ pc + nc), Nat.min_eq_left hp,
      Nat.add_sub_cancel_left]
    congr 1
    rw [List.drop_append_eq_append_drop]
    simp only [List.length_take, Nat.min_eq_left (by omega : pc ≤ ndat.length)]
    rw [List.drop_of_length_le (by simp only [List.length_take]; omega), Nat.sub_self,
      List.drop_zero, List.nil_append, List.take_append_of_le_length
        (by simp only [List.length_take]; omega), List.take_take, Nat.min_self]
  rw [← hd3]
  simp only [List.drop_zero]
  rw [List.take_append_eq_append_take, List.take_take]
  simp only [List.length_take]
  rw [Nat.min_eq_right (by omega : pc + nc ≤ pc + nc + xc),
    Nat.min_eq_left (by omega : pc + nc ≤ d2.length), t2, List.append_assoc]
  congr 2
  rw [show pc + nc + xc - (pc + nc) = xc by omega, List.take_append_of_le_length
    (by simp only [List.length_take]; omega), List.take_take, Nat.min_self]

theorem rebalance_merge_spec (CAP : Int) (h : Heap) (lst : list) (L R : List ANode)
    (pd nd xd : ANode) (iter : list_iter) (hrep : Rep h lst (L ++ pd :: nd :: xd :: R))
    (hpd : Good CAP pd) (hxd : Good CAP xd) (hc0 : 0 ≤ nd.count)
    (hlen : (nd.data.length : Int) = CAP) (hsum : xd.count + nd.count + pd.count ≤ CAP) :
    ∃ h2 lst2 d3, rebalance_merge h lst iter nd.addr =
        some (h2, lst2, { iter with offset := iter.offset + pd.count }) ∧
      Rep h2 lst2 (L ++ ⟨nd.addr, xd.count + nd.count + pd.count, d3⟩ :: R) ∧
      d3.length = nd.data.length ∧
      d3.take (pd.count.toNat + nd.count.toNat + xd.count.toNat) =
        pd.data.take pd.count.toNat ++ (nd.data.take nd.count.toNat ++
          xd.data.take xd.count.toNat) ∧
      lst2.size = lst.size ∧ h2 pd.addr = none ∧ h2 xd.addr = none ∧
      (∀ b, b ∉ (L ++ pd :: nd :: xd :: R).map ANode.addr → h2 b = h b) := by
  obtain ⟨lp, la, lx⟩ := rep_lookup3 h lst L R pd nd xd hrep
  obtain ⟨hp1, hp2, hp3⟩ := hpd
  obtain ⟨hx1, hx2, hx3⟩ := hxd
  have hpc : ((pd.count.toNat : Nat) : Int) = pd.count := by omega
  have hnc : ((nd.count.toNat : Nat) : Int) = nd.count := by omega
  have hxc : ((xd.count.toNat : Nat) : Int) = xd.count := by omega
  obtain ⟨d1, d2, d3, m1, m2, m3, l3, t3⟩ := merge_data pd.data nd.data xd.data pd.count.toNat
    nd.count.toNat xd.count.toNat (by omega) (by omega) (by omega)
  rw [hpc, hnc] at m1
  rw [hpc] at m2
  rw [hpc, hnc, hxc] at m3
  have hrep1 := rep_write_mid h lst L R pd nd xd hrep (xd.count + nd.count + pd.count) d3
  obtain ⟨h3, lst3, e3, hrep3, hsz3, hf3, hfree3⟩ := remove_node_spec _ _ L _ pd hrep1
  have l3n := rep_lookup h3 lst3 L (xd :: R) _ hrep3
  simp only [headAddr_cons] at l3n
  obtain ⟨h4, lst4, e4, hrep4, hsz4, hf4, hfree4⟩ := remove_node_spec h3 lst3
    (L ++ [⟨nd.addr, xd.count + nd.count + pd.count, d3⟩]) R xd (by simpa using hrep3)
  obtain ⟨_, _, hpL, hpR, _, _⟩ := nodup_split L (nd :: xd :: R) pd hrep.1
  simp only [List.map_cons, List.mem_cons, not_or] at hpR
  refine ⟨h4, lst4, d3, ?_, by simpa using hrep4, l3, t3, by rw [hsz4, hsz3], ?_, hfree4, ?_⟩
  · simp only [rebalance_merge, la, lp, lx, m1, m2, m3, e3, l3n, e4]
  · rw [hf4 pd.addr (by
      simp only [List.map_append, List.map_cons, List.map_nil, List.mem_append, List.mem_cons,
        List.mem_singleton, List.not_mem_nil, or_false, not_or]
      exact ⟨⟨hpL, hpR.1⟩, hpR.2.1, hpR.2.2⟩)]
    exact hfree3
  · intro b hb
    simp only [List.map_append, List.map_cons, List.mem_append, List.mem_cons] at hb
    push_neg at hb
    rw [hf4 b (by simp only [List.map_append, List.map_cons, List.map_nil, List.mem_append,
      List.mem_cons, List.mem_singleton, List.not_mem_nil]; tauto),
      hf3 b (by simp only [List.map_append, List.map_cons, List.mem_append, List.mem_cons]; tauto),
      write_ne _ _ _ _ hb.2.2.1]

theorem merge_rep : Rep merge_heap merge_list
    ([] ++ (⟨0, 2, [1, 2, 0, 0]⟩ : ANode) :: ⟨1, 0, [3, 0, 0, 0]⟩ :: ⟨2, 2, [4, 5, 0, 0]⟩ :: []) :=
  ⟨by decide, ⟨rfl, rfl, rfl, trivial⟩, rfl, rfl⟩

theorem list_remove_eq_shift (CAP : Int) (hdr : list_node → List Val) (fuel : Nat) (h : Heap)
    (lst : list) (iter : list_iter) :
    list_remove CAP hdr fuel h lst iter =
      match list_remove_shift h lst iter with
      | none => none
      | some (h1, lst1) =>
        match rebalance_nodes CAP hdr fuel h1 lst1 iter with
        | none => none
        | some (h2, lst2, iter2) =>
          match fixup_iter_node fuel h2 lst2 iter2 with
          | none => none
          | some iter3 => some (h2, lst2, iter3) := by
  unfold list_remove list_remove_shift
  cases iter.node with
  | none => rfl
  | some node =>
    simp only
    cases h node with
    | none => rfl
    | some n =>
      simp only
      cases memmove n.data iter.offset n.data (iter.offset + 1) (n.count - (iter.offset + 1)) with
      | none => rfl
      | some d => rfl

/-! ## `dynamic_array_resize_func` and the operations built on it -/

theorem as_int_eq (x : Int) (h0 : INT_MIN ≤ x) (h1 : x ≤ INT_MAX) : as_int x = some x := by
  unfold as_int
  rw [if_pos ⟨h0, h1⟩]

theorem as_int_of_nonneg (x : Int) (h0 : 0 ≤ x) (h1 : x ≤ INT_MAX) : as_int x = some x :=
  as_int_eq x (by unfold INT_MIN; omega) h1

theorem mul_le_int_max (es i c : Int) (hes : 1 ≤ es) (hi : i ≤ c)
    (hc : es * c ≤ INT_MAX) : es * i ≤ INT_MAX :=
  le_trans (Int.mul_le_mul_of_nonneg_left hi (by omega)) hc

theorem le_mul_int_max (es c : Int) (hes : 1 ≤ es) (h0 : 0 ≤ c) (hc : es * c ≤ INT_MAX) :
    c ≤ INT_MAX :=
  le_trans (le_mul_of_one_le_left h0 hes) hc

theorem minimum_load_size_eq (c : Int) (hc : 0 ≤ c) : minimum_load_size c = c * 2 / 5 :=
  Int.tdiv_eq_ediv (by omega) (by omega)

theorem size_after_expansion_eq (s : Int) (hs : 0 ≤ s) (hfit : s * 5 / 3 ≤ INT_MAX) :
    size_after_expansion s = some (s * 5 / 3) := by
  unfold size_after_expansion
  rw [Int.tdiv_eq_ediv (by omega) (by omega)]
  exact as_int_of_nonneg _ (by omega) hfit

theorem size_after_shrinking_eq (s : Int) (hs : 0 ≤ s) (hfit : s * 5 / 4 ≤ INT_MAX) :
    size_after_shrinking s = some (s * 5 / 4) := by
  unfold size_after_shrinking
  rw [Int.tdiv_eq_ediv (by omega) (by omega)]
  exact as_int_of_nonneg _ (by omega) hfit

theorem realloc_of_ok (junk : Option (List Val)) : ReallocOK (realloc_of junk) := by
  intro old n new hnew
  unfold realloc_of at hnew
  cases junk with
  | none => simp at hnew
  | some j =>
    simp only at hnew
    split at hnew
    · rename_i hn
      simp only [Option.some.injEq] at hnew
      subst hnew
      constructor
      · simp only [List.length_take, List.length_append, List.length_replicate]
        omega
      · intro blk hold i hi hin
        subst hold
        simp only [Option.getD_some]
        rw [List.getElem?_take_of_lt (by omega), List.getElem?_append_left
          (by simp only [List.length_take]; omega), List.getElem?_take_of_lt (by omega)]
    · simp at hnew

theorem check_ok (s c : Int) (blk : List Val) (h0 : 0 ≤ s) (h1 : s ≤ c) :
    check_dynamic_array_invariants ⟨s, c, some blk⟩ = true := by
  simp only [check_dynamic_array_invariants, Option.isSome_some, Bool.and_true,
    Bool.and_eq_true, decide_eq_true_eq]
  exact ⟨h0, h1⟩

theorem resize_spec (realloc : Realloc) (hre : ReallocOK realloc) (sz cap : Int)
    (blk : List Val) (hl : (blk.length : Int) = cap) (es s : Int) (hs : 0 ≤ s)
    (hes : 1 ≤ es) (hcap : es * cap ≤ INT_MAX)
    (hfit : cap < s → es * (1 + s * 5 / 3) ≤ INT_MAX) :
    (dynamic_array_resize_func realloc ⟨sz, cap, some blk⟩ es s =
        some (0, ⟨sz, cap, some blk⟩) ∧
      (s < minimum_load_size cap ∨ s > cap) ∧ ∃ c, 0 ≤ c ∧ realloc (some blk) c = none) ∨
    ∃ c blk1, dynamic_array_resize_func realloc ⟨sz, cap, some blk⟩ es s =
        some (1, ⟨s, c, some blk1⟩) ∧
      s ≤ c ∧ (blk1.length : Int) = c ∧ minimum_load_size c ≤ s ∧ es * c ≤ INT_MAX ∧
      (∀ i : Nat, i < blk.length → (i : Int) < c → blk1[i]? = blk[i]?) := by
  have hc0 : 0 ≤ cap := by omega
  unfold dynamic_array_resize_func
  by_cases hcond : s < minimum_load_size cap ∨ s > cap
  · simp only [if_pos hcond]
    have key : ∃ q, (if s > cap then size_after_expansion s else size_after_shrinking s) =
        some q ∧ s * 5 / 4 ≤ q ∧ q ≤ s * 5 / 3 ∧ es * (1 + q) ≤ INT_MAX := by
      by_cases hx : s > cap
      · have h3 := hfit hx
        have hq : s * 5 / 3 ≤ INT_MAX := by
          have := le_mul_int_max es (1 + s * 5 / 3) hes (by omega) h3
          omega
        exact ⟨_, by rw [if_pos hx]; exact size_after_expansion_eq s hs hq, by omega,
          le_refl _, h3⟩
      · have hm : s < minimum_load_size cap := by
          rcases hcond with h | h
          · exact h
          · exact absurd h hx
        rw [minimum_load_size_eq cap hc0] at hm
        have h4 : es * (1 + s * 5 / 4) ≤ INT_MAX :=
          mul_le_int_max es _ cap hes (by omega) hcap
        have hq : s * 5 / 4 ≤ INT_MAX := by
          have := le_mul_int_max es (1 + s * 5 / 4) hes (by omega) h4
          omega
        exact ⟨_, by rw [if_neg hx]; exact size_after_shrinking_eq s hs hq, le_refl _,
          by omega, h4⟩
    obtain ⟨q, hq, hq1, hq2, hq3⟩ := key
    rw [hq]
    have hq0 : 0 ≤ q := by omega
    have h1q : 1 + q ≤ INT_MAX := le_mul_int_max es (1 + q) hes (by omega) hq3
    simp only [as_int_of_nonneg (1 + q) (by omega) h1q,
      as_int_of_nonneg (es * (1 + q)) (Int.mul_nonneg (by omega) (by omega)) hq3]
    cases hr : realloc (some blk) (1 + q) with
    | none => exact Or.inl ⟨rfl, hcond, _, by omega, hr⟩
    | some new_data =>
      right
      obtain ⟨hlen, hpre⟩ := hre _ _ _ hr
      refine ⟨1 + q, new_data, ?_, by omega, hlen, ?_, hq3,
        fun i hi hic => hpre blk rfl i hi hic⟩
      · simp only [check_ok s (1 + q) new_data hs (by omega), if_true]
      · rw [minimum_load_size_eq _ (by omega)]; omega
  · simp only [if_neg hcond]
    push_neg at hcond
    refine Or.inr ⟨cap, blk, ?_, hcond.2, hl, hcond.1, hcap, fun _ _ _ => rfl⟩
    simp only [check_ok s cap blk hs hcond.2, if_true]

theorem demo_array_ok : DA_ok sizeof_int demo_array :=
  ⟨by decide, by decide, by decide!, by decide!, [7, 8], rfl, by decide⟩

theorem as_int_none (x : Int) (h : INT_MAX < x) : as_int x = none := by
  unfold as_int
  rw [if_neg (by omega)]

/-- Outside the range of `resize_spec` an expanding resize has no result: the
quotient, the new capacity or the byte count is not an `int` value. -/
theorem resize_out_of_range (realloc : Realloc) (a : dynamic_array) (es s : Int)
    (hs : 0 ≤ s) (hx : a.capacity < s)
    (hbig : INT_MAX < es * (1 + s * 5 / 3)) :
    dynamic_array_resize_func realloc a es s = none := by
  unfold dynamic_array_resize_func
  rw [if_pos (Or.inr hx), if_pos hx]
  unfold size_after_expansion
  rw [Int.tdiv_eq_ediv (by omega) (by omega)]
  by_cases h1 : s * 5 / 3 ≤ INT_MAX
  · rw [as_int_of_nonneg _ (by omega) h1]
    simp only
    by_cases h2 : 1 + s * 5 / 3 ≤ INT_MAX
    · rw [as_int_of_nonneg _ (by omega) h2]
      simp only
      rw [as_int_none _ hbig]
    · rw [as_int_none _ (by omega)]
  · rw [as_int_none _ (by omega)]

theorem insert_range_uses_memmove (realloc : Realloc) (a : dynamic_array)
    (element_size index_start length : Int) :
    dynamic_array_insert_range_func realloc a element_size index_start length =
      match as_int (a.size + length) with
      | none => none
      | some size1 =>
      match dynamic_array_resize_func realloc a element_size size1 with
      | none => none
      | some (r, a1) =>
        if r = 0 then some (0, a1) else
        match a1.data with
        | none => none
        | some blk =>
          match memmove_elements element_size blk
              (insert_range_memmove a1 index_start length).1 blk
              (insert_range_memmove a1 index_start length).2.1
              (insert_range_memmove a1 index_start length).2.2 with
          | none => none
          | some blk1 =>
            if check_dynamic_array_invariants { a1 with data := some blk1 } then
              some (1, { a1 with data := some blk1 })
            else none := rfl

/-! ## `fixup_iter_node` and the two-node redistribution of `rebalance_nodes` -/

theorem count_sum_nonneg (S : List ANode) (hcnt : ∀ n ∈ S, 0 ≤ n.count) : 0 ≤ count_sum S := by
  induction S with
  | nil => simp
  | cons m S ih =>
    simp only [count_sum_cons]
    have h1 := hcnt m (by simp)
    have h2 := ih (fun n hn => hcnt n (by simp [hn]))
    omega

theorem fixup_forward_spec (h : Heap) (S : List ANode) :
    ∀ (p : Option Nat) (o : Int) (fuel : Nat), Chain h p S none → (∀ n ∈ S, 0 ≤ n.count) →
      0 ≤ o → o ≤ count_sum S → S.length < fuel →
      ∃ it, fixup_forward h fuel ⟨headAddr S none, o⟩ = some it ∧
        ((o = count_sum S ∧ it = ⟨none, 0⟩) ∨
          (o < count_sum S ∧ ∃ A nd B, S = A ++ nd :: B ∧ it.node = some nd.addr ∧
            0 ≤ it.offset ∧ it.offset < nd.count ∧ count_sum A + it.offset = o)) := by
  induction S with
  | nil =>
    intro p o fuel _ _ ho0 ho1 hf
    obtain ⟨f, rfl⟩ : ∃ f, fuel = f + 1 := ⟨fuel - 1, by simp at hf; omega⟩
    simp only [count_sum_nil] at ho1
    have : o = 0 := by omega
    subst this
    exact ⟨⟨none, 0⟩, rfl, Or.inl ⟨rfl, rfl⟩⟩
  | cons n S ih =>
    intro p o fuel hc hcnt ho0 ho1 hf
    obtain ⟨f, rfl⟩ : ∃ f, fuel = f + 1 := ⟨fuel - 1, by simp at hf; omega⟩
    rw [chain_cons] at hc
    have hn0 := hcnt n (by simp)
    have hS0 := count_sum_nonneg S (fun m hm => hcnt m (by simp [hm]))
    simp only [count_sum_cons] at ho1
    by_cases hge : o ≥ n.count
    · obtain ⟨it, e, hres⟩ := ih (some n.addr) (o - n.count) f hc.2
        (fun m hm => hcnt m (by simp [hm])) (by omega) (by omega)
        (by simp only [List.length_cons] at hf; omega)
      refine ⟨it, ?_, ?_⟩
      · simp only [headAddr_cons, fixup_forward, hc.1, if_pos hge]
        exact e
      · rcases hres with ⟨h1, h2⟩ | ⟨h1, A, nd, B, hS, h2, h3, h4, h5⟩
        · exact Or.inl ⟨by simp only [count_sum_cons]; omega, h2⟩
        · refine Or.inr ⟨by simp only [count_sum_cons]; omega, n :: A, nd, B, by simp [hS], h2,
            h3, h4, ?_⟩
          simp only [count_sum_cons]
          omega
    · refine ⟨⟨some n.addr, o⟩, ?_, Or.inr ⟨by simp only [count_sum_cons]; omega, [], n, S, rfl,
        rfl, ho0, by simp only; omega, by simp⟩⟩
      simp only [headAddr_cons, fixup_forward, hc.1, if_neg hge]

theorem fixup_backward_spec (h : Heap) (lst : list) (L : List ANode) :
    ∀ (nd : ANode) (R : List ANode) (o : Int) (fuel : Nat), Rep h lst (L ++ nd :: R) →
      o < nd.count → 0 ≤ count_sum L + o → L.length < fuel →
      ∃ it, fixup_backward h lst fuel ⟨some nd.addr, o⟩ = some it ∧
        ∃ A nd1 B, L ++ nd :: R = A ++ nd1 :: B ∧ it.node = some nd1.addr ∧
          0 ≤ it.offset ∧ it.offset < nd1.count ∧ count_sum A + it.offset = count_sum L + o := by
  induction L using List.reverseRecOn with
  | nil =>
    intro nd R o fuel hrep ho1 hg hf
    obtain ⟨f, rfl⟩ : ∃ f, fuel = f + 1 := ⟨fuel - 1, by simp at hf; omega⟩
    simp only [count_sum_nil, zero_add] at hg
    refine ⟨⟨some nd.addr, o⟩, ?_, [], nd, R, rfl, rfl, hg, ho1, by simp⟩
    simp only [fixup_backward]
    rw [if_neg (by omega)]
  | append_singleton L pd ih =>
    intro nd R o fuel hrep ho1 hg hf
    obtain ⟨f, rfl⟩ : ∃ f, fuel = f + 1 := ⟨fuel - 1, by simp at hf; omega⟩
    by_cases hneg : o < 0
    · have hrep1 : Rep h lst (L ++ pd :: nd :: R) := by simpa using hrep
      have la := rep_lookup h lst (L ++ [pd]) R nd hrep
      have lp := rep_lookup h lst L (nd :: R) pd hrep1
      simp only [lastAddr_append, lastAddr_cons, lastAddr_nil] at la
      have hfirst : lst.first_node ≠ some nd.addr := by
        rw [hrep1.2.2.1]
        obtain ⟨_, _, hL, hR, _, _⟩ := nodup_split (L ++ [pd]) R nd hrep.1
        intro he
        apply hL
        cases L with
        | nil =>
          simp only [List.nil_append, headAddr_cons, Option.some.injEq] at he
          simp [he]
        | cons l0 L0 =>
          simp only [List.cons_append, headAddr_cons, Option.some.injEq] at he
          simp [he]
      simp only [count_sum_append, count_sum_cons, count_sum_nil] at hg
      obtain ⟨it, e, A, nd1, B, hdec, h2, h3, h4, h5⟩ := ih pd (nd :: R) (o + pd.count) f hrep1
        (by omega) (by omega) (by simp only [List.length_append, List.length_cons,
          List.length_nil] at hf; omega)
      refine ⟨it, ?_, A, nd1, B, by simpa using hdec, h2, h3, h4, ?_⟩
      · simp only [fixup_backward]
        rw [if_pos ⟨fun he => hfirst he.symm, hneg⟩]
        simp only [la, lp]
        exact e
      · rw [h5]
        simp only [count_sum_append, count_sum_cons, count_sum_nil]
        ring
    · refine ⟨⟨some nd.addr, o⟩, ?_, L ++ [pd], nd, R, rfl, rfl, by show 0 ≤ o; omega, ho1, rfl⟩
      simp only [fixup_backward]
      rw [if_neg (by omega)]

theorem rebalance_two_undefined (hdr : list_node → List Val) (h : Heap) (lst : list)
    (iter : list_iter) (node : Nat) (m1 m2 : Int)
    (hm : rebalance_moves h node = some (m1, m2)) (hpos : 0 < m1) (hneg : m2 < 0) :
    rebalance_two hdr h lst iter node = none := by
  unfold rebalance_moves at hm
  unfold rebalance_two
  rcases hn : h node with _ | n
  · rfl
  rw [hn] at hm
  simp only at hm ⊢
  rcases hp : n.prev with _ | p
  · rfl
  rw [hp] at hm
  simp only at hm ⊢
  rcases hx : n.next with _ | x
  · rfl
  rw [hx] at hm
  simp only at hm ⊢
  rcases hpn : h p with _ | pn
  · rfl
  rw [hpn] at hm
  simp only at hm ⊢
  rcases hxn : h x with _ | xn
  · rfl
  rw [hxn] at hm
  simp only [Option.some.injEq, Prod.mk.injEq] at hm ⊢
  obtain ⟨h1, h2⟩ := hm
  rw [if_pos (by omega)]
  rcases memmove pn.data pn.count n.data 0
      ((xn.count + n.count + pn.count + 0) / 2 - pn.count) with _ | pd
  · rfl
  simp only
  have : memmove n.data 0 n.data ((xn.count + n.count + pn.count + 0) / 2 - pn.count)
      (n.count - ((xn.count + n.count + pn.count + 0) / 2 - pn.count)) = none := by
    unfold memmove
    rw [if_neg (by omega)]
  rw [this]

theorem two_else_data (pdat ndat src xdat : List Val) (n1 m1 nc xc : Nat)
    (hp : n1 + m1 ≤ pdat.length) (hx : xc ≤ xdat.length) (hsrc : nc ≤ src.length)
    (hs : m1 + nc + xc ≤ ndat.length) :
    ∃ d1 d2 d3, memmove ndat m1 src 0 nc = some d1 ∧ memmove d1 0 pdat n1 m1 = some d2 ∧
      memmove d2 ((nc : Int) + m1) xdat 0 xc = some d3 ∧ d3.length = ndat.length ∧
      d3.take (m1 + nc + xc) = (pdat.drop n1).take m1 ++ (src.take nc ++ xdat.take xc) := by
  have m1e := memmove_nat ndat src m1 0 nc (by omega) (by omega)
  simp only [Nat.cast_zero] at m1e
  generalize hd1 : ndat.take m1 ++ ((src.drop 0).take nc ++ ndat.drop (m1 + nc)) = d1 at m1e
  have l1 : d1.length = ndat.length := memmove_length _ _ _ _ _ _ m1e
  have m2e := memmove_nat d1 pdat 0 n1 m1 (by omega) (by omega)
  simp only [Nat.cast_zero] at m2e
  generalize hd2 : d1.take 0 ++ ((pdat.drop n1).take m1 ++ d1.drop (0 + m1)) = d2 at m2e
  have l2 : d2.length = ndat.length := by rw [memmove_length _ _ _ _ _ _ m2e, l1]
  have m3e := memmove_nat d2 xdat (nc + m1) 0 xc (by omega) (by omega)
  simp only [Nat.cast_zero, Nat.cast_add] at m3e
  generalize hd3 : d2.take (nc + m1) ++ ((xdat.drop 0).take xc ++ d2.drop (nc + m1 + xc)) = d3
    at m3e
  have l3 : d3.length = ndat.length := by rw [memmove_length _ _ _ _ _ _ m3e, l2]
  refine ⟨d1, d2, d3, m1e, m2e, m3e, l3, ?_⟩
  have hpl : ((pdat.drop n1).take m1).length = m1 := by
    simp only [List.length_take, List.length_drop]; omega
  have t2 : d2.take (nc + m1) = (pdat.drop n1).take m1 ++ src.take nc := by
    rw [← hd2, ← hd1]
    simp only [List.take_zero, List.nil_append, List.drop_zero, Nat.zero_add]
    rw [List.take_append_eq_append_take, hpl, List.take_of_length_le (by omega)]
    congr 1
    rw [show nc + m1 - m1 = nc by omega, List.drop_append_eq_append_drop]
    simp only [List.length_take, Nat.min_eq_left (by omega : m1 ≤ ndat.length)]
    rw [List.drop_of_length_le (by simp only [List.length_take]; omega), Nat.sub_self,
      List.drop_zero, List.nil_append, List.take_append_of_le_length
        (by simp only [List.length_take]; omega), List.take_take, Nat.min_self]
  rw [← hd3]
  simp only [List.drop_zero]
  rw [List.take_append_eq_append_take, List.take_take]
  simp only [List.length_take]
  rw [Nat.min_eq_right (by omega : nc + m1 ≤ m1 + nc + xc),
    Nat.min_eq_left (by omega : nc + m1 ≤ d2.length), t2, List.append_assoc]
  congr 2
  rw [show m1 + nc + xc - (nc + m1) = xc by omega, List.take_append_of_le_length
    (by simp only [List.length_take]; omega), List.take_take, Nat.min_self]

/-- The else branch of the two-node redistribution (the predecessor holds at
least its share): the call returns, the successor is unlinked and freed, and the
first `count` slots of the centre node are the predecessor's surplus, then the
first `count` words read from the base of the centre node (`hdr` followed by its
slots), then the successor's elements. -/
theorem rebalance_two_else_spec (CAP : Int) (hdr : list_node → List Val) (h : Heap)
    (lst : list) (L R : List ANode) (pd nd xd : ANode) (iter : list_iter)
    (hrep : Rep h lst (L ++ pd :: nd :: xd :: R)) (hpd : Good CAP pd) (hxd : Good CAP xd)
    (hc0 : 0 ≤ nd.count) (hlen : (nd.data.length : Int) = CAP)
    (hfit : (xd.count + nd.count + pd.count + 1) / 2 ≤ CAP)
    (hsur : (xd.count + nd.count + pd.count) / 2 ≤ pd.count) :
    ∃ h2 lst2 d3, rebalance_two hdr h lst iter nd.addr =
        some (h2, lst2, { iter with offset := iter.offset +
          (pd.count - (xd.count + nd.count + pd.count) / 2) }) ∧
      Rep h2 lst2 (L ++ ⟨pd.addr, (xd.count + nd.count + pd.count) / 2, pd.data⟩ ::
        ⟨nd.addr, (xd.count + nd.count + pd.count + 1) / 2, d3⟩ :: R) ∧
      d3.take ((xd.count + nd.count + pd.count + 1) / 2).toNat =
        (pd.data.drop ((xd.count + nd.count + pd.count) / 2).toNat).take
            (pd.count - (xd.count + nd.count + pd.count) / 2).toNat ++
          ((hdr ⟨nd.count, nd.data, some pd.addr, some xd.addr⟩ ++ nd.data).take
              nd.count.toNat ++ xd.data.take xd.count.toNat) ∧
      h2 xd.addr = none := by
  obtain ⟨lp, la, lx⟩ := rep_lookup3 h lst L R pd nd xd hrep
  obtain ⟨hp1, hp2, hp3⟩ := hpd
  obtain ⟨hx1, hx2, hx3⟩ := hxd
  generalize hS : (xd.count + nd.count + pd.count) / 2 = n1 at hsur ⊢
  generalize hS2 : (xd.count + nd.count + pd.count + 1) / 2 = n2 at hfit ⊢
  have hn12 : n1 + n2 = xd.count + nd.count + pd.count := by omega
  have hn1 : 0 ≤ n1 := by omega
  obtain ⟨d1, d2, d3, e1, e2, e3, l3, t3⟩ := two_else_data pd.data nd.data
    (hdr ⟨nd.count, nd.data, some pd.addr, some xd.addr⟩ ++ nd.data) xd.data n1.toNat
    (pd.count - n1).toNat nd.count.toNat xd.count.toNat (by omega) (by omega)
    (by simp only [List.length_append]; omega) (by omega)
  have c1 : (((pd.count - n1).toNat : Nat) : Int) = pd.count - n1 := by omega
  have c2 : ((nd.count.toNat : Nat) : Int) = nd.count := by omega
  have c3 : ((xd.count.toNat : Nat) : Int) = xd.count := by omega
  have c4 : ((n1.toNat : Nat) : Int) = n1 := by omega
  rw [c1, c2] at e1
  rw [c1, c4] at e2
  rw [c1, c2, c3] at e3
  have hrep1 : Rep (write h pd.addr ⟨n1, pd.data, lastAddr none L, some nd.addr⟩) lst
      (L ++ ⟨pd.addr, n1, pd.data⟩ :: nd :: xd :: R) :=
    rep_write h lst L _ pd hrep _ _
  have hrep2 := rep_write_mid _ lst L R _ nd xd hrep1 n2 d3
  obtain ⟨h4, lst4, e4, hrep4, _, _, hfree4⟩ := remove_node_spec _ lst
    (L ++ [⟨pd.addr, n1, pd.data⟩, ⟨nd.addr, n2, d3⟩]) R xd
    (by simp only [List.append_assoc, List.cons_append, List.nil_append]; exact hrep2)
  refine ⟨h4, lst4, d3, ?_, by simpa using hrep4, ?_, hfree4⟩
  · simp only [rebalance_two, la, lp, lx, add_zero, hS, hS2]
    rw [if_neg (by omega)]
    simp only [e1, e2, e3]
    rw [e4]
  · rw [← t3]
    congr 1
    omega

/-! ## The claims -/

/-- C1 (violated by the code): on the well-formed list with node counts 1, 5, 9
(`CAP = 9`, reached through the public operations, accepted by
`check_list_invariants` and `check_iter_invariants`), `list_remove` at the first
slot of the middle node has no defined result: the two-node redistribution of
`rebalance_nodes` computes `move_2 = 4 - 6 < 0` and passes it to `memmove`. -/
theorem list_remove_undefined_on_1_5_9 :
    (run 9 (fun _ => []) ops_1_5_9 init).map (fun s =>
      (chain_counts s.heap 5 s.lst.first_node, s.lst.size,
        check_list_invariants 9 5 s.heap s.lst,
        check_iter_invariants 5 s.heap s.lst ⟨some 50, 0⟩,
        (list_remove 9 (fun _ => []) 5 s.heap s.lst ⟨some 50, 0⟩).isSome)) =
      some (some [1, 5, 9], 15, some true, some true, false) := by
  decide!

/-- C2 (violated by the code): with `CAP = 4` and node counts 1, 2, 4, a valid
iterator at the first slot of the middle node is not repositioned by
`list_remove`: the call has no defined result, so no iterator comes back
(`move_2 = 1 - 2 < 0` in the two-node redistribution). -/
theorem list_remove_no_iterator_on_1_2_4 :
    (run 4 (fun _ => []) ops_1_2_4 init).map (fun s =>
      (chain_counts s.heap 5 s.lst.first_node,
        check_list_invariants 4 5 s.heap s.lst,
        check_iter_invariants 5 s.heap s.lst ⟨some 50, 0⟩,
        (list_remove 4 (fun _ => []) 5 s.heap s.lst ⟨some 50, 0⟩).map (fun r => r.2.2))) =
      some (some [1, 2, 4], some true, some true, none) := by
  decide!

/-- C7 (violated by the code): with `CAP = 9`, after 27 appends and six
`list_remove` calls in the middle node the chain has counts 9, 3, 9: the
interior node holds 3 < 9 / 2 elements (after five calls it holds 4, and the
sixth call takes the "leave as is" branch of `rebalance_nodes`). -/
theorem interior_node_below_half :
    (run 9 (fun _ => []) (ops_thin_middle 5) init).map (fun s =>
        chain_counts s.heap 5 s.lst.first_node) = some (some [9, 4, 9]) ∧
    (run 9 (fun _ => []) (ops_thin_middle 6) init).map (fun s =>
        chain_counts s.heap 5 s.lst.first_node) = some (some [9, 3, 9]) ∧
    interior_half_full 9 [9, 3, 9] = false := by
  decide!

/-- C8 (violated by the code): with `CAP = 9` the public operations reach a list
of three nodes holding one element each: `9 * (3 - 2) ≤ 2 * 3` fails, and the
source's own `check_list_invariants` rejects the state. -/
theorem node_count_bound_fails :
    (run 9 (fun _ => []) ops_1_1_1 init).map (fun s =>
      (chain_counts s.heap 5 s.lst.first_node, s.lst.size,
        check_list_invariants 9 5 s.heap s.lst)) =
      some (some [1, 1, 1], 3, some false) ∧
    ¬ ((9 : Int) * (3 - 2) ≤ 2 * 3) := by
  decide!

/-- C5: in every state reachable from `list_create` by the public mutation
operations (each within its precondition and with defined behaviour), the list
is a valid chain and its `size` field is the sum of the counts of the nodes of
the chain. -/
theorem reachable_size_is_count_sum (CAP : Int) (hdr : list_node → List Val) (hCAP : 2 ≤ CAP)
    (s : State) (hs : Reachable CAP hdr s) :
    ∃ ns, Rep s.heap s.lst ns ∧ s.lst.size = count_sum ns := by
  obtain ⟨ns, _, hwf, _, _⟩ := reachable_inv CAP hdr hCAP s hs
  exact ⟨ns, hwf.1, hwf.2.2⟩

/-- Witness for C5: the state after three appends with `CAP = 2`. -/
theorem reachable_size_is_count_sum_witness :
    (2 : Int) ≤ 2 ∧ Reachable 2 (fun _ => []) sample_state ∧
    ∃ ns, Rep sample_state.heap sample_state.lst ns ∧ sample_state.lst.size = count_sum ns :=
  ⟨by decide, sample_reachable,
    reachable_size_is_count_sum 2 (fun _ => []) (by decide) sample_state sample_reachable⟩

/-- C6: for `CAP ≥ 2`, in every state reachable from `list_create` by the public
mutation operations (each within its precondition and with defined behaviour),
every node of the chain has `1 ≤ count ≤ CAP`. -/
theorem reachable_counts_in_range (CAP : Int) (hdr : list_node → List Val) (hCAP : 2 ≤ CAP)
    (s : State) (hs : Reachable CAP hdr s) :
    ∃ ns, Rep s.heap s.lst ns ∧ ∀ n ∈ ns, 1 ≤ n.count ∧ n.count ≤ CAP := by
  obtain ⟨ns, _, hwf, _, _⟩ := reachable_inv CAP hdr hCAP s hs
  exact ⟨ns, hwf.1, fun n hn => ⟨(hwf.2.1 n hn).1, (hwf.2.1 n hn).2.1⟩⟩

/-- Witness for C6: the state after three appends with `CAP = 2`. -/
theorem reachable_counts_in_range_witness :
    (2 : Int) ≤ 2 ∧ Reachable 2 (fun _ => []) sample_state ∧
    ∃ ns, Rep sample_state.heap sample_state.lst ns ∧ ∀ n ∈ ns, 1 ≤ n.count ∧ n.count ≤ 2 :=
  ⟨by decide, sample_reachable,
    reachable_counts_in_range 2 (fun _ => []) (by decide) sample_state sample_reachable⟩

/-- C9: on a well-formed list each of the four insert operations returns, and
when it returns 0 the heap (every node's count, slots and links), the list
struct (size, first and last) and the passed iterator are exactly what they
were before the call. -/
theorem insert_failure_changes_nothing (CAP : Int) (malloc : Heap → Option Nat) (h : Heap)
    (lst : list) (ns : List ANode) (v : Val) (hCAP : 2 ≤ CAP) (hwf : WF CAP h lst ns)
    (hfresh : ∀ a, malloc h = some a → h a = none) :
    (∃ r h1 lst1, list_insert_beginning CAP malloc h lst v = some (r, h1, lst1) ∧
      (r = 0 → h1 = h ∧ lst1 = lst)) ∧
    (∃ r h1 lst1, list_insert_end CAP malloc h lst v = some (r, h1, lst1) ∧
      (r = 0 → h1 = h ∧ lst1 = lst)) ∧
    (∀ iter k, iter_index ns iter = some k →
      ∃ r h1 lst1 iter1, list_insert_after CAP malloc h lst iter v = some (r, h1, lst1, iter1) ∧
        (r = 0 → h1 = h ∧ lst1 = lst ∧ iter1 = iter)) ∧
    (∀ iter, (iter.node = none ∨ ∃ k, iter_index ns iter = some k) →
      ∃ r h1 lst1 iter1, list_insert_before CAP malloc h lst iter v = some (r, h1, lst1, iter1) ∧
        (r = 0 → h1 = h ∧ lst1 = lst ∧ iter1 = iter)) := by
  refine ⟨?_, ?_, ?_, ?_⟩
  · obtain ⟨r, h1, lst1, e, hres⟩ := list_insert_beginning_spec CAP malloc h lst ns v
      (by omega) hwf hfresh
    refine ⟨r, h1, lst1, e, fun hr => ?_⟩
    rcases hres with ⟨_, _, hh, hl⟩ | ⟨h1r, _⟩
    · exact ⟨hh, hl⟩
    · omega
  · obtain ⟨r, h1, lst1, e, hres⟩ := list_insert_end_spec CAP malloc h lst ns v
      (by omega) hwf hfresh
    refine ⟨r, h1, lst1, e, fun hr => ?_⟩
    rcases hres with ⟨_, _, hh, hl⟩ | ⟨h1r, _⟩
    · exact ⟨hh, hl⟩
    · omega
  · intro iter k hk
    obtain ⟨r, h1, lst1, iter1, e, hres⟩ :=
      list_insert_after_spec CAP malloc h lst ns iter v k hCAP hwf hk hfresh
    refine ⟨r, h1, lst1, iter1, e, fun hr => ?_⟩
    rcases hres with ⟨_, _, hh, hl, hi⟩ | ⟨h1r, _⟩
    · exact ⟨hh, hl, hi⟩
    · omega
  · intro iter hit
    rcases hit with hnone | ⟨k, hk⟩
    · obtain ⟨r, h1, lst1, e, hres⟩ := list_insert_end_spec CAP malloc h lst ns v
        (by omega) hwf hfresh
      refine ⟨r, h1, lst1, iter, by simp only [list_insert_before, hnone, e], fun hr => ?_⟩
      rcases hres with ⟨_, _, hh, hl⟩ | ⟨h1r, _⟩
      · exact ⟨hh, hl, rfl⟩
      · omega
    · obtain ⟨r, h1, lst1, iter1, e, hres⟩ :=
        list_insert_before_spec CAP malloc h lst ns iter v k hCAP hwf hk hfresh
      refine ⟨r, h1, lst1, iter1, e, fun hr => ?_⟩
      rcases hres with ⟨_, _, hh, hl, hi⟩ | ⟨h1r, _⟩
      · exact ⟨hh, hl, hi⟩
      · omega

/-- Witness for C9: a full node with `CAP = 2` and an allocator that fails. -/
theorem insert_failure_changes_nothing_witness :
    (2 : Int) ≤ 2 ∧ WF 2 demo_heap demo_list demo_nodes ∧
    (∃ r h1 lst1, list_insert_end 2 (fun _ => none) demo_heap demo_list 9 = some (r, h1, lst1) ∧
      (r = 0 → h1 = demo_heap ∧ lst1 = demo_list)) :=
  ⟨by decide, demo_wf,
    (insert_failure_changes_nothing 2 (fun _ => none) demo_heap demo_list demo_nodes 9
      (by decide) demo_wf (fun a ha => by simp at ha)).2.1⟩

/-- With the assertions compiled out (`NDEBUG`), on a well-formed non-empty list
`list_remove_end` returns; the element
sequence is the old one without its last element and `size` is one less; the
last node is unlinked (and freed) exactly when it held one element, otherwise
only its count drops; and `list_last` of the result denotes the last element of
the new sequence, or the list is empty with `first_node` and `last_node` null. -/
theorem list_remove_end_drops_last_ndebug (CAP : Int) (h : Heap) (lst : list) (ns : List ANode)
    (hwf : WF CAP h lst ns) (hne : 0 < lst.size) :
    ∃ L nd h1 lst1 ns1 it, ns = L ++ [nd] ∧ list_remove_end h lst = some (h1, lst1) ∧
      WF CAP h1 lst1 ns1 ∧ elems ns1 = (elems ns).dropLast ∧ lst1.size = lst.size - 1 ∧
      (nd.count = 1 → ns1 = L ∧ h1 nd.addr = none) ∧
      (nd.count ≠ 1 → ns1 = L ++ [⟨nd.addr, nd.count - 1, nd.data⟩]) ∧
      list_last h1 lst1 = some it ∧
      ((lst1.size = 0 ∧ lst1.first_node = none ∧ lst1.last_node = none ∧ it.node = none) ∨
        (0 < lst1.size ∧ it.node = lst1.last_node ∧
          iter_index ns1 it = some ((elems ns1).length - 1))) := by
  rcases List.eq_nil_or_concat ns with hns | ⟨L, nd, hns⟩
  · subst hns
    have := (wf_nil_of_size CAP h lst [] hwf).2.1 hne
    exact absurd rfl this
  rw [List.concat_eq_append] at hns
  subst hns
  obtain ⟨h1, lst1, e, hsz, _, hcase⟩ := list_remove_end_chain CAP h lst L nd hwf
  obtain ⟨hg1, hg2, hg3⟩ := hwf.2.1 nd (by simp)
  have hel : ∀ ns1, (nd.count = 1 ∧ ns1 = L) ∨
      (nd.count ≠ 1 ∧ ns1 = L ++ [⟨nd.addr, nd.count - 1, nd.data⟩]) →
      elems ns1 = (elems (L ++ [nd])).dropLast := by
    intro ns1 hc
    rw [elems_append]
    simp only [elems_cons, elems_nil, List.append_nil]
    rw [dropLast_append_take _ _ _ (by omega) (by omega)]
    rcases hc with ⟨hc, rfl⟩ | ⟨hc, rfl⟩
    · have : nd.count.toNat - 1 = 0 := by omega
      simp [this]
    · rw [elems_append]
      simp only [elems_cons, elems_nil, List.append_nil]
      congr 2
      omega
  have hlast : ∀ ns1, WF CAP h1 lst1 ns1 → ∃ it, list_last h1 lst1 = some it ∧
      ((lst1.size = 0 ∧ lst1.first_node = none ∧ lst1.last_node = none ∧ it.node = none) ∨
        (0 < lst1.size ∧ it.node = lst1.last_node ∧
          iter_index ns1 it = some ((elems ns1).length - 1))) := by
    intro ns1 hwf1
    rcases List.eq_nil_or_concat ns1 with hn1 | ⟨L1, nd1, hn1⟩
    · subst hn1
      have hf : lst1.first_node = none := hwf1.1.2.2.1
      have hl : lst1.last_node = none := hwf1.1.2.2.2
      refine ⟨⟨none, 0⟩, by simp only [list_last, hl], Or.inl ⟨?_, hf, hl, rfl⟩⟩
      rw [hwf1.2.2]; rfl
    · rw [List.concat_eq_append] at hn1
      subst hn1
      obtain ⟨e1, e2⟩ := list_last_spec CAP h1 lst1 L1 nd1 hwf1
      refine ⟨_, e1, Or.inr ⟨?_, ?_, e2⟩⟩
      · have := (wf_nil_of_size CAP h1 lst1 _ hwf1)
        rcases lt_or_eq_of_le this.2.2 with hlt | heq
        · exact hlt
        · exact absurd (this.1 heq.symm) (by simp)
      · exact (rep_last h1 lst1 L1 nd1 hwf1.1).1.symm
  rcases hcase with ⟨hc, hwf1, hfree⟩ | ⟨hc, hwf1⟩
  · obtain ⟨it, hit1, hit2⟩ := hlast L hwf1
    exact ⟨L, nd, h1, lst1, L, it, rfl, e, hwf1, hel L (Or.inl ⟨hc, rfl⟩), hsz,
      fun _ => ⟨rfl, hfree⟩, fun hn => absurd hc hn, hit1, hit2⟩
  · obtain ⟨it, hit1, hit2⟩ := hlast _ hwf1
    exact ⟨L, nd, h1, lst1, _, it, rfl, e, hwf1, hel _ (Or.inr ⟨hc, rfl⟩), hsz,
      fun hn => absurd hn hc, fun _ => rfl, hit1, hit2⟩

/-- An instance of `list_remove_end_drops_last_ndebug`: removing the last of the two elements of a one-node list. -/
theorem list_remove_end_drops_last_ndebug_witness :
    WF 2 demo_heap demo_list demo_nodes ∧ 0 < demo_list.size ∧
    ∃ L nd h1 lst1 ns1 it, demo_nodes = L ++ [nd] ∧
      list_remove_end demo_heap demo_list = some (h1, lst1) ∧
      WF 2 h1 lst1 ns1 ∧ elems ns1 = (elems demo_nodes).dropLast ∧
      lst1.size = demo_list.size - 1 ∧
      (nd.count = 1 → ns1 = L ∧ h1 nd.addr = none) ∧
      (nd.count ≠ 1 → ns1 = L ++ [⟨nd.addr, nd.count - 1, nd.data⟩]) ∧
      list_last h1 lst1 = some it ∧
      ((lst1.size = 0 ∧ lst1.first_node = none ∧ lst1.last_node = none ∧ it.node = none) ∨
        (0 < lst1.size ∧ it.node = lst1.last_node ∧
          iter_index ns1 it = some ((elems ns1).length - 1))) :=
  ⟨demo_wf, by decide,
    list_remove_end_drops_last_ndebug 2 demo_heap demo_list demo_nodes demo_wf (by decide)⟩

/-- With the assertions compiled out (`NDEBUG`), on a well-formed non-empty list
`list_remove_beginning` returns; the
element sequence is the old one without its first element and `size` is one
less; the first node is unlinked (and freed) exactly when it held one element,
otherwise its slots move down and its count drops; and `list_first` of the
result denotes the first element of the new sequence, or the list is empty with
`first_node` and `last_node` null. -/
theorem list_remove_beginning_drops_first_ndebug (CAP : Int) (h : Heap) (lst : list)
    (ns : List ANode) (hwf : WF CAP h lst ns) (hne : 0 < lst.size) :
    ∃ nd R h1 lst1 ns1, ns = nd :: R ∧ list_remove_beginning h lst = some (h1, lst1) ∧
      WF CAP h1 lst1 ns1 ∧ elems ns1 = (elems ns).tail ∧ lst1.size = lst.size - 1 ∧
      (nd.count = 1 → ns1 = R ∧ h1 nd.addr = none) ∧
      (nd.count ≠ 1 → ∃ d1, ns1 = ⟨nd.addr, nd.count - 1, d1⟩ :: R) ∧
      ((lst1.size = 0 ∧ lst1.first_node = none ∧ lst1.last_node = none ∧
          (list_first lst1).node = none) ∨
        (0 < lst1.size ∧ (list_first lst1).node = lst1.first_node ∧
          iter_index ns1 (list_first lst1) = some 0)) := by
  cases ns with
  | nil =>
    have := (wf_nil_of_size CAP h lst [] hwf).2.1 hne
    exact absurd rfl this
  | cons nd R =>
  obtain ⟨h1, lst1, d1, e, hsz, _, hd1, hcase⟩ := list_remove_beginning_chain CAP h lst R nd hwf
  obtain ⟨hg1, hg2, hg3⟩ := hwf.2.1 nd (by simp)
  have hel : ∀ ns1, (nd.count = 1 ∧ ns1 = R) ∨
      (nd.count ≠ 1 ∧ ns1 = ⟨nd.addr, nd.count - 1, d1⟩ :: R) →
      elems ns1 = (elems (nd :: R)).tail := by
    intro ns1 hc
    simp only [elems_cons]
    rw [tail_take_append _ _ _ (by omega) (by omega)]
    rcases hc with ⟨hc, rfl⟩ | ⟨hc, rfl⟩
    · have : nd.count.toNat - 1 = 0 := by omega
      simp [this]
    · simp only [elems_cons]
      rw [← hd1]
      congr 2
      omega
  have hfst : ∀ ns1, WF CAP h1 lst1 ns1 →
      ((lst1.size = 0 ∧ lst1.first_node = none ∧ lst1.last_node = none ∧
          (list_first lst1).node = none) ∨
        (0 < lst1.size ∧ (list_first lst1).node = lst1.first_node ∧
          iter_index ns1 (list_first lst1) = some 0)) := by
    intro ns1 hwf1
    cases ns1 with
    | nil =>
      have hf : lst1.first_node = none := hwf1.1.2.2.1
      have hl : lst1.last_node = none := hwf1.1.2.2.2
      refine Or.inl ⟨?_, hf, hl, hf⟩
      rw [hwf1.2.2]; rfl
    | cons nd1 R1 =>
      obtain ⟨_, e2⟩ := list_first_spec CAP h1 lst1 R1 nd1 hwf1
      refine Or.inr ⟨?_, rfl, e2⟩
      have := (wf_nil_of_size CAP h1 lst1 _ hwf1)
      rcases lt_or_eq_of_le this.2.2 with hlt | heq
      · exact hlt
      · exact absurd (this.1 heq.symm) (by simp)
  rcases hcase with ⟨hc, hwf1, hfree⟩ | ⟨hc, hwf1⟩
  · exact ⟨nd, R, h1, lst1, R, rfl, e, hwf1, hel R (Or.inl ⟨hc, rfl⟩), hsz,
      fun _ => ⟨rfl, hfree⟩, fun hn => absurd hc hn, hfst R hwf1⟩
  · exact ⟨nd, R, h1, lst1, _, rfl, e, hwf1, hel _ (Or.inr ⟨hc, rfl⟩), hsz,
      fun hn => absurd hn hc, fun _ => ⟨d1, rfl⟩, hfst _ hwf1⟩

/-- An instance of `list_remove_beginning_drops_first_ndebug`: removing the first of the two elements of a one-node list. -/
theorem list_remove_beginning_drops_first_ndebug_witness :
    WF 2 demo_heap demo_list demo_nodes ∧ 0 < demo_list.size ∧
    ∃ nd R h1 lst1 ns1, demo_nodes = nd :: R ∧
      list_remove_beginning demo_heap demo_list = some (h1, lst1) ∧
      WF 2 h1 lst1 ns1 ∧ elems ns1 = (elems demo_nodes).tail ∧
      lst1.size = demo_list.size - 1 ∧
      (nd.count = 1 → ns1 = R ∧ h1 nd.addr = none) ∧
      (nd.count ≠ 1 → ∃ d1, ns1 = ⟨nd.addr, nd.count - 1, d1⟩ :: R) ∧
      ((lst1.size = 0 ∧ lst1.first_node = none ∧ lst1.last_node = none ∧
          (list_first lst1).node = none) ∨
        (0 < lst1.size ∧ (list_first lst1).node = lst1.first_node ∧
          iter_index ns1 (list_first lst1) = some 0)) :=
  ⟨demo_wf, by decide,
    list_remove_beginning_drops_first_ndebug 2 demo_heap demo_list demo_nodes demo_wf (by decide)⟩

/-- C12 (violated by the code): with `CAP = 9` the public operations, every
assertion passing, reach the list 8 | 17 | 18, 19 (counts 1, 1, 2, size 4), which
`check_list_invariants` accepts.  `list_remove_end` leaves 8 | 17 | 18 with size
3, as the claim says, but the boundary removals never rebalance: the result fails
the closing assertion `count_sum >= (num_nodes - 2) * 9 / 2` (3 against 4), and
in the build with assertions the call aborts. -/
theorem list_remove_end_aborts_on_1_1_2 :
    (run_checked 9 (fun _ => []) 5 ops_1_1_2 init).map (fun s =>
      (chain_counts s.heap 5 s.lst.first_node, chain_elems s.heap 5 s.lst.first_node)) =
      some (some [1, 1, 2], some [8, 17, 18, 19]) ∧
    (run_checked 9 (fun _ => []) 5 ops_1_1_2 init).map (fun s =>
      (s.lst.size, check_list_invariants 9 5 s.heap s.lst)) = some (4, some true) ∧
    (run_checked 9 (fun _ => []) 5 ops_1_1_2 init).bind (fun s =>
      (list_remove_end s.heap s.lst).map (fun r =>
        (chain_counts r.1 5 r.2.first_node, chain_elems r.1 5 r.2.first_node))) =
      some (some [1, 1, 1], some [8, 17, 18]) ∧
    (run_checked 9 (fun _ => []) 5 ops_1_1_2 init).bind (fun s =>
      (list_remove_end s.heap s.lst).map (fun r =>
        (r.2.size, check_list_invariants 9 5 r.1 r.2))) = some (3, some false) ∧
    (run_checked 9 (fun _ => []) 5 ops_1_1_2 init).map (fun s =>
      (list_remove_end_checked 9 5 s.heap s.lst).isSome) = some false := by
  decide!

/-- C13 (violated by the code): with `CAP = 9` the public operations, every
assertion passing, reach the list 7, 8 | 17 | 18 (counts 2, 1, 1, size 4), which
`check_list_invariants` accepts.  `list_remove_beginning` leaves 8 | 17 | 18 with
size 3, as the claim says, but the boundary removals never rebalance: the result
fails the closing assertion `count_sum >= (num_nodes - 2) * 9 / 2` (3 against 4),
and in the build with assertions the call aborts. -/
theorem list_remove_beginning_aborts_on_2_1_1 :
    (run_checked 9 (fun _ => []) 5 ops_2_1_1 init).map (fun s =>
      (chain_counts s.heap 5 s.lst.first_node, chain_elems s.heap 5 s.lst.first_node)) =
      some (some [2, 1, 1], some [7, 8, 17, 18]) ∧
    (run_checked 9 (fun _ => []) 5 ops_2_1_1 init).map (fun s =>
      (s.lst.size, check_list_invariants 9 5 s.heap s.lst)) = some (4, some true) ∧
    (run_checked 9 (fun _ => []) 5 ops_2_1_1 init).bind (fun s =>
      (list_remove_beginning s.heap s.lst).map (fun r =>
        (chain_counts r.1 5 r.2.first_node, chain_elems r.1 5 r.2.first_node))) =
      some (some [1, 1, 1], some [8, 17, 18]) ∧
    (run_checked 9 (fun _ => []) 5 ops_2_1_1 init).bind (fun s =>
      (list_remove_beginning s.heap s.lst).map (fun r =>
        (r.2.size, check_list_invariants 9 5 r.1 r.2))) = some (3, some false) ∧
    (run_checked 9 (fun _ => []) 5 ops_2_1_1 init).map (fun s =>
      (list_remove_beginning_checked 9 5 s.heap s.lst).isSome) = some false := by
  decide!

/-- C17: on a well-formed non-empty list `list_first` is (first node, 0) and
`list_last` is (last node, count - 1); the first denotes index 0 of the element
sequence and the last its final index, the slot each points at holds that
element, and each offset lies in `0 .. count - 1`.  On the empty list both are
(null, 0). -/
theorem list_first_last_denote (CAP : Int) (h : Heap) (lst : list) (ns : List ANode)
    (hwf : WF CAP h lst ns) :
    (0 < lst.size → ∃ a b na nb,
      lst.first_node = some a ∧ h a = some na ∧ list_first lst = ⟨some a, 0⟩ ∧
      0 < na.count ∧ iter_index ns (list_first lst) = some 0 ∧
      na.data[0]? = (elems ns)[0]? ∧
      lst.last_node = some b ∧ h b = some nb ∧
      list_last h lst = some ⟨some b, nb.count - 1⟩ ∧
      0 ≤ nb.count - 1 ∧ nb.count - 1 < nb.count ∧
      iter_index ns ⟨some b, nb.count - 1⟩ = some ((elems ns).length - 1) ∧
      nb.data[(nb.count - 1).toNat]? = (elems ns)[(elems ns).length - 1]?) ∧
    (lst.size = 0 → list_first lst = ⟨none, 0⟩ ∧ list_last h lst = some ⟨none, 0⟩) := by
  constructor
  · intro hpos
    have hne := (wf_nil_of_size CAP h lst ns hwf).2.1 hpos
    obtain ⟨nd, R, hns⟩ := List.exists_cons_of_ne_nil hne
    rcases List.eq_nil_or_concat ns with hnil | ⟨L, ne, hnl⟩
    · exact absurd hnil hne
    rw [List.concat_eq_append] at hnl
    have hf := hns ▸ hwf
    have hl := hnl ▸ hwf
    obtain ⟨f1, f2⟩ := list_first_spec CAP h lst R nd hf
    obtain ⟨l1, l2⟩ := list_last_spec CAP h lst L ne hl
    obtain ⟨ffirst, fnode⟩ := rep_first h lst R nd hf.1
    obtain ⟨llast, lnode⟩ := rep_last h lst L ne hl.1
    rw [← hns] at f2
    rw [← hnl] at l2
    obtain ⟨a, na, ha1, _, ha2, _, ha3, ha4⟩ :=
      iter_index_slot CAP h lst ns (list_first lst) 0 hwf f2
    obtain ⟨b, nb, hb1, _, hb2, hb3, hb4, hb5⟩ :=
      iter_index_slot CAP h lst ns ⟨some ne.addr, ne.count - 1⟩ _ hwf l2
    rw [f1] at ha1 ha3 ha4
    simp only [Option.some.injEq] at ha1 hb1
    subst ha1 hb1
    rw [fnode] at ha2
    rw [lnode] at hb2
    simp only [Option.some.injEq] at ha2 hb2
    subst ha2 hb2
    simp only at ha3 ha4 hb3 hb4 hb5
    exact ⟨nd.addr, ne.addr, _, _, ffirst, fnode, f1, ha3, f2, ha4, llast, lnode, l1, hb3,
      hb4, l2, hb5⟩
  · intro h0
    have hnil := (wf_nil_of_size CAP h lst ns hwf).1 h0
    subst hnil
    have hf : lst.first_node = none := hwf.1.2.2.1
    have hl : lst.last_node = none := hwf.1.2.2.2
    exact ⟨by simp only [list_first, hf], by simp only [list_last, hl]⟩

/-- Witness for C17: the one-node list holding 7, 8. -/
theorem list_first_last_denote_witness :
    WF 2 demo_heap demo_list demo_nodes ∧
    (0 < demo_list.size → ∃ a b na nb,
      demo_list.first_node = some a ∧ demo_heap a = some na ∧
      list_first demo_list = ⟨some a, 0⟩ ∧
      0 < na.count ∧ iter_index demo_nodes (list_first demo_list) = some 0 ∧
      na.data[0]? = (elems demo_nodes)[0]? ∧
      demo_list.last_node = some b ∧ demo_heap b = some nb ∧
      list_last demo_heap demo_list = some ⟨some b, nb.count - 1⟩ ∧
      0 ≤ nb.count - 1 ∧ nb.count - 1 < nb.count ∧
      iter_index demo_nodes ⟨some b, nb.count - 1⟩ = some ((elems demo_nodes).length - 1) ∧
      nb.data[(nb.count - 1).toNat]? = (elems demo_nodes)[(elems demo_nodes).length - 1]?) :=
  ⟨demo_wf, (list_first_last_denote 2 demo_heap demo_list demo_nodes demo_wf).1⟩

/-- C18: in every state reachable from `list_create` by the public mutation
operations, `size` is not negative, `first_node` and `last_node` are both null
when `size = 0` and both non-null when `size > 0` (for both lists of the
state). -/
theorem reachable_first_last_null (CAP : Int) (hdr : list_node → List Val) (hCAP : 2 ≤ CAP)
    (s : State) (hs : Reachable CAP hdr s) :
    (0 ≤ s.lst.size ∧
      (s.lst.size = 0 → s.lst.first_node = none ∧ s.lst.last_node = none) ∧
      (0 < s.lst.size → s.lst.first_node ≠ none ∧ s.lst.last_node ≠ none)) ∧
    (0 ≤ s.other.size ∧
      (s.other.size = 0 → s.other.first_node = none ∧ s.other.last_node = none) ∧
      (0 < s.other.size → s.other.first_node ≠ none ∧ s.other.last_node ≠ none)) := by
  obtain ⟨ns, ms, hwf, hwfo, _⟩ := reachable_inv CAP hdr hCAP s hs
  exact ⟨wf_first_last CAP s.heap s.lst ns hwf, wf_first_last CAP s.heap s.other ms hwfo⟩

/-- Witness for C18: the state after three appends with `CAP = 2`. -/
theorem reachable_first_last_null_witness :
    (2 : Int) ≤ 2 ∧ Reachable 2 (fun _ => []) sample_state ∧
    (0 ≤ sample_state.lst.size ∧
      (sample_state.lst.size = 0 →
        sample_state.lst.first_node = none ∧ sample_state.lst.last_node = none) ∧
      (0 < sample_state.lst.size →
        sample_state.lst.first_node ≠ none ∧ sample_state.lst.last_node ≠ none)) :=
  ⟨by decide, sample_reachable,
    (reachable_first_last_null 2 (fun _ => []) (by decide) sample_state sample_reachable).1⟩

/-- C19: in every state reachable from `list_create` by the public mutation
operations the chain is a valid doubly linked sequence: the first node has
`prev = NULL`, the last node has `next = NULL`, every node's successor points
back at it through `prev`, every node's predecessor points at it through `next`,
and following `next` from `first_node` visits the nodes of the chain, ends at
`NULL` after finitely many steps, and the last node visited is `last_node`. -/
theorem reachable_chain_doubly_linked (CAP : Int) (hdr : list_node → List Val)
    (hCAP : 2 ≤ CAP) (s : State) (hs : Reachable CAP hdr s) :
    ∃ ns, Rep s.heap s.lst ns ∧
      (∀ a, s.lst.first_node = some a → ∃ n, s.heap a = some n ∧ n.prev = none) ∧
      (∀ a, s.lst.last_node = some a → ∃ n, s.heap a = some n ∧ n.next = none) ∧
      (∀ a ∈ ns.map ANode.addr, ∃ n, s.heap a = some n ∧
        (∀ x, n.next = some x → ∃ xn, s.heap x = some xn ∧ xn.prev = some a) ∧
        (∀ p, n.prev = some p → ∃ pn, s.heap p = some pn ∧ pn.next = some a)) ∧
      chain_addrs s.heap (ns.length + 1) s.lst.first_node = some (ns.map ANode.addr) ∧
      (ns.map ANode.addr).getLast? = s.lst.last_node := by
  obtain ⟨ns, _, hwf, _, _⟩ := reachable_inv CAP hdr hCAP s hs
  obtain ⟨hnd, hc, hfirst, hlast⟩ := hwf.1
  refine ⟨ns, hwf.1, fun a ha => ?_, fun a ha => ?_,
    fun a ha => rep_links s.heap s.lst ns hwf.1 a ha, ?_, ?_⟩
  · cases ns with
    | nil => rw [hfirst] at ha; simp at ha
    | cons nd R =>
      obtain ⟨e1, e2⟩ := rep_first s.heap s.lst R nd hwf.1
      rw [e1] at ha
      simp only [Option.some.injEq] at ha
      subst ha
      exact ⟨_, e2, rfl⟩
  · rcases List.eq_nil_or_concat ns with hns | ⟨L, nd, hns⟩
    · subst hns; rw [hlast] at ha; simp at ha
    · rw [List.concat_eq_append] at hns
      subst hns
      obtain ⟨e1, e2⟩ := rep_last s.heap s.lst L nd hwf.1
      rw [e1] at ha
      simp only [Option.some.injEq] at ha
      subst ha
      exact ⟨_, e2, rfl⟩
  · rw [hfirst]
    exact chain_addrs_spec s.heap none ns hc
  · rw [hlast]
    exact lastAddr_getLast? ns

/-- Witness for C19: the state after three appends with `CAP = 2`. -/
theorem reachable_chain_doubly_linked_witness :
    (2 : Int) ≤ 2 ∧ Reachable 2 (fun _ => []) sample_state ∧
    ∃ ns, Rep sample_state.heap sample_state.lst ns ∧
      (∀ a, sample_state.lst.first_node = some a →
        ∃ n, sample_state.heap a = some n ∧ n.prev = none) ∧
      (∀ a, sample_state.lst.last_node = some a →
        ∃ n, sample_state.heap a = some n ∧ n.next = none) ∧
      (∀ a ∈ ns.map ANode.addr, ∃ n, sample_state.heap a = some n ∧
        (∀ x, n.next = some x → ∃ xn, sample_state.heap x = some xn ∧ xn.prev = some a) ∧
        (∀ p, n.prev = some p → ∃ pn, sample_state.heap p = some pn ∧ pn.next = some a)) ∧
      chain_addrs sample_state.heap (ns.length + 1) sample_state.lst.first_node =
        some (ns.map ANode.addr) ∧
      (ns.map ANode.addr).getLast? = sample_state.lst.last_node :=
  ⟨by decide, sample_reachable,
    reachable_chain_doubly_linked 2 (fun _ => []) (by decide) sample_state sample_reachable⟩

/-- C14: starting from `list_create`, `N` successful `list_insert_end` calls
followed by `N` `list_remove_end` calls give back the list struct of
`list_create` (`size = 0`, `first_node` and `last_node` null): the chain is
empty and every node the list had has been freed.  In particular this holds for
the loops of test `test_insert_remove_end`, for every `N`. -/
theorem insert_end_remove_end_round_trip (CAP : Int) (calls : List (Val × Option Nat))
    (hCAP : 2 ≤ CAP)
    (hins : (insert_end_all CAP calls emptyHeap list_create).isSome = true) :
    (∃ h lst ns h1, insert_end_all CAP calls emptyHeap list_create = some (h, lst) ∧
      WF CAP h lst ns ∧ lst.size = calls.length ∧ elems ns = calls.map Prod.fst ∧
      remove_end_times calls.length h lst = some (h1, list_create) ∧
      list_create = ⟨0, none, none⟩ ∧ WF CAP h1 list_create [] ∧
      (∀ b ∈ ns.map ANode.addr, h1 b = none) ∧
      (∀ b, b ∉ ns.map ANode.addr → h1 b = h b)) ∧
    (∀ n : Nat, ∃ h lst h1, test_insert_end_iterate CAP n = some (h, lst) ∧ lst.size = n ∧
      remove_end_times n h lst = some (h1, list_create)) := by
  constructor
  · cases hr : insert_end_all CAP calls emptyHeap list_create with
    | none => rw [hr] at hins; simp at hins
    | some p =>
      obtain ⟨h, lst⟩ := p
      obtain ⟨ns, hwf, hsz, hel⟩ := insert_end_all_spec CAP (by omega) calls emptyHeap
        list_create [] h lst (wf_empty CAP) hr
      have hsz1 : lst.size = calls.length := by
        rw [hsz]; simp [list_create]
      obtain ⟨h1, e1, hin, hout⟩ := remove_end_times_spec CAP calls.length h lst ns hwf hsz1
      refine ⟨h, lst, ns, h1, rfl, hwf, hsz1, by simpa using hel, e1, rfl, ?_, hin, hout⟩
      exact ⟨⟨by simp, trivial, rfl, rfl⟩, by simp, rfl⟩
  · intro n
    obtain ⟨h, lst, ns, e, hwf, _, hsz, _, _⟩ := test_insert_end_iterate_spec CAP hCAP n
    obtain ⟨h1, e1, _, _⟩ := remove_end_times_spec CAP n h lst ns hwf hsz
    exact ⟨h, lst, h1, e, hsz, e1⟩

/-- Witness for C14: three appends with `CAP = 2` (two nodes), then three
removals at the end. -/
theorem insert_end_remove_end_round_trip_witness :
    (2 : Int) ≤ 2 ∧
    (insert_end_all 2 [(5, some 0), (6, some 1), (7, some 2)] emptyHeap list_create).isSome
      = true ∧
    ∃ h lst ns h1,
      insert_end_all 2 [(5, some 0), (6, some 1), (7, some 2)] emptyHeap list_create =
        some (h, lst) ∧
      WF 2 h lst ns ∧ lst.size = [(5, some 0), (6, some 1), (7, some 2)].length ∧
      elems ns = [(5, some 0), (6, some 1), (7, some 2)].map Prod.fst ∧
      remove_end_times [(5, some 0), (6, some 1), (7, some 2)].length h lst =
        some (h1, list_create) ∧
      list_create = ⟨0, none, none⟩ ∧ WF 2 h1 list_create [] ∧
      (∀ b ∈ ns.map ANode.addr, h1 b = none) ∧
      (∀ b, b ∉ ns.map ANode.addr → h1 b = h b) :=
  ⟨by decide, by decide,
    (insert_end_remove_end_round_trip 2 [(5, some 0), (6, some 1), (7, some 2)] (by decide)
      (by decide)).1⟩

/-- C15: for two well-formed lists `A` and `B` in one heap, `list_swap` gives `A`
exactly the former size, first node and last node of `B` and `B` those of `A`;
the heap is not touched, so each struct now stands for the other chain and a
traversal yields the other element sequence.  In the scenario of `test_swap`
with sizes 3 and 7 the sizes become 7 and 3 and the sequences are exchanged. -/
theorem list_swap_exchanges (CAP : Int) (hdr : list_node → List Val) (h : Heap) (A B : list)
    (ns ms : List ANode) (hA : WF CAP h A ns) (hB : WF CAP h B ms) :
    (list_swap A B).1 = B ∧ (list_swap A B).2 = A ∧
    WF CAP h (list_swap A B).1 ms ∧ WF CAP h (list_swap A B).2 ns ∧
    chain_elems h (ms.length + 1) (list_swap A B).1.first_node = some (elems ms) ∧
    chain_elems h (ns.length + 1) (list_swap A B).2.first_node = some (elems ns) ∧
    step CAP hdr Op.swap ⟨h, A, B⟩ = some ⟨h, B, A⟩ ∧
    (run 2 (fun _ => []) ops_swap_3_7 init).map (fun s =>
      (s.lst.size, s.other.size, chain_elems s.heap 9 s.lst.first_node,
        chain_elems s.heap 9 s.other.first_node)) =
      some (3, 7, some [0, 1, 2], some [3, 4, 5, 6, 7, 8, 9]) ∧
    (run 2 (fun _ => []) (ops_swap_3_7 ++ [Op.swap]) init).map (fun s =>
      (s.lst.size, s.other.size, chain_elems s.heap 9 s.lst.first_node,
        chain_elems s.heap 9 s.other.first_node)) =
      some (7, 3, some [3, 4, 5, 6, 7, 8, 9], some [0, 1, 2]) := by
  refine ⟨rfl, rfl, hB, hA, ?_, ?_, rfl, by decide!, by decide!⟩
  · show chain_elems h (ms.length + 1) B.first_node = some (elems ms)
    rw [hB.1.2.2.1]
    exact chain_elems_spec h none ms hB.1.2.1
  · show chain_elems h (ns.length + 1) A.first_node = some (elems ns)
    rw [hA.1.2.2.1]
    exact chain_elems_spec h none ns hA.1.2.1

/-- Witness for C15: the one-node list holding 7, 8 and the empty list. -/
theorem list_swap_exchanges_witness :
    WF 2 demo_heap demo_list demo_nodes ∧ WF 2 demo_heap list_create [] ∧
    (list_swap demo_list list_create).1 = list_create ∧
    (list_swap demo_list list_create).2 = demo_list ∧
    chain_elems demo_heap (demo_nodes.length + 1) (list_swap demo_list list_create).2.first_node
      = some (elems demo_nodes) :=
  have hE : WF 2 demo_heap list_create [] := ⟨⟨by simp, trivial, rfl, rfl⟩, by simp, rfl⟩
  have hS := list_swap_exchanges 2 (fun _ => []) demo_heap demo_list list_create demo_nodes []
    demo_wf hE
  ⟨demo_wf, hE, hS.1, hS.2.1, hS.2.2.2.2.2.1⟩

/-- C16: on the end iterator (`node = NULL`) `list_insert_before` is
`list_insert_end`: for every allocation outcome it returns the same result and
the same heap and list struct, and the iterator is still the end iterator. -/
theorem list_insert_before_end_is_insert_end (CAP : Int) (malloc : Heap → Option Nat)
    (h : Heap) (lst : list) (ns : List ANode) (iter : list_iter) (v : Val) (hCAP : 2 ≤ CAP)
    (hwf : WF CAP h lst ns) (hfresh : ∀ a, malloc h = some a → h a = none)
    (hend : iter.node = none) :
    list_insert_before CAP malloc h lst iter v =
      insert_before_end_spec CAP malloc h lst iter v ∧
    ∃ r h1 lst1, list_insert_end CAP malloc h lst v = some (r, h1, lst1) ∧
      list_insert_before CAP malloc h lst iter v = some (r, h1, lst1, iter) ∧
      iter.node = none := by
  obtain ⟨r, h1, lst1, e, _⟩ := list_insert_end_spec CAP malloc h lst ns v (by omega) hwf hfresh
  have e2 : list_insert_before CAP malloc h lst iter v = some (r, h1, lst1, iter) := by
    simp only [list_insert_before, hend, e]
  refine ⟨?_, r, h1, lst1, e, e2, hend⟩
  rw [e2, insert_before_end_spec, e]
  rfl

/-- Witness for C16: the end iterator of the one-node list holding 7, 8, with
an allocator that fails. -/
theorem list_insert_before_end_is_insert_end_witness :
    (2 : Int) ≤ 2 ∧ WF 2 demo_heap demo_list demo_nodes ∧
    (⟨none, 0⟩ : list_iter).node = none ∧
    list_insert_before 2 (fun _ => none) demo_heap demo_list ⟨none, 0⟩ 9 =
      insert_before_end_spec 2 (fun _ => none) demo_heap demo_list ⟨none, 0⟩ 9 :=
  ⟨by decide, demo_wf, rfl,
    (list_insert_before_end_is_insert_end 2 (fun _ => none) demo_heap demo_list demo_nodes
      ⟨none, 0⟩ 9 (by decide) demo_wf (fun a ha => by simp at ha) rfl).1⟩

/-- C20 (violated by the code): with `CAP = 9` and node counts 2, 5, 9 (reached
through the public operations, accepted by `check_list_invariants`), the
iterator at the last slot of the middle node satisfies the iterator invariant
(`check_iter_invariants`), yet `list_remove` on it has no defined result, so no
iterator satisfying the invariant comes back: `rebalance_nodes` computes
`move_2 = 4 - 5 < 0` and passes it to `memmove`. -/
theorem list_remove_loses_iterator_on_2_5_9 :
    (run 9 (fun _ => []) ops_2_5_9 init).map (fun s =>
      (chain_counts s.heap 5 s.lst.first_node,
        check_list_invariants 9 5 s.heap s.lst,
        check_iter_invariants 5 s.heap s.lst ⟨some 50, 4⟩,
        (list_remove 9 (fun _ => []) 5 s.heap s.lst ⟨some 50, 4⟩).map (fun r =>
          check_iter_invariants 5 r.1 r.2.1 r.2.2))) =
      some (some [2, 5, 9], some true, some true, none) := by
  decide!

/-- C28: for `CAP ≥ 2`, a successful `split_node` on a full node with an iterator
at offset `o` in it leaves the node with its first `CAP / 2` elements and links
a new node right after it that holds the remaining `CAP - CAP / 2` elements in
their order; both counts lie strictly between 0 and `CAP`; the iterator moves to
the new node with offset `o - CAP / 2` exactly when `o ≥ CAP / 2` and denotes
the same logical index as before.  With `CAP = 4`, inserting a fifth element
after the second one gives nodes of 3 and 2 elements and the sequence
0, 1, 100, 2, 3. -/
theorem split_node_halves (CAP : Int) (malloc : Heap → Option Nat) (h : Heap) (lst : list)
    (L R : List ANode) (nd : ANode) (iter : list_iter) (a : Nat) (hCAP : 2 ≤ CAP)
    (hrep : Rep h lst (L ++ nd :: R)) (hcount : nd.count = CAP)
    (hlen : (nd.data.length : Int) = CAP) (hit : iter.node = some nd.addr)
    (ho0 : 0 ≤ iter.offset) (ho1 : iter.offset < CAP)
    (hm : malloc h = some a) (hfresh : h a = none) :
    (∃ h1 lst1 iter1 d2, split_node CAP malloc h lst iter = some (1, h1, lst1, iter1) ∧
      Rep h1 lst1 (L ++ ⟨nd.addr, CAP / 2, nd.data⟩ :: ⟨a, CAP - CAP / 2, d2⟩ :: R) ∧
      d2.take (CAP - CAP / 2).toNat = nd.data.drop (CAP / 2).toNat ∧
      elems (L ++ ⟨nd.addr, CAP / 2, nd.data⟩ :: ⟨a, CAP - CAP / 2, d2⟩ :: R) =
        elems (L ++ nd :: R) ∧
      1 ≤ CAP / 2 ∧ CAP / 2 < CAP ∧ 1 ≤ CAP - CAP / 2 ∧ CAP - CAP / 2 < CAP ∧
      (iter.offset ≥ CAP / 2 → iter1 = ⟨some a, iter.offset - CAP / 2⟩) ∧
      (iter.offset < CAP / 2 → iter1 = iter) ∧
      iter_index (L ++ ⟨nd.addr, CAP / 2, nd.data⟩ :: ⟨a, CAP - CAP / 2, d2⟩ :: R) iter1 =
        iter_index (L ++ nd :: R) iter) ∧
    (run 4 (fun _ => []) (fill_ops 4 ++ [Op.insert_after ⟨some 0, 1⟩ 100 (some 50) 5]) init).map
      (fun s => (chain_counts s.heap 5 s.lst.first_node,
        chain_elems s.heap 5 s.lst.first_node)) =
      some (some [3, 2], some [0, 1, 100, 2, 3]) := by
  refine ⟨?_, by decide!⟩
  obtain ⟨C, hC⟩ := Int.eq_ofNat_of_zero_le (show 0 ≤ CAP by omega)
  have hlenC : nd.data.length = C := by omega
  obtain ⟨h1, lst1, e1, hrep1, _, _⟩ := split_node_spec CAP malloc h lst L R nd iter a C hrep hit
    (by rw [hcount, hC]) hlenC (by rw [hC]) hm hfresh
  have hsd := split_data_take CAP nd.data (C / 2) C hlenC
  have hk : ((C / 2 : Nat) : Int) = CAP / 2 := by omega
  have hck : ((C - C / 2 : Nat) : Int) = CAP - CAP / 2 := by omega
  have ht1 : (CAP / 2).toNat = C / 2 := by omega
  have ht2 : (CAP - CAP / 2).toNat = C - C / 2 := by omega
  have htc : nd.count.toNat = C := by omega
  rw [hk, hck] at hrep1
  rw [hk] at e1
  generalize split_data CAP nd.data (C / 2) C = d2 at e1 hrep1 hsd
  have hold := iter_index_intro L R nd iter hrep.1 hit ho0 (by omega)
  have hel : elems (L ++ ⟨nd.addr, CAP / 2, nd.data⟩ :: ⟨a, CAP - CAP / 2, d2⟩ :: R) =
      elems (L ++ nd :: R) := by
    simp only [elems_append, elems_cons, ht1, ht2, htc, hsd]
    rw [← List.append_assoc (nd.data.take (C / 2)), List.take_append_drop,
      List.take_of_length_le (by omega)]
  by_cases hlow : iter.offset ≥ CAP / 2
  · rw [if_pos hlow] at e1
    refine ⟨h1, lst1, _, d2, e1, hrep1, by rw [ht1, ht2]; exact hsd, hel, by omega, by omega,
      by omega, by omega, fun _ => rfl, fun hlt => absurd hlow (by omega), ?_⟩
    have hrep1b : Rep h1 lst1 ((L ++ [⟨nd.addr, CAP / 2, nd.data⟩]) ++
        ⟨a, CAP - CAP / 2, d2⟩ :: R) := by simpa using hrep1
    have hnew := iter_index_intro (L ++ [⟨nd.addr, CAP / 2, nd.data⟩]) R
      ⟨a, CAP - CAP / 2, d2⟩ ⟨some a, iter.offset - CAP / 2⟩ hrep1b.1 rfl
      (by simp only; omega) (by simp only; omega)
    simp only [List.append_assoc, List.cons_append, List.nil_append] at hnew
    rw [hnew, hold]
    simp only [elems_append, elems_cons, elems_nil, List.append_nil, List.length_append,
      List.length_take, Option.some.injEq]
    omega
  · rw [if_neg hlow] at e1
    refine ⟨h1, lst1, iter, d2, e1, hrep1, by rw [ht1, ht2]; exact hsd, hel, by omega, by omega,
      by omega, by omega, fun hge => absurd hge hlow, fun _ => rfl, ?_⟩
    have hnew := iter_index_intro L (⟨a, CAP - CAP / 2, d2⟩ :: R)
      ⟨nd.addr, CAP / 2, nd.data⟩ iter hrep1.1 hit ho0 (by simp only; omega)
    rw [hnew, hold]

/-- Witness for C28: the full node 7, 8 with `CAP = 2`, iterator at its second
slot. -/
theorem split_node_halves_witness :
    (2 : Int) ≤ 2 ∧ Rep demo_heap demo_list ([] ++ (⟨0, 2, [7, 8]⟩ : ANode) :: []) ∧
    ∃ h1 lst1 iter1 d2, split_node 2 (fun _ => some 1) demo_heap demo_list ⟨some 0, 1⟩ =
        some (1, h1, lst1, iter1) ∧
      Rep h1 lst1 ([] ++ ⟨0, 2 / 2, [7, 8]⟩ :: ⟨1, 2 - 2 / 2, d2⟩ :: []) ∧
      d2.take ((2 : Int) - 2 / 2).toNat = ([7, 8] : List Val).drop ((2 : Int) / 2).toNat ∧
      iter1 = ⟨some 1, 1 - 2 / 2⟩ :=
  have hS := (split_node_halves 2 (fun _ => some 1) demo_heap demo_list [] [] ⟨0, 2, [7, 8]⟩
    ⟨some 0, 1⟩ 1 (by decide) demo_wf.1 rfl rfl rfl (by decide) (by decide) rfl
    (demo_fresh 1 (by decide) 1 rfl)).1
  ⟨by decide, demo_wf.1,
    match hS with
    | ⟨h1, lst1, iter1, d2, e, hrep, hd, _, _, _, _, _, hge, _, _⟩ =>
      ⟨h1, lst1, iter1, d2, e, hrep, hd, hge (by decide)⟩⟩

/-- C29: when `rebalance_nodes` runs on a node with a predecessor and a successor
and the three counts sum to at most `CAP`, it returns; the centre node's live
slots are the predecessor's elements, then its own, then the successor's, each
group in order, and its count is the sum; predecessor and successor are
unlinked and freed (the chain has two nodes fewer, the element sequence is the
same); the iterator's offset has grown by the predecessor's count.  With
`CAP = 4` and counts 2, 1, 2, removing the middle element leaves one node. -/
theorem rebalance_nodes_merges_three (CAP : Int) (hdr : list_node → List Val) (fuel : Nat)
    (h : Heap) (lst : list) (L R : List ANode) (pd nd xd : ANode) (iter : list_iter)
    (hrep : Rep h lst (L ++ pd :: nd :: xd :: R)) (hpd : Good CAP pd) (hxd : Good CAP xd)
    (hc0 : 0 ≤ nd.count) (hlen : (nd.data.length : Int) = CAP)
    (hit : iter.node = some nd.addr) (hsum : pd.count + nd.count + xd.count ≤ CAP) :
    (∃ h2 lst2 d3, rebalance_nodes CAP hdr fuel h lst iter =
        some (h2, lst2, ⟨some nd.addr, iter.offset + pd.count⟩) ∧
      Rep h2 lst2 (L ++ ⟨nd.addr, pd.count + nd.count + xd.count, d3⟩ :: R) ∧
      d3.take (pd.count + nd.count + xd.count).toNat =
        pd.data.take pd.count.toNat ++ (nd.data.take nd.count.toNat ++
          xd.data.take xd.count.toNat) ∧
      elems (L ++ ⟨nd.addr, pd.count + nd.count + xd.count, d3⟩ :: R) =
        elems (L ++ pd :: nd :: xd :: R) ∧
      (L ++ ⟨nd.addr, pd.count + nd.count + xd.count, d3⟩ :: R).length + 2 =
        (L ++ pd :: nd :: xd :: R).length ∧
      h2 pd.addr = none ∧ h2 xd.addr = none ∧ lst2.size = lst.size) ∧
    (run 4 (fun _ => []) ops_2_1_2 init).map (fun s =>
      (chain_counts s.heap 5 s.lst.first_node, chain_elems s.heap 5 s.lst.first_node)) =
      some (some [2, 1, 2], some [2, 3, 7, 8, 9]) ∧
    (run 4 (fun _ => []) ops_2_1_2 init).bind (fun s =>
      (list_remove 4 (fun _ => []) 5 s.heap s.lst ⟨some 4, 0⟩).map (fun r =>
        (chain_counts r.1 5 r.2.1.first_node, chain_elems r.1 5 r.2.1.first_node,
          r.2.2.node, r.2.2.offset))) =
      some (some [4], some [2, 3, 8, 9], some 4, 2) := by
  refine ⟨?_, by decide!, by decide!⟩
  obtain ⟨lp, la, lx⟩ := rep_lookup3 h lst L R pd nd xd hrep
  obtain ⟨h2, lst2, d3, e, hrep2, _, hd3, hsz, hfp, hfx, _⟩ :=
    rebalance_merge_spec CAP h lst L R pd nd xd iter hrep hpd hxd hc0 hlen (by omega)
  have hs : xd.count + nd.count + pd.count = pd.count + nd.count + xd.count := by ring
  rw [hs] at hrep2
  obtain ⟨hp1, _, _⟩ := hpd
  obtain ⟨hx1, _, _⟩ := hxd
  have ht : (pd.count + nd.count + xd.count).toNat =
      pd.count.toNat + nd.count.toNat + xd.count.toNat := by omega
  refine ⟨h2, lst2, d3, ?_, hrep2, by rw [ht]; exact hd3, ?_, ?_, hfp, hfx, hsz⟩
  · obtain ⟨inode, ioff⟩ := iter
    simp only at hit
    subst hit
    simp only [rebalance_nodes, la, lx, lp]
    rw [if_neg (by simp), if_pos (by omega)]
    exact e
  · simp only [elems_append, elems_cons, ht, hd3, List.append_assoc]
  · simp only [List.length_append, List.length_cons]
    omega

/-- Witness for C29: the three nodes of `merge_heap` (counts 2, 0, 2, `CAP = 4`),
iterator at slot 0 of the middle node. -/
theorem rebalance_nodes_merges_three_witness :
    Rep merge_heap merge_list
      ([] ++ (⟨0, 2, [1, 2, 0, 0]⟩ : ANode) :: ⟨1, 0, [3, 0, 0, 0]⟩ ::
        ⟨2, 2, [4, 5, 0, 0]⟩ :: []) ∧
    ((2 : Int) + 0 + 2 ≤ 4) ∧
    ∃ h2 lst2 d3, rebalance_nodes 4 (fun _ => []) 5 merge_heap merge_list ⟨some 1, 0⟩ =
        some (h2, lst2, ⟨some 1, 0 + 2⟩) ∧
      Rep h2 lst2 ([] ++ ⟨1, 2 + 0 + 2, d3⟩ :: []) ∧
      d3.take ((2 : Int) + 0 + 2).toNat = [1, 2] ++ ([] ++ [4, 5]) ∧
      h2 0 = none ∧ h2 2 = none :=
  have hS := (rebalance_nodes_merges_three 4 (fun _ => []) 5 merge_heap merge_list [] []
    ⟨0, 2, [1, 2, 0, 0]⟩ ⟨1, 0, [3, 0, 0, 0]⟩ ⟨2, 2, [4, 5, 0, 0]⟩ ⟨some 1, 0⟩ merge_rep
    ⟨by decide, by decide, by decide⟩ ⟨by decide, by decide, by decide⟩ (by decide) (by decide)
    rfl (by decide)).1
  ⟨merge_rep, by decide,
    match hS with
    | ⟨h2, lst2, d3, e, hrep, hd, _, _, hp, hx, _⟩ => ⟨h2, lst2, d3, e, hrep, hd, hp, hx⟩⟩

/-- C30 (violated by the code): with `CAP = 9`, `list_remove` at the third slot
of the middle node of the reachable list with counts 1, 5, 9 calls
`rebalance_nodes` on counts 1, 4, 9 (sum 14, between `CAP` and `2 * CAP`).  The
claim promises counts 7 and 7 with the successor unlinked; the call has no
defined result (`move_1 = 6`, `move_2 = 4 - 6 < 0` goes to `memmove`). -/
theorem rebalance_nodes_undefined_on_1_4_9 :
    (run 9 (fun _ => []) ops_1_5_9 init).bind (fun s =>
      (list_remove_shift s.heap s.lst ⟨some 50, 2⟩).map (fun p =>
        (chain_counts p.1 5 p.2.first_node,
          (rebalance_nodes 9 (fun _ => []) 5 p.1 p.2 ⟨some 50, 2⟩).isSome))) =
      some (some [1, 4, 9], false) := by
  decide!

/-- C25 (as stated, refuted): the full array 7, 8 of `int` elements passes the
checker, and `dynamic_array_resize (a, 1500000000)` has no defined result: the
quotient `1500000000 / 0.6 = 2500000000` is not an `int` value, so the conversion
`(int)` is undefined.  For the requested size 400000000 the new capacity
666666667 is an `int` value but the byte count `4 * 666666667` overflows. -/
theorem resize_overflows_int :
    check_dynamic_array_invariants demo_array = true ∧
    size_after_expansion 1500000000 = none ∧
    dynamic_array_resize_func (realloc_of (some [])) demo_array sizeof_int 1500000000 = none ∧
    size_after_expansion 400000000 = some 666666666 ∧
    as_int (sizeof_int * (1 + 666666666)) = none ∧
    dynamic_array_resize_func (realloc_of (some [])) demo_array sizeof_int 400000000 = none := by
  decide!

/-- C25 as amended: on an array with `0 ≤ size ≤ capacity` and for a requested
size `s ≥ 0` such that, when `s` exceeds the capacity, the byte count
`element_size * (1 + s * 5 / 3)` of the new block is an `int` value,
`dynamic_array_resize` returns 1 or 0.  When it returns nonzero,
`size = s ≤ capacity`, the array passes `check_dynamic_array_invariants`, and the
elements at indices below both the old size and `s` are unchanged.  It returns
zero only when it attempted a reallocation and that failed, and then the array
(size, capacity and contents) is unchanged. -/
theorem dynamic_array_resize_sets_size (realloc : Realloc) (a : dynamic_array)
    (element_size s : Int) (hre : ReallocOK realloc) (hok : DA_ok element_size a)
    (hs : 0 ≤ s) (hfit : a.capacity < s → element_size * (1 + s * 5 / 3) ≤ INT_MAX) :
    ∃ r a1, dynamic_array_resize_func realloc a element_size s = some (r, a1) ∧
      (r = 1 ∨ r = 0) ∧
      (r ≠ 0 → a1.size = s ∧ s ≤ a1.capacity ∧ DA_ok element_size a1 ∧
        check_dynamic_array_invariants a1 = true ∧
        ∀ i : Int, 0 ≤ i → i < a.size → i < s → IDX a1 i = IDX a i) ∧
      (r = 0 → a1 = a ∧ (s < minimum_load_size a.capacity ∨ s > a.capacity) ∧
        ∃ c, realloc a.data c = none) := by
  obtain ⟨sz, cap, dat⟩ := a
  obtain ⟨h0, h1, hes, hcap, blk, hd, hl⟩ := hok
  simp only at h0 h1 hd hl hcap hfit
  subst hd
  rcases resize_spec realloc hre sz cap blk hl element_size s hs hes hcap hfit with
    ⟨e, hc, c0, _, hn⟩ | ⟨c, blk1, e, hsc, hl1, _, hcc, hpre⟩
  · exact ⟨0, _, e, Or.inr rfl, fun hne => absurd rfl hne, fun _ => ⟨rfl, hc, c0, hn⟩⟩
  · refine ⟨1, _, e, Or.inl rfl, fun _ => ⟨rfl, hsc, ⟨hs, hsc, hes, hcc, blk1, rfl, hl1⟩,
      check_ok _ _ _ hs hsc, ?_⟩, fun h => absurd h (by decide)⟩
    intro i hi0 hi1 hi2
    simp only at hi1
    simp only [IDX, if_pos (And.intro hi0 hi1), if_pos (And.intro hi0 hi2)]
    exact hpre i.toNat (by omega) (by omega)

/-- Witness for the amended C25: the full array 7, 8 resized to three
elements. -/
theorem dynamic_array_resize_sets_size_witness :
    ReallocOK (realloc_of (some [])) ∧ DA_ok sizeof_int demo_array ∧ (0 : Int) ≤ 3 ∧
    (demo_array.capacity < 3 → sizeof_int * (1 + 3 * 5 / 3) ≤ INT_MAX) ∧
    ∃ r a1, dynamic_array_resize_func (realloc_of (some [])) demo_array sizeof_int 3 =
        some (r, a1) ∧
      (r = 1 ∨ r = 0) ∧
      (r ≠ 0 → a1.size = 3 ∧ 3 ≤ a1.capacity ∧ DA_ok sizeof_int a1 ∧
        check_dynamic_array_invariants a1 = true ∧
        ∀ i : Int, 0 ≤ i → i < demo_array.size → i < 3 → IDX a1 i = IDX demo_array i) ∧
      (r = 0 → a1 = demo_array ∧
        (3 < minimum_load_size demo_array.capacity ∨ 3 > demo_array.capacity) ∧
        ∃ c, realloc_of (some []) demo_array.data c = none) :=
  ⟨realloc_of_ok _, demo_array_ok, by decide, fun _ => by decide!,
    dynamic_array_resize_sets_size (realloc_of (some [])) demo_array sizeof_int 3
      (realloc_of_ok _) demo_array_ok (by decide) (fun _ => by decide!)⟩

/-- C27 (violated by the code): an array created with 4 `int` elements passes
the checker after each of three `dynamic_array_remove_end` calls and ends with
size 1 and capacity 4, so `5 * size < 2 * capacity`: the load 0.25 is below
`DYNAMIC_ARRAY_MINIMUM_LOAD`.  The resize compares the size with the truncated
`(int)(4 * 0.4) = 1`, and `1 < 1` does not shrink.  An array created with 9
elements ends after six such calls with size 3 and capacity 9
(`(int)(9 * 0.4) = 3`). -/
theorem load_below_minimum :
    minimum_load_size 4 = 1 ∧
    ((dynamic_array_create_func (realloc_of (some []) none) sizeof_int 4).bind
      (da_run sizeof_int (List.replicate 3 (DAOp.remove_end (some []))))).map (fun a =>
        (a.size, a.capacity, check_dynamic_array_invariants a,
          decide (5 * a.size ≥ 2 * a.capacity))) = some (1, 4, true, false) ∧
    minimum_load_size 9 = 3 ∧
    ((dynamic_array_create_func (realloc_of (some []) none) sizeof_int 9).bind
      (da_run sizeof_int (List.replicate 6 (DAOp.remove_end (some []))))).map (fun a =>
        (a.size, a.capacity, check_dynamic_array_invariants a,
          decide (5 * a.size ≥ 2 * a.capacity))) = some (3, 9, true, false) := by
  decide!

/-- C23 (violated by the code): on the reachable array of size 2 and capacity 5
holding 10, 11, `dynamic_array_remove_at (a, 0)` with a failing reallocation
moves 11 down but leaves `size = 2` (contents 11, 11): the result of
`dynamic_array_resize_func` is not looked at.  With a reallocation that succeeds
the size is 1 and the contents are 11. -/
theorem remove_range_keeps_size_when_realloc_fails :
    da_2_of_5.map (fun a => (a.size, a.capacity, check_dynamic_array_invariants a,
      contents a)) = some (2, 5, true, [10, 11]) ∧
    da_2_of_5.bind (fun a =>
      (dynamic_array_remove_range_func (realloc_of none) a sizeof_int 0 1).map
        (fun b => (b.size, contents b))) = some (2, [11, 11]) ∧
    da_2_of_5.bind (fun a =>
      (dynamic_array_remove_range_func (realloc_of (some [])) a sizeof_int 0 1).map
        (fun b => (b.size, contents b))) = some (1, [11]) := by
  decide!

/-- C24 (violated by the code): on the reachable array of size 2 and capacity 5,
`dynamic_array_insert_range (a, 0, 2)` resizes to 4 without reallocating and then
moves `size - index_start = 4` elements (the new size, not the old one) to index
2: the `memmove` runs past the block of 5 slots and the call has no defined
result.  The same happens after a reallocation: a range of 4 inserted into the
empty array made by `dynamic_array_create (int, 0)` gets capacity 7 and moves 4
elements to index 4. -/
theorem insert_range_overruns_block :
    da_2_of_5.bind (fun a =>
      (dynamic_array_resize_func (realloc_of (some [])) a sizeof_int 4).map (fun r =>
        (a.size, a.capacity, check_dynamic_array_invariants a, r.1, r.2.capacity,
          (dynamic_array_insert_range_func (realloc_of (some [])) a sizeof_int 0 2).isSome))) =
      some (2, 5, true, 1, 5, false) ∧
    (dynamic_array_create_func (realloc_of (some []) none) sizeof_int 0).bind (fun a =>
      (dynamic_array_resize_func (realloc_of (some [])) a sizeof_int 4).map (fun r =>
        (r.1, r.2.capacity,
          (dynamic_array_insert_range_func (realloc_of (some [])) a sizeof_int 0 4).isSome))) =
      some (1, 7, false) := by
  decide!

/-- C26 (violated by the code): on the reachable array of size 2 and capacity 5,
`dynamic_array_remove_end` attempts a shrinking reallocation (`1 < (int)(5 * 0.4)`);
when that fails the size is still 2, not 1: the result of
`dynamic_array_resize_func` is not looked at.  When it succeeds the size is 1. -/
theorem remove_end_keeps_size_when_realloc_fails :
    da_2_of_5.map (fun a => (a.size, a.capacity, check_dynamic_array_invariants a,
      (dynamic_array_remove_end_func (realloc_of none) a sizeof_int).map (fun b => b.size),
      (dynamic_array_remove_end_func (realloc_of (some [])) a sizeof_int).map
        (fun b => b.size))) =
      some (2, 5, true, some 2, some 1) := by
  decide!

/-- C34: on a valid chain with non-negative counts, for an iterator whose node
is in the chain and whose global position `g` (the counts of the nodes before
its node, plus its offset) satisfies `0 ≤ g ≤ size`, `fixup_iter_node` terminates
(any fuel above the number of nodes suffices) and the result is canonical with
the same global position: (null, 0) when `g = size`, and otherwise a node of the
chain with `0 ≤ offset < count` and the counts before it plus the offset equal
to `g`. -/
theorem fixup_iter_node_canonical (fuel : Nat) (h : Heap) (lst : list) (L R : List ANode)
    (nd : ANode) (iter : list_iter) (hrep : Rep h lst (L ++ nd :: R))
    (hcnt : ∀ n ∈ L ++ nd :: R, 0 ≤ n.count) (hsz : lst.size = count_sum (L ++ nd :: R))
    (hit : iter.node = some nd.addr) (hg0 : 0 ≤ count_sum L + iter.offset)
    (hg1 : count_sum L + iter.offset ≤ lst.size) (hfuel : (L ++ nd :: R).length < fuel) :
    ∃ it, fixup_iter_node fuel h lst iter = some it ∧
      (count_sum L + iter.offset = lst.size → it = ⟨none, 0⟩) ∧
      (count_sum L + iter.offset < lst.size →
        ∃ A nd1 B, L ++ nd :: R = A ++ nd1 :: B ∧ it.node = some nd1.addr ∧
          0 ≤ it.offset ∧ it.offset < nd1.count ∧
          count_sum A + it.offset = count_sum L + iter.offset) := by
  obtain ⟨inode, o⟩ := iter
  simp only at hit hg0 hg1 ⊢
  subst hit
  rw [hsz] at hg1 ⊢
  simp only [count_sum_append] at hg1
  have hlen : L.length < fuel ∧ (nd :: R).length < fuel := by
    simp only [List.length_append] at hfuel
    omega
  have hnd0 := hcnt nd (by simp)
  by_cases hneg : o < 0
  · have la := rep_lookup h lst L R nd hrep
    obtain ⟨f, hf⟩ : ∃ f, fuel = f + 1 := ⟨fuel - 1, by omega⟩
    have efw : fixup_forward h fuel ⟨some nd.addr, o⟩ = some ⟨some nd.addr, o⟩ := by
      rw [hf]
      simp only [fixup_forward, la]
      rw [if_neg (by omega)]
    obtain ⟨it, e, A, nd1, B, hdec, h2, h3, h4, h5⟩ :=
      fixup_backward_spec h lst L nd R o fuel hrep (by omega) hg0 hlen.1
    refine ⟨it, by simp only [fixup_iter_node, efw, e], fun heq => ?_, fun _ =>
      ⟨A, nd1, B, hdec, h2, h3, h4, h5⟩⟩
    have := count_sum_nonneg (nd :: R) (fun n hn => hcnt n (by
      simp only [List.mem_append]; exact Or.inr hn))
    simp only [count_sum_append] at heq
    omega
  · obtain ⟨_, hnode, hcR⟩ := chain_split h L R nd hrep.2.1
    have hcS : Chain h (lastAddr none L) (nd :: R) none := by
      rw [chain_cons]; exact ⟨hnode, hcR⟩
    obtain ⟨it, e, hres⟩ := fixup_forward_spec h (nd :: R) (lastAddr none L) o fuel hcS
      (fun n hn => hcnt n (by simp only [List.mem_append]; exact Or.inr hn)) (by omega)
      (by omega) hlen.2
    simp only [headAddr_cons] at e
    obtain ⟨f, hf⟩ : ∃ f, fuel = f + 1 := ⟨fuel - 1, by omega⟩
    rcases hres with ⟨h1, h2⟩ | ⟨h1, A, nd1, B, hS, h2, h3, h4, h5⟩
    · subst h2
      refine ⟨⟨none, 0⟩, ?_, fun _ => rfl, fun hlt => ?_⟩
      · simp only [fixup_iter_node, e]
        rw [hf]
        simp only [fixup_backward]
        rw [if_neg (by simp)]
      · simp only [count_sum_append] at hlt
        omega
    · refine ⟨it, ?_, fun heq => ?_, fun _ => ⟨L ++ A, nd1, B, by rw [hS]; simp, h2, h3, h4, ?_⟩⟩
      · simp only [fixup_iter_node, e]
        rw [hf]
        simp only [fixup_backward]
        rw [if_neg (by omega)]
      · simp only [count_sum_append] at heq
        omega
      · simp only [count_sum_append]
        omega

/-- Witness for C34: the chain of `merge_heap` (counts 2, 0, 2), iterator at slot
0 of the empty middle node (global position 2). -/
theorem fixup_iter_node_canonical_witness :
    Rep merge_heap merge_list
      ([(⟨0, 2, [1, 2, 0, 0]⟩ : ANode)] ++ ⟨1, 0, [3, 0, 0, 0]⟩ :: [⟨2, 2, [4, 5, 0, 0]⟩]) ∧
    (0 : Int) ≤ count_sum [(⟨0, 2, [1, 2, 0, 0]⟩ : ANode)] + 0 ∧
    count_sum [(⟨0, 2, [1, 2, 0, 0]⟩ : ANode)] + 0 ≤ merge_list.size ∧
    ∃ it, fixup_iter_node 4 merge_heap merge_list ⟨some 1, 0⟩ = some it ∧
      (count_sum [(⟨0, 2, [1, 2, 0, 0]⟩ : ANode)] + 0 = merge_list.size → it = ⟨none, 0⟩) ∧
      (count_sum [(⟨0, 2, [1, 2, 0, 0]⟩ : ANode)] + 0 < merge_list.size →
        ∃ A nd1 B, [(⟨0, 2, [1, 2, 0, 0]⟩ : ANode)] ++ ⟨1, 0, [3, 0, 0, 0]⟩ ::
            [⟨2, 2, [4, 5, 0, 0]⟩] = A ++ nd1 :: B ∧ it.node = some nd1.addr ∧
          0 ≤ it.offset ∧ it.offset < nd1.count ∧
          count_sum A + it.offset = count_sum [(⟨0, 2, [1, 2, 0, 0]⟩ : ANode)] + 0) :=
  ⟨merge_rep, by decide, by decide,
    fixup_iter_node_canonical 4 merge_heap merge_list [⟨0, 2, [1, 2, 0, 0]⟩]
      [⟨2, 2, [4, 5, 0, 0]⟩] ⟨1, 0, [3, 0, 0, 0]⟩ ⟨some 1, 0⟩ merge_rep
      (by decide) (by decide) rfl (by decide) (by decide) (by decide)⟩

/-- C33: for `CAP ≥ 2`, whenever `rebalance_nodes` merges or redistributes (it runs on a node
with both neighbours and returns), every count it has assigned is at most `CAP`:
after the one-node merge (guard `s ≤ CAP`) the centre node's count is the sum
`s`; after the two-node redistribution (guard `(s + 1) / 2 ≤ CAP`) the
predecessor's count is `s / 2` and the centre node's is `(s + 1) / 2`, both at
most `CAP`; with `s > 2 * CAP` nothing is assigned. -/
theorem rebalance_counts_within_capacity (CAP : Int) (hdr : list_node → List Val) (fuel : Nat)
    (h : Heap) (lst : list) (L R : List ANode) (pd nd xd : ANode) (iter : list_iter)
    (hCAP : 2 ≤ CAP) (hrep : Rep h lst (L ++ pd :: nd :: xd :: R))
    (hit : iter.node = some nd.addr)
    (hsome : (rebalance_nodes CAP hdr fuel h lst iter).isSome = true) :
    ∃ h2 lst2 iter2, rebalance_nodes CAP hdr fuel h lst iter = some (h2, lst2, iter2) ∧
      (pd.count + nd.count + xd.count ≤ CAP →
        ∃ n, h2 nd.addr = some n ∧ n.count = pd.count + nd.count + xd.count ∧ n.count ≤ CAP) ∧
      (CAP < pd.count + nd.count + xd.count → pd.count + nd.count + xd.count ≤ 2 * CAP →
        ∃ n1 n2, h2 pd.addr = some n1 ∧ h2 nd.addr = some n2 ∧
          n1.count = (pd.count + nd.count + xd.count) / 2 ∧
          n2.count = (pd.count + nd.count + xd.count + 1) / 2 ∧
          n1.count ≤ CAP ∧ n2.count ≤ CAP) ∧
      (2 * CAP < pd.count + nd.count + xd.count → h2 = h ∧ lst2 = lst ∧ iter2 = iter) := by
  cases hr : rebalance_nodes CAP hdr fuel h lst iter with
  | none => rw [hr] at hsome; simp at hsome
  | some res =>
  obtain ⟨h2, lst2, iter2⟩ := res
  refine ⟨h2, lst2, iter2, rfl, ?_⟩
  obtain ⟨lp, la, lx⟩ := rep_lookup3 h lst L R pd nd xd hrep
  have hs : xd.count + nd.count + pd.count = pd.count + nd.count + xd.count := by ring
  simp only [rebalance_nodes, hit, la, lx, lp] at hr
  rw [if_neg (by simp), hs] at hr
  by_cases h1 : pd.count + nd.count + xd.count ≤ CAP
  · rw [if_pos h1] at hr
    obtain ⟨d3, _, hrep2, _, _⟩ := rebalance_merge_inv h lst L R pd nd xd iter iter2 h2 lst2 hrep hr
    rw [hs] at hrep2
    have l2 := rep_lookup h2 lst2 L R _ hrep2
    exact ⟨fun _ => ⟨_, l2, rfl, h1⟩, fun hlt => absurd h1 (by omega), fun hlt =>
      absurd h1 (by omega)⟩
  · rw [if_neg h1] at hr
    by_cases h2c : (pd.count + nd.count + xd.count + 1) / 2 ≤ CAP
    · rw [if_pos h2c] at hr
      obtain ⟨d1, d3, _, _, hrep2, _, _⟩ :=
        rebalance_two_inv hdr h lst L R pd nd xd iter iter2 h2 lst2 hrep hr
      rw [hs] at hrep2
      have l1 := rep_lookup h2 lst2 L _ _ hrep2
      have hrep2b : Rep h2 lst2 ((L ++ [⟨pd.addr, (pd.count + nd.count + xd.count) / 2, d1⟩]) ++
          ⟨nd.addr, (pd.count + nd.count + xd.count + 1) / 2, d3⟩ :: R) := by
        simpa using hrep2
      have l2 := rep_lookup h2 lst2 _ R _ hrep2b
      exact ⟨fun hle => absurd hle h1, fun _ _ => ⟨_, _, l1, l2, rfl, rfl, by
        show (pd.count + nd.count + xd.count) / 2 ≤ CAP
        omega, h2c⟩, fun hlt => absurd h2c (by omega)⟩
    · rw [if_neg h2c] at hr
      simp only [Option.some.injEq, Prod.mk.injEq] at hr
      obtain ⟨e1, e2, e3⟩ := hr
      exact ⟨fun hle => absurd hle h1, fun _ hle => absurd h2c (by
        intro hn; apply hn; omega), fun _ => ⟨e1.symm, e2.symm, e3.symm⟩⟩

/-- Witness for C33: the merge on the chain of `merge_heap`. -/
theorem rebalance_counts_within_capacity_witness :
    (2 : Int) ≤ 4 ∧ Rep merge_heap merge_list
      ([] ++ (⟨0, 2, [1, 2, 0, 0]⟩ : ANode) :: ⟨1, 0, [3, 0, 0, 0]⟩ ::
        ⟨2, 2, [4, 5, 0, 0]⟩ :: []) ∧
    (rebalance_nodes 4 (fun _ => []) 5 merge_heap merge_list ⟨some 1, 0⟩).isSome = true ∧
    ∃ h2 lst2 iter2, rebalance_nodes 4 (fun _ => []) 5 merge_heap merge_list ⟨some 1, 0⟩ =
        some (h2, lst2, iter2) ∧
      ((2 : Int) + 0 + 2 ≤ 4 → ∃ n, h2 1 = some n ∧ n.count = 2 + 0 + 2 ∧ n.count ≤ 4) :=
  have hS := rebalance_counts_within_capacity 4 (fun _ => []) 5 merge_heap merge_list [] []
    ⟨0, 2, [1, 2, 0, 0]⟩ ⟨1, 0, [3, 0, 0, 0]⟩ ⟨2, 2, [4, 5, 0, 0]⟩ ⟨some 1, 0⟩ (by decide)
    merge_rep rfl (by decide)
  ⟨by decide, merge_rep, by decide,
    match hS with
    | ⟨h2, lst2, iter2, e, hm, _, _⟩ => ⟨h2, lst2, iter2, e, hm⟩⟩

/-- C32 (violated by the code): in the claim's own example (`CAP = 9`, first node
with 1 element, centre node dropping from 5 to 4, successor with 9) the first
part of the two-node branch computes `move_1 = 7 - 1 = 6`, more than the 4
elements the centre node holds, and `move_2 = 4 - 6 = -2`; `rebalance_two` has
no defined result. -/
theorem move_2_negative_on_1_4_9 :
    (run 9 (fun _ => []) ops_1_5_9 init).bind (fun s =>
      (list_remove_shift s.heap s.lst ⟨some 50, 4⟩).map (fun p =>
        (chain_counts p.1 5 p.2.first_node, rebalance_moves p.1 50,
          (rebalance_two (fun _ => []) p.1 p.2 ⟨some 50, 4⟩ 50).isSome))) =
      some (some [1, 4, 9], some (6, -2), false) := by
  decide!

/-- C35 (violated by the code): on the reachable array of size 2 and capacity 5
holding 10, 11 (slots 10 .. 14), the successful call
`dynamic_array_insert_range (a, 0, 1)` moves `size - index_start = 3` elements
(the size already raised to 3), not `n - index_start = 2`: it reads slot 2, which
is not below the old size 2, and writes slot 3, which is not below the new size
3 (slot 3 changes from 13 to 12). -/
theorem insert_range_moves_too_many :
    da_2_of_5.map (fun a => (a.size, a.capacity, a.data)) =
      some (2, 5, some [10, 11, 12, 13, 14]) ∧
    da_2_of_5.bind (fun a =>
      (dynamic_array_resize_func (realloc_of (some [])) a sizeof_int (a.size + 1)).map
        (fun r => insert_range_memmove r.2 0 1)) = some (1, 0, 3) ∧
    da_2_of_5.bind (fun a =>
      (dynamic_array_insert_range_func (realloc_of (some [])) a sizeof_int 0 1).map (fun q =>
        (q.1, q.2.size, q.2.capacity, q.2.data))) =
      some (1, 3, 5, some [10, 10, 11, 12, 14]) := by
  decide!

/-- C36 (violated by the code): `dllist_remove_beginning` on the one-element list
frees the node, sets `first_node` to null and leaves `last_node` pointing at the
freed node, so the list is not that of `dllist_create ()` (`dllist_remove_end`
does give it); a following `dllist_insert_end` writes through the stale
`last_node` and has no defined result. -/
theorem dllist_remove_beginning_leaves_last_node :
    dl_single.map (fun s => (s.2.first_node, s.2.last_node)) = some (some 0, some 0) ∧
    dl_single.bind (fun s => (dllist_remove_beginning s.1 s.2).map (fun t =>
      (t.2.first_node, t.2.last_node, (t.1 0).isSome, decide (t.2 = dllist_create),
        (dllist_insert_end (fun _ => some 1) t.1 t.2 8).isSome))) =
      some (none, some 0, false, false, false) ∧
    dl_single.bind (fun s => (dllist_remove_end s.1 s.2).map (fun t =>
      (t.2.first_node, t.2.last_node, (t.1 0).isSome, decide (t.2 = dllist_create),
        (dllist_insert_end (fun _ => some 1) t.1 t.2 8).isSome))) =
      some (none, none, false, true, true) := by
  decide!

/-- The second part of the two-node branch under two layouts of `list_node`.
With `CAP = 9` and counts 9, 8, 2, `list_remove` at the first slot of the middle
node reaches it (`s = 18`, the predecessor already holds `s / 2 = 9`,
`move_1 = 0`).  Its `memmove` reads from `node`, the start of the struct, not
from `node->data`.  When `count` precedes `data` in `list_node`, the centre
node's own elements 11 .. 17 come out as the count word 7 followed by 11 .. 16;
when `data` is the first member they come out in their original order. -/
theorem rebalance_reads_struct_base :
    (run 9 (fun _ => []) ops_9_8_2 init).map (fun s =>
      (chain_counts s.heap 5 s.lst.first_node, chain_elems s.heap 5 s.lst.first_node)) =
      some (some [9, 8, 2],
        some [0, 1, 2, 3, 4, 5, 6, 7, 8, 10, 11, 12, 13, 14, 15, 16, 17, 18, 19]) ∧
    (run 9 (fun _ => []) ops_9_8_2 init).bind (fun s =>
      (list_remove 9 (fun n => [n.count.toNat]) 5 s.heap s.lst ⟨some 9, 0⟩).map (fun r =>
        (chain_counts r.1 5 r.2.1.first_node, chain_elems r.1 5 r.2.1.first_node))) =
      some (some [9, 9],
        some [0, 1, 2, 3, 4, 5, 6, 7, 8, 7, 11, 12, 13, 14, 15, 16, 18, 19]) ∧
    (run 9 (fun _ => []) ops_9_8_2 init).bind (fun s =>
      (list_remove 9 (fun _ => []) 5 s.heap s.lst ⟨some 9, 0⟩).map (fun r =>
        (chain_counts r.1 5 r.2.1.first_node, chain_elems r.1 5 r.2.1.first_node))) =
      some (some [9, 9],
        some [0, 1, 2, 3, 4, 5, 6, 7, 8, 11, 12, 13, 14, 15, 16, 17, 18, 19]) := by
  decide!

end CDSL
